import Mathlib

/-!
Verification of the field-level encryption engine of the secure-capsule
library (src/core/FieldEncryption.ts) against its specification.

The embedding models JavaScript runtime values as the inductive type JVal.
JS numbers are modelled as integers (no claim under verification depends on
non-integer numerics).  JS objects are association lists in insertion order;
property assignment (obj[k] = v) is objInsert, which updates in place when
the key exists and appends otherwise, exactly like a JS object.

The platform pieces the repository calls but does not define are modelled
from their standard behaviour:
* JSON.stringify / JSON.parse: a verified printer/parser pair below
  (jsonStringify / jsonParse), with numbers restricted to integer numerals.
* the AES cipher layer (out of scope per the spec, "opaque encrypt/decrypt
  one value"): an injective token encoding carrying a fresh nonce and the
  plaintext (tokenEncode / tokenDecode).  Encrypting always stringifies
  non-string data first and decrypting tries JSON.parse with a fallback to
  the raw string, exactly as src/symmetric/aes.ts does.
-/

/-- A JavaScript runtime value, as far as the engine observes it:
primitives, strings, arrays, date-like objects (carrying their
toISOString/toJSON serialization), plain objects, and undefined. -/
inductive JVal where
  | jNull
  | jBool (b : Bool)
  | jNum (n : Int)
  | jStr (s : String)
  | jDate (iso : String)
  | jUndef
  | jArr (elems : List JVal)
  | jObj (fields : List (String × JVal))
deriving Repr

open JVal

mutual
/-- Structural equality test on values. -/
def JVal.beq : JVal → JVal → Bool
  | jNull, jNull => true
  | jBool a, jBool b => a = b
  | jNum a, jNum b => a = b
  | jStr a, jStr b => a = b
  | jDate a, jDate b => a = b
  | jUndef, jUndef => true
  | jArr xs, jArr ys => JVal.beqList xs ys
  | jObj xs, jObj ys => JVal.beqFields xs ys
  | _, _ => false

/-- Structural equality test on value lists. -/
def JVal.beqList : List JVal → List JVal → Bool
  | [], [] => true
  | x :: xs, y :: ys => JVal.beq x y && JVal.beqList xs ys
  | _, _ => false

/-- Structural equality test on field lists. -/
def JVal.beqFields : List (String × JVal) → List (String × JVal) → Bool
  | [], [] => true
  | (k, x) :: xs, (l, y) :: ys => k = l && JVal.beq x y && JVal.beqFields xs ys
  | _, _ => false
end

mutual
theorem JVal.beq_iff : ∀ a b : JVal, JVal.beq a b = true ↔ a = b
  | jNull, b => by cases b <;> simp [JVal.beq]
  | jBool x, b => by cases b <;> simp [JVal.beq]
  | jNum x, b => by cases b <;> simp [JVal.beq]
  | jStr x, b => by cases b <;> simp [JVal.beq]
  | jDate x, b => by cases b <;> simp [JVal.beq]
  | jUndef, b => by cases b <;> simp [JVal.beq]
  | jArr xs, b => by
      cases b <;> simp [JVal.beq]
      exact JVal.beqList_iff xs _
  | jObj xs, b => by
      cases b <;> simp [JVal.beq]
      exact JVal.beqFields_iff xs _

theorem JVal.beqList_iff : ∀ xs ys : List JVal, JVal.beqList xs ys = true ↔ xs = ys
  | [], ys => by cases ys <;> simp [JVal.beqList]
  | x :: xs, ys => by
      cases ys with
      | nil => simp [JVal.beqList]
      | cons y ys =>
          simp [JVal.beqList, JVal.beq_iff x y, JVal.beqList_iff xs ys]

theorem JVal.beqFields_iff :
    ∀ xs ys : List (String × JVal), JVal.beqFields xs ys = true ↔ xs = ys
  | [], ys => by cases ys <;> simp [JVal.beqFields]
  | (k, x) :: xs, ys => by
      cases ys with
      | nil => simp [JVal.beqFields]
      | cons p ys =>
          obtain ⟨l, y⟩ := p
          simp [JVal.beqFields, JVal.beq_iff x y, JVal.beqFields_iff xs ys,
            and_assoc]
end

instance : DecidableEq JVal := fun a b =>
  decidable_of_iff (JVal.beq a b = true) (JVal.beq_iff a b)

/-- Property lookup on a JS object (association list, first match). -/
def lookupField (fields : List (String × JVal)) (k : String) : Option JVal :=
  match fields with
  | [] => none
  | (k0, v0) :: rest => if k0 = k then some v0 else lookupField rest k

/-- JS property assignment obj[k] = v: update in place if the key exists
(keeping its position), append otherwise. -/
def objInsert (k : String) (v : JVal) (fields : List (String × JVal)) :
    List (String × JVal) :=
  match fields with
  | [] => [(k, v)]
  | (k0, v0) :: rest =>
      if k0 = k then (k0, v) :: rest else (k0, v0) :: objInsert k v rest

/-- Assign a sequence of properties in order. -/
def objInsertAll (fields : List (String × JVal))
    (updates : List (String × JVal)) : List (String × JVal) :=
  match updates with
  | [] => fields
  | (k, v) :: rest => objInsertAll (objInsert k v fields) rest

/-- Keys of a JS object in order. -/
def keysOf (fields : List (String × JVal)) : List String := fields.map Prod.fst

/-- JS truthiness of a property access (absent property reads as undefined). -/
def truthy (v : Option JVal) : Bool :=
  match v with
  | none => false
  | some jNull => false
  | some jUndef => false
  | some (jBool b) => b
  | some (jNum n) => decide (n ≠ 0)
  | some (jStr s) => decide (s ≠ "")
  | some (jArr _) => true
  | some (jObj _) => true
  | some (jDate _) => true

/-- Shape classifier from the source: typeof value is object, value is not
null, not an array, and not a Date (FieldEncryption.isPlainObject). -/
def isPlainObject (v : JVal) : Bool :=
  match v with
  | jObj _ => true
  | _ => false

/-- JS typeof v is the string object (true for objects, arrays, dates, null). -/
def typeofIsObject (v : JVal) : Bool :=
  match v with
  | jObj _ => true
  | jArr _ => true
  | jDate _ => true
  | jNull => true
  | _ => false

/-- Array test (Array.isArray). -/
def isArrayVal (v : JVal) : Bool :=
  match v with
  | jArr _ => true
  | _ => false

/-- Object.entries of a value already known to have typeof object: a plain
object yields its fields; a Date has no own enumerable properties. -/
def entriesOf (v : JVal) : List (String × JVal) :=
  match v with
  | jObj fields => fields
  | _ => []

/-! ### The modelled JSON printer (JSON.stringify) -/

/-- Decimal digit character for a value below ten. -/
def digitChar (n : Nat) : Char := Char.ofNat ('0'.toNat + n)

/-- Decimal digits of a natural number, most significant first; the fuel
argument (any value above the number) makes the recursion structural. -/
def natDigitsAux (fuel : Nat) (n : Nat) : List Char :=
  match fuel with
  | 0 => []
  | fuel + 1 =>
      if n < 10 then [digitChar n]
      else natDigitsAux fuel (n / 10) ++ [digitChar (n % 10)]

/-- Decimal digits of a natural number, most significant first. -/
def natDigits (n : Nat) : List Char := natDigitsAux (n + 1) n

/-- Character list of an integer in JSON numeral syntax. -/
def intChars (n : Int) : List Char :=
  if n < 0 then '-' :: natDigits n.natAbs else natDigits n.natAbs

/-- JSON string escaping of one character (quote and backslash; the common
control characters use their shorthand escapes). -/
def escapeChar (c : Char) : List Char :=
  if c = '"' then ['\\', '"']
  else if c = '\\' then ['\\', '\\']
  else if c = '\n' then ['\\', 'n']
  else if c = '\t' then ['\\', 't']
  else if c = '\r' then ['\\', 'r']
  else [c]

/-- A JSON string literal: quote, escaped body, quote. -/
def renderString (s : String) : List Char :=
  '"' :: (s.data.flatMap escapeChar ++ ['"'])

/-- Whether an object member list still contributes rendered members
(JSON.stringify drops members whose value is undefined). -/
def hasMember (fields : List (String × JVal)) : Bool :=
  fields.any (fun kv => kv.2 ≠ jUndef)

mutual
/-- Character list of JSON.stringify applied below the top level: undefined
becomes null inside arrays, dates serialize through toJSON to their ISO
string, and object members with undefined values are dropped. -/
def render : JVal → List Char
  | jNull => ['n', 'u', 'l', 'l']
  | jUndef => ['n', 'u', 'l', 'l']
  | jBool true => ['t', 'r', 'u', 'e']
  | jBool false => ['f', 'a', 'l', 's', 'e']
  | jNum n => intChars n
  | jStr s => renderString s
  | jDate iso => renderString iso
  | jArr elems => '[' :: (renderElems elems ++ [']'])
  | jObj fields => '{' :: (renderMembers fields ++ ['}'])

/-- Comma-separated rendering of array elements. -/
def renderElems : List JVal → List Char
  | [] => []
  | [v] => render v
  | v :: rest => render v ++ ',' :: renderElems rest

/-- Comma-separated rendering of object members, skipping undefined values. -/
def renderMembers : List (String × JVal) → List Char
  | [] => []
  | (k, v) :: rest =>
      if v = jUndef then renderMembers rest
      else
        renderString k ++ ':' :: render v ++
          (if hasMember rest then ',' :: renderMembers rest else [])
end

/-- JSON.stringify at the top level: undefined stringifies to no string at
all (the JS call returns undefined), every other modelled value to text. -/
def jsonStringify (v : JVal) : Option String :=
  match v with
  | jUndef => none
  | v => some (String.mk (render v))

/-! ### The modelled JSON parser (JSON.parse, integer numerals) -/

/-- JSON insignificant whitespace. -/
def isWsChar (c : Char) : Bool := c = ' ' || c = '\n' || c = '\t' || c = '\r'

/-- Drop leading JSON whitespace. -/
def dropWs : List Char → List Char
  | c :: rest => if isWsChar c then dropWs rest else c :: rest
  | [] => []

/-- Decimal digit test. -/
def isDigitChar (c : Char) : Bool := '0' ≤ c && c ≤ '9'

/-- Split off a maximal run of decimal digits. -/
def spanDigits : List Char → List Char × List Char
  | c :: rest =>
      if isDigitChar c then
        let (ds, r) := spanDigits rest
        (c :: ds, r)
      else ([], c :: rest)
  | [] => ([], [])

/-- Numeric value of a digit run, most significant first. -/
def digitsVal (ds : List Char) : Nat :=
  ds.foldl (fun acc c => acc * 10 + (c.toNat - '0'.toNat)) 0

/-- Resolve a backslash escape inside a JSON string literal. -/
def unescapeChar (c : Char) : Option Char :=
  if c = '"' then some '"'
  else if c = '\\' then some '\\'
  else if c = '/' then some '/'
  else if c = 'n' then some '\n'
  else if c = 't' then some '\t'
  else if c = 'r' then some '\r'
  else if c = 'b' then some (Char.ofNat 8)
  else if c = 'f' then some (Char.ofNat 12)
  else none

/-- Parse the body of a JSON string literal after the opening quote,
accumulating characters in reverse. -/
def parseStringBody (acc : List Char) : List Char → Option (String × List Char)
  | '"' :: rest => some (String.mk acc.reverse, rest)
  | '\\' :: e :: rest =>
      match unescapeChar e with
      | some c => parseStringBody (c :: acc) rest
      | none => none
  | c :: rest => parseStringBody (c :: acc) rest
  | [] => none

/-- Parse an integer JSON numeral (optional minus sign, digit run). -/
def parseNumber (cs : List Char) : Option (Int × List Char) :=
  match cs with
  | [] => none
  | c :: rest =>
      if c = '-' then
        let (ds, r) := spanDigits rest
        if ds.isEmpty then none else some (-(digitsVal ds : Int), r)
      else
        let (ds, r) := spanDigits (c :: rest)
        if ds.isEmpty then none else some ((digitsVal ds : Int), r)

mutual
/-- Parse one JSON value; fuel makes the recursion structural and exceeds
any real need at one unit per character of input. -/
def parseVal (fuel : Nat) (cs : List Char) : Option (JVal × List Char) :=
  match fuel with
  | 0 => none
  | fuel + 1 =>
      match dropWs cs with
      | 'n' :: 'u' :: 'l' :: 'l' :: r => some (jNull, r)
      | 't' :: 'r' :: 'u' :: 'e' :: r => some (jBool true, r)
      | 'f' :: 'a' :: 'l' :: 's' :: 'e' :: r => some (jBool false, r)
      | '"' :: r =>
          match parseStringBody [] r with
          | some (s, r1) => some (jStr s, r1)
          | none => none
      | '[' :: r =>
          match dropWs r with
          | [] => none
          | c :: r1 =>
              if c = ']' then some (jArr [], r1)
              else
                match parseElems fuel (c :: r1) with
                | some (vs, r2) => some (jArr vs, r2)
                | none => none
      | '{' :: r =>
          match dropWs r with
          | [] => none
          | c :: r1 =>
              if c = '}' then some (jObj [], r1)
              else
                match parseMembers fuel (c :: r1) with
                | some (ms, r2) => some (jObj (objInsertAll [] ms), r2)
                | none => none
      | c :: r =>
          if c = '-' || isDigitChar c then
            match parseNumber (c :: r) with
            | some (n, r1) => some (jNum n, r1)
            | none => none
          else none
      | [] => none

/-- Parse one or more comma-separated array elements up to the closing
bracket. -/
def parseElems (fuel : Nat) (cs : List Char) : Option (List JVal × List Char) :=
  match fuel with
  | 0 => none
  | fuel + 1 =>
      match parseVal fuel cs with
      | none => none
      | some (v, r) =>
          match dropWs r with
          | ',' :: r1 =>
              match parseElems fuel (dropWs r1) with
              | some (vs, r2) => some (v :: vs, r2)
              | none => none
          | ']' :: r1 => some ([v], r1)
          | _ => none

/-- Parse one or more comma-separated object members up to the closing
brace; duplicate keys are collapsed later by object assignment. -/
def parseMembers (fuel : Nat) (cs : List Char) :
    Option (List (String × JVal) × List Char) :=
  match fuel with
  | 0 => none
  | fuel + 1 =>
      match dropWs cs with
      | '"' :: r =>
          match parseStringBody [] r with
          | none => none
          | some (k, r1) =>
              match dropWs r1 with
              | ':' :: r2 =>
                  match parseVal fuel (dropWs r2) with
                  | none => none
                  | some (v, r3) =>
                      match dropWs r3 with
                      | ',' :: r4 =>
                          match parseMembers fuel (dropWs r4) with
                          | some (ms, r5) => some ((k, v) :: ms, r5)
                          | none => none
                      | '}' :: r4 => some ([(k, v)], r4)
                      | _ => none
              | _ => none
      | _ => none
end

/-- JSON.parse on the modelled grammar: parse one value and require only
whitespace to remain.  Returns none where the JS call would throw. -/
def jsonParse (s : String) : Option JVal :=
  match parseVal (s.length + 1) s.data with
  | some (v, rest) => if dropWs rest = [] then some v else none
  | none => none

/-! ### The printer/parser round trip -/

mutual
/-- A value survives the JSON round trip structurally: it contains no dates
(which serialize to strings), no undefined, and no object with duplicate
keys (which assignment collapses on parse). -/
def jsonRT : JVal → Bool
  | jNull => true
  | jBool _ => true
  | jNum _ => true
  | jStr _ => true
  | jDate _ => false
  | jUndef => false
  | jArr elems => jsonRTList elems
  | jObj fields => decide (keysOf fields).Nodup && jsonRTFields fields

/-- Round-trip safety of every element of an array. -/
def jsonRTList : List JVal → Bool
  | [] => true
  | v :: rest => jsonRT v && jsonRTList rest

/-- Round-trip safety of every member value of an object. -/
def jsonRTFields : List (String × JVal) → Bool
  | [] => true
  | (_, v) :: rest => jsonRT v && jsonRTFields rest
end

/-- Whether the input does not begin with a decimal digit (the delimiter
condition after parsing a numeral). -/
def notDigitStart (cs : List Char) : Bool :=
  match cs with
  | [] => true
  | c :: _ => !isDigitChar c

theorem digitChar_isDigit {k : Nat} (h : k < 10) :
    isDigitChar (digitChar k) = true := by
  interval_cases k <;> decide

theorem digitChar_toNat {k : Nat} (h : k < 10) :
    (digitChar k).toNat = 48 + k := by
  interval_cases k <;> decide

theorem isDigitChar_ranges {c : Char} (h : isDigitChar c = true) :
    c ≠ '-' ∧ isWsChar c = false ∧ c ≠ 'n' ∧ c ≠ 't' ∧ c ≠ 'f' ∧ c ≠ '"' ∧
      c ≠ '[' ∧ c ≠ '{' ∧ c ≠ ']' ∧ c ≠ '}' ∧ c ≠ ',' := by
  simp only [isDigitChar, Bool.and_eq_true, decide_eq_true_eq] at h
  refine ⟨?_, ?_, ?_, ?_, ?_, ?_, ?_, ?_, ?_, ?_, ?_⟩
  all_goals first
    | (intro hc; subst hc; revert h; decide)
    | (simp only [isWsChar, Bool.or_eq_false_iff, decide_eq_false_iff_not]
       refine ⟨⟨⟨?_, ?_⟩, ?_⟩, ?_⟩ <;> (intro hc; subst hc; revert h; decide))

theorem natDigitsAux_digits :
    ∀ fuel n, n < fuel → ∀ c ∈ natDigitsAux fuel n, isDigitChar c = true := by
  intro fuel
  induction fuel with
  | zero => omega
  | succ fuel ih =>
      intro n hn c hc
      by_cases h10 : n < 10
      · simp only [natDigitsAux, if_pos h10, List.mem_singleton] at hc
        exact hc ▸ digitChar_isDigit h10
      · simp only [natDigitsAux, if_neg h10, List.mem_append,
          List.mem_singleton] at hc
        rcases hc with hc | hc
        · exact ih (n / 10) (by omega) c hc
        · exact hc ▸ digitChar_isDigit (Nat.mod_lt _ (by omega))

theorem natDigitsAux_ne_nil :
    ∀ fuel n, n < fuel → natDigitsAux fuel n ≠ [] := by
  intro fuel n hn
  cases fuel with
  | zero => omega
  | succ fuel =>
      by_cases h10 : n < 10 <;> simp [natDigitsAux, h10]

theorem digitsVal_append_one (ds : List Char) (d : Char) :
    digitsVal (ds ++ [d]) = digitsVal ds * 10 + (d.toNat - '0'.toNat) := by
  simp [digitsVal, List.foldl_append]

theorem natDigitsAux_val :
    ∀ fuel n, n < fuel → digitsVal (natDigitsAux fuel n) = n := by
  intro fuel
  induction fuel with
  | zero => omega
  | succ fuel ih =>
      intro n hn
      by_cases h10 : n < 10
      · have hv := digitChar_toNat h10
        simp [natDigitsAux, h10, digitsVal, hv]
      · have hd : n / 10 < fuel := by
          have := Nat.div_lt_self (by omega : 0 < n) (by omega : 1 < 10)
          omega
        have hv := digitChar_toNat (Nat.mod_lt n (by omega : 0 < 10))
        simp only [natDigitsAux, if_neg h10, digitsVal_append_one,
          ih (n / 10) hd, hv, (by decide : '0'.toNat = 48)]
        omega

theorem natDigits_digits {n : Nat} : ∀ c ∈ natDigits n, isDigitChar c = true :=
  natDigitsAux_digits (n + 1) n (Nat.lt_succ_self n)

theorem natDigits_ne_nil {n : Nat} : natDigits n ≠ [] :=
  natDigitsAux_ne_nil (n + 1) n (Nat.lt_succ_self n)

theorem natDigits_val {n : Nat} : digitsVal (natDigits n) = n :=
  natDigitsAux_val (n + 1) n (Nat.lt_succ_self n)

theorem spanDigits_stop {cs : List Char} (h : notDigitStart cs = true) :
    spanDigits cs = ([], cs) := by
  cases cs with
  | nil => rfl
  | cons c t =>
      simp only [notDigitStart, Bool.not_eq_true'] at h
      simp [spanDigits, h]

theorem spanDigits_run :
    ∀ (ds : List Char), (∀ c ∈ ds, isDigitChar c = true) →
      ∀ rest, notDigitStart rest = true →
        spanDigits (ds ++ rest) = (ds, rest) := by
  intro ds
  induction ds with
  | nil => intro _ rest h; simpa using spanDigits_stop h
  | cons c t ih =>
      intro hall rest hrest
      have hc : isDigitChar c = true := hall c (by simp)
      have ht := ih (fun x hx => hall x (by simp [hx])) rest hrest
      simp [spanDigits, hc, ht]

theorem parseNumber_render (n : Int) {rest : List Char}
    (hrest : notDigitStart rest = true) :
    parseNumber (intChars n ++ rest) = some (n, rest) := by
  by_cases hn : n < 0
  · have habs : (n.natAbs : Int) = -n := by omega
    simp only [intChars, if_pos hn, List.cons_append, parseNumber, if_pos rfl,
      spanDigits_run (natDigits n.natAbs) (fun c hc => natDigits_digits c hc)
        rest hrest]
    simp [List.isEmpty_iff, natDigits_ne_nil, natDigits_val, habs]
  · have habs : (n.natAbs : Int) = n := by omega
    have hne := natDigits_ne_nil (n := n.natAbs)
    obtain ⟨c, t, hct⟩ : ∃ c t, natDigits n.natAbs = c :: t := by
      cases h : natDigits n.natAbs with
      | nil => exact absurd h hne
      | cons c t => exact ⟨c, t, rfl⟩
    have hcd : isDigitChar c = true :=
      natDigits_digits (n := n.natAbs) c (by rw [hct]; exact List.mem_cons_self c t)
    have hcm : c ≠ '-' := (isDigitChar_ranges hcd).1
    have hrun := spanDigits_run (natDigits n.natAbs)
      (fun x hx => natDigits_digits x hx) rest hrest
    rw [hct] at hrun
    simp only [intChars, if_neg hn, hct, List.cons_append, parseNumber,
      if_neg hcm]
    rw [show c :: (t ++ rest) = (c :: t) ++ rest from rfl, hrun]
    simp [List.isEmpty_iff, ← hct, natDigits_ne_nil, natDigits_val, habs]

theorem parseStringBody_escape (c : Char) (acc rest : List Char) :
    parseStringBody acc (escapeChar c ++ rest) = parseStringBody (c :: acc) rest := by
  by_cases h1 : c = '"'
  · subst h1; rfl
  by_cases h2 : c = '\\'
  · subst h2; rfl
  by_cases h3 : c = '\n'
  · subst h3; rfl
  by_cases h4 : c = '\t'
  · subst h4; rfl
  by_cases h5 : c = '\r'
  · subst h5; rfl
  rw [escapeChar, if_neg h1, if_neg h2, if_neg h3, if_neg h4, if_neg h5]
  rw [List.singleton_append, parseStringBody.eq_def]
  simp [h1, h2]

theorem parseStringBody_render (cs : List Char) :
    ∀ (acc rest : List Char),
      parseStringBody acc (cs.flatMap escapeChar ++ '"' :: rest) =
        some (String.mk (acc.reverse ++ cs), rest) := by
  induction cs with
  | nil => intro acc rest; simp [parseStringBody]
  | cons c t ih =>
      intro acc rest
      rw [List.flatMap_cons, List.append_assoc, parseStringBody_escape, ih]
      simp

theorem parseString_render (s : String) (rest : List Char) :
    parseStringBody [] (s.data.flatMap escapeChar ++ '"' :: rest) =
      some (s, rest) := by
  rw [parseStringBody_render]
  cases s
  simp

theorem objInsert_fresh {k : String} {v : JVal} :
    ∀ {fields : List (String × JVal)}, k ∉ keysOf fields →
      objInsert k v fields = fields ++ [(k, v)]
  | [], _ => rfl
  | (k0, v0) :: rest, h => by
      have hk : k0 ≠ k := by
        intro hk; exact h (by simp [keysOf, hk])
      have ht : k ∉ keysOf rest := fun hm => h (by simp [keysOf] at hm ⊢; tauto)
      simp [objInsert, hk, objInsert_fresh ht]

theorem keysOf_cons {k : String} {v : JVal} {rest : List (String × JVal)} :
    keysOf ((k, v) :: rest) = k :: keysOf rest := rfl

theorem objInsertAll_fresh :
    ∀ (ms fields : List (String × JVal)), (keysOf ms).Nodup →
      (∀ k ∈ keysOf ms, k ∉ keysOf fields) →
      objInsertAll fields ms = fields ++ ms
  | [], fields, _, _ => by simp [objInsertAll]
  | (k, v) :: rest, fields, hnd, hdisj => by
      rw [keysOf_cons] at hnd hdisj
      obtain ⟨hkr, hnd1⟩ := List.nodup_cons.mp hnd
      have hk : k ∉ keysOf fields := hdisj k (List.mem_cons_self _ _)
      have hdisj1 : ∀ x ∈ keysOf rest, x ∉ keysOf (fields ++ [(k, v)]) := by
        intro x hx hxm
        have hxf := hdisj x (List.mem_cons_of_mem _ hx)
        have hsplit : keysOf (fields ++ [(k, v)]) = keysOf fields ++ [k] := by
          simp [keysOf]
        rw [hsplit] at hxm
        rcases List.mem_append.mp hxm with h | h
        · exact hxf h
        · have hxk : x = k := by simpa using h
          exact hkr (hxk ▸ hx)
      rw [objInsertAll, objInsert_fresh hk,
        objInsertAll_fresh rest _ hnd1 hdisj1]
      simp

theorem renderHead (v : JVal) :
    ∃ c t, render v = c :: t ∧ isWsChar c = false ∧ c ≠ ']' ∧ c ≠ '}' := by
  cases v with
  | jNull => refine ⟨'n', _, rfl, ?_, ?_, ?_⟩ <;> decide
  | jUndef => refine ⟨'n', _, rfl, ?_, ?_, ?_⟩ <;> decide
  | jBool b =>
      cases b
      · refine ⟨'f', _, rfl, ?_, ?_, ?_⟩ <;> decide
      · refine ⟨'t', _, rfl, ?_, ?_, ?_⟩ <;> decide
  | jStr s => refine ⟨'"', _, rfl, ?_, ?_, ?_⟩ <;> decide
  | jDate iso => refine ⟨'"', _, rfl, ?_, ?_, ?_⟩ <;> decide
  | jArr elems => refine ⟨'[', _, rfl, ?_, ?_, ?_⟩ <;> decide
  | jObj fields => refine ⟨'{', _, rfl, ?_, ?_, ?_⟩ <;> decide
  | jNum n =>
      by_cases hn : n < 0
      · exact ⟨'-', natDigits n.natAbs, by simp [render, intChars, hn],
          by decide, by decide, by decide⟩
      · obtain ⟨c, t, hct⟩ : ∃ c t, natDigits n.natAbs = c :: t := by
          cases h : natDigits n.natAbs with
          | nil => exact absurd h natDigits_ne_nil
          | cons c t => exact ⟨c, t, rfl⟩
        have hcd : isDigitChar c = true :=
          natDigits_digits (n := n.natAbs) c
            (by rw [hct]; exact List.mem_cons_self c t)
        obtain ⟨_, hws, _, _, _, _, _, _, hrb, hcb, _⟩ := isDigitChar_ranges hcd
        exact ⟨c, t, by simp [render, intChars, hn, hct], hws, hrb, hcb⟩

theorem dropWs_render (v : JVal) (x : List Char) :
    dropWs (render v ++ x) = render v ++ x := by
  obtain ⟨c, t, hct, hws, -, -⟩ := renderHead v
  rw [hct, List.cons_append, dropWs]
  simp [hws]

theorem parseVal_numCase (fuel : Nat) (c : Char) (t : List Char)
    (hws : isWsChar c = false) (h1 : c ≠ 'n') (h2 : c ≠ 't') (h3 : c ≠ 'f')
    (h4 : c ≠ '"') (h5 : c ≠ '[') (h6 : c ≠ '{')
    (hnum : (decide (c = '-') || isDigitChar c) = true) :
    parseVal (fuel + 1) (c :: t) =
      match parseNumber (c :: t) with
      | some (n, r1) => some (jNum n, r1)
      | none => none := by
  rw [parseVal]
  rw [show dropWs (c :: t) = c :: t by simp [dropWs, hws]]
  split
  case h_1 r heq => injection heq with hc _; exact absurd hc h1
  case h_2 r heq => injection heq with hc _; exact absurd hc h2
  case h_3 r heq => injection heq with hc _; exact absurd hc h3
  case h_4 r heq => injection heq with hc _; exact absurd hc h4
  case h_5 r heq => injection heq with hc _; exact absurd hc h5
  case h_6 r heq => injection heq with hc _; exact absurd hc h6
  case h_8 heq => exact List.noConfusion heq
  case h_7 c1 r heq =>
      injection heq with hc hr
      subst hc; subst hr
      rw [if_pos hnum]

theorem parseVal_arrCase (fuel : Nat) (r : List Char) (c : Char)
    (r1 : List Char) (hdrop : dropWs r = c :: r1) (hc : c ≠ ']') :
    parseVal (fuel + 1) ('[' :: r) =
      match parseElems fuel (c :: r1) with
      | some (vs, r2) => some (jArr vs, r2)
      | none => none := by
  rw [parseVal]
  rw [show dropWs ('[' :: r) = '[' :: r from by rw [dropWs]; simp [isWsChar]]
  split
  case h_1 r2 heq => injection heq with hx _; exact absurd hx (by decide)
  case h_2 r2 heq => injection heq with hx _; exact absurd hx (by decide)
  case h_3 r2 heq => injection heq with hx _; exact absurd hx (by decide)
  case h_4 r2 heq => injection heq with hx _; exact absurd hx (by decide)
  case h_6 r2 heq => injection heq with hx _; exact absurd hx (by decide)
  case h_8 heq => exact List.noConfusion heq
  case h_5 r2 heq =>
      injection heq with _ hr
      subst hr
      rw [hdrop]
      simp [hc]
  case h_7 =>
      rename_i c1 r2 hn ht hf hq hb hob heq
      injection heq with hx hr
      exact absurd hx.symm hb

theorem parseVal_objCase (fuel : Nat) (r : List Char) (c : Char)
    (r1 : List Char) (hdrop : dropWs r = c :: r1) (hc : c ≠ '}') :
    parseVal (fuel + 1) ('{' :: r) =
      match parseMembers fuel (c :: r1) with
      | some (ms, r2) => some (jObj (objInsertAll [] ms), r2)
      | none => none := by
  rw [parseVal]
  rw [show dropWs ('{' :: r) = '{' :: r from by rw [dropWs]; simp [isWsChar]]
  split
  case h_1 r2 heq => injection heq with hx _; exact absurd hx (by decide)
  case h_2 r2 heq => injection heq with hx _; exact absurd hx (by decide)
  case h_3 r2 heq => injection heq with hx _; exact absurd hx (by decide)
  case h_4 r2 heq => injection heq with hx _; exact absurd hx (by decide)
  case h_5 r2 heq => injection heq with hx _; exact absurd hx (by decide)
  case h_8 heq => exact List.noConfusion heq
  case h_6 r2 heq =>
      injection heq with _ hr
      subst hr
      rw [hdrop]
      simp [hc]
  case h_7 =>
      rename_i c1 r2 hn ht hf hq hb hob heq
      injection heq with hx hr
      exact absurd hx.symm hob

theorem jsonRT_ne_undef {v : JVal} (h : jsonRT v = true) : v ≠ jUndef := by
  intro hv; rw [hv] at h; exact absurd h (by decide)

theorem jsonRTList_head {v : JVal} {rest : List JVal}
    (h : jsonRTList (v :: rest) = true) :
    jsonRT v = true ∧ jsonRTList rest = true := by
  rw [jsonRTList] at h
  exact Bool.and_eq_true_iff.mp h

theorem jsonRTFields_head {k : String} {v : JVal} {rest : List (String × JVal)}
    (h : jsonRTFields ((k, v) :: rest) = true) :
    jsonRT v = true ∧ jsonRTFields rest = true := by
  rw [jsonRTFields] at h
  exact Bool.and_eq_true_iff.mp h

theorem hasMember_of_rt {ms : List (String × JVal)}
    (h : jsonRTFields ms = true) : hasMember ms = !ms.isEmpty := by
  cases ms with
  | nil => rfl
  | cons kv rest =>
      obtain ⟨k, v⟩ := kv
      have hv := (jsonRTFields_head h).1
      simp [hasMember, jsonRT_ne_undef hv]

theorem renderElems_cons_cons (v x : JVal) (xs : List JVal) :
    renderElems (v :: x :: xs) = render v ++ ',' :: renderElems (x :: xs) := by
  rw [renderElems]
  exact fun h => List.noConfusion h

theorem renderMembers_cons (k : String) (v : JVal)
    (ms : List (String × JVal)) (hv : v ≠ jUndef) :
    renderMembers ((k, v) :: ms) =
      renderString k ++ ':' :: render v ++
        (if hasMember ms then ',' :: renderMembers ms else []) := by
  rw [renderMembers, if_neg hv]

theorem dropWs_renderElems (x : JVal) (xs : List JVal) (t : List Char) :
    dropWs (renderElems (x :: xs) ++ t) = renderElems (x :: xs) ++ t := by
  obtain ⟨c, t0, hct, hws, -, -⟩ := renderHead x
  cases xs with
  | nil =>
      rw [show renderElems [x] = render x from by rw [renderElems]]
      exact dropWs_render x t
  | cons y ys =>
      rw [renderElems_cons_cons, List.append_assoc]
      exact dropWs_render x _

theorem renderElems_head (x : JVal) (xs : List JVal) :
    ∃ c t, renderElems (x :: xs) = c :: t ∧ isWsChar c = false ∧
      c ≠ ']' ∧ c ≠ '}' := by
  obtain ⟨c, t0, hct, hws, hb, hbr⟩ := renderHead x
  cases xs with
  | nil =>
      exact ⟨c, t0, by rw [show renderElems [x] = render x from by
        rw [renderElems], hct], hws, hb, hbr⟩
  | cons y ys =>
      refine ⟨c, t0 ++ ',' :: renderElems (y :: ys), ?_, hws, hb, hbr⟩
      rw [renderElems_cons_cons, hct]
      simp

theorem dropWs_cons_of {c : Char} {t : List Char} (h : isWsChar c = false) :
    dropWs (c :: t) = c :: t := by
  rw [dropWs]; simp [h]

theorem parseVal_renderStr (f : Nat) (s : String) (rest : List Char) :
    parseVal (f + 1) (render (jStr s) ++ rest) = some (jStr s, rest) := by
  rw [show render (jStr s) ++ rest =
      '"' :: (s.data.flatMap escapeChar ++ '"' :: rest) from by
    simp [render, renderString]]
  show (match parseStringBody [] (s.data.flatMap escapeChar ++ '"' :: rest) with
        | some (s1, r1) => some (jStr s1, r1)
        | none => none) = some (jStr s, rest)
  rw [parseString_render]

theorem parseVal_renderNum (f : Nat) (n : Int) (rest : List Char)
    (hrest : notDigitStart rest = true) :
    parseVal (f + 1) (render (jNum n) ++ rest) = some (jNum n, rest) := by
  obtain ⟨c, t, hct, hws, hb, hbr⟩ := renderHead (jNum n)
  have hnum : (decide (c = '-') || isDigitChar c) = true := by
    rw [render] at hct
    by_cases hn : n < 0
    · rw [intChars, if_pos hn] at hct
      injection hct with h1 _
      simp [← h1]
    · rw [intChars, if_neg hn] at hct
      have : isDigitChar c = true := by
        refine natDigits_digits (n := n.natAbs) c ?_
        rw [hct]; exact List.mem_cons_self c t
      simp [this]
  have h1 : c ≠ 'n' := by
    intro h; rw [h] at hnum; exact absurd hnum (by decide)
  have h2 : c ≠ 't' := by
    intro h; rw [h] at hnum; exact absurd hnum (by decide)
  have h3 : c ≠ 'f' := by
    intro h; rw [h] at hnum; exact absurd hnum (by decide)
  have h4 : c ≠ '"' := by
    intro h; rw [h] at hnum; exact absurd hnum (by decide)
  have h5 : c ≠ '[' := by
    intro h; rw [h] at hnum; exact absurd hnum (by decide)
  have h6 : c ≠ '{' := by
    intro h; rw [h] at hnum; exact absurd hnum (by decide)
  rw [show render (jNum n) ++ rest = c :: (t ++ rest) from by rw [hct]; simp]
  rw [parseVal_numCase f c (t ++ rest) hws h1 h2 h3 h4 h5 h6 hnum]
  rw [show (c :: (t ++ rest) : List Char) = intChars n ++ rest from by
    rw [show (intChars n : List Char) = render (jNum n) from rfl, hct]; simp]
  rw [parseNumber_render n hrest]

mutual
theorem rt_val : ∀ (v : JVal) (fuel : Nat) (rest : List Char),
    jsonRT v = true → (render v).length < fuel → notDigitStart rest = true →
    parseVal fuel (render v ++ rest) = some (v, rest)
  | jNull, fuel, rest, _, hf, _ => by
      cases fuel with
      | zero => simp [render] at hf
      | succ f => rfl
  | jUndef, fuel, rest, hrt, _, _ => by
      simp [jsonRT] at hrt
  | jDate iso, fuel, rest, hrt, _, _ => by
      simp [jsonRT] at hrt
  | jBool b, fuel, rest, _, hf, _ => by
      cases fuel with
      | zero => cases b <;> simp [render] at hf
      | succ f => cases b <;> rfl
  | jNum n, fuel, rest, _, hf, hrest => by
      cases fuel with
      | zero => exact absurd hf (Nat.not_lt_zero _)
      | succ f => exact parseVal_renderNum f n rest hrest
  | jStr s, fuel, rest, _, hf, _ => by
      cases fuel with
      | zero => exact absurd hf (Nat.not_lt_zero _)
      | succ f => exact parseVal_renderStr f s rest
  | jArr [], fuel, rest, _, hf, _ => by
      cases fuel with
      | zero => exact absurd hf (Nat.not_lt_zero _)
      | succ f => rfl
  | jArr (e :: es), fuel, rest, hrt, hf, _ => by
      cases fuel with
      | zero => exact absurd hf (Nat.not_lt_zero _)
      | succ f =>
          have hrtl : jsonRTList (e :: es) = true := by
            rw [jsonRT] at hrt; exact hrt
          have hfe : (renderElems (e :: es)).length + 1 < f := by
            rw [render] at hf
            simp only [List.length_cons, List.length_append,
              List.length_singleton] at hf
            omega
          obtain ⟨c, t, hct, hws, hb, hbr⟩ := renderElems_head e es
          have hdrop : dropWs (renderElems (e :: es) ++ ']' :: rest) =
              c :: (t ++ ']' :: rest) := by
            rw [hct, List.cons_append, dropWs_cons_of hws]
          rw [show render (jArr (e :: es)) ++ rest =
              '[' :: (renderElems (e :: es) ++ ']' :: rest) from by
            rw [render]; simp]
          rw [parseVal_arrCase f _ c (t ++ ']' :: rest) hdrop hb]
          rw [show (c :: (t ++ ']' :: rest) : List Char) =
              renderElems (e :: es) ++ ']' :: rest from by rw [hct]; simp]
          rw [rt_elems e es f rest hrtl hfe]
  | jObj [], fuel, rest, _, hf, _ => by
      cases fuel with
      | zero => exact absurd hf (Nat.not_lt_zero _)
      | succ f => rfl
  | jObj ((k, v) :: ms), fuel, rest, hrt, hf, _ => by
      cases fuel with
      | zero => exact absurd hf (Nat.not_lt_zero _)
      | succ f =>
          have hnd : (keysOf ((k, v) :: ms)).Nodup := by
            rw [jsonRT, Bool.and_eq_true_iff] at hrt
            exact of_decide_eq_true hrt.1
          have hrtf : jsonRTFields ((k, v) :: ms) = true := by
            rw [jsonRT, Bool.and_eq_true_iff] at hrt
            exact hrt.2
          have hv : v ≠ jUndef := jsonRT_ne_undef (jsonRTFields_head hrtf).1
          have hfm : (renderMembers ((k, v) :: ms)).length + 1 < f := by
            rw [render] at hf
            simp only [List.length_cons, List.length_append,
              List.length_singleton] at hf
            omega
          have hhead : ∃ t0, renderMembers ((k, v) :: ms) = '"' :: t0 := by
            rw [renderMembers_cons k v ms hv, renderString]
            exact ⟨_, rfl⟩
          obtain ⟨t0, ht0⟩ := hhead
          have hdrop : dropWs (renderMembers ((k, v) :: ms) ++ '}' :: rest) =
              '"' :: (t0 ++ '}' :: rest) := by
            rw [ht0, List.cons_append, dropWs_cons_of (by decide)]
          rw [show render (jObj ((k, v) :: ms)) ++ rest =
              '{' :: (renderMembers ((k, v) :: ms) ++ '}' :: rest) from by
            rw [render]; simp]
          rw [parseVal_objCase f _ '"' (t0 ++ '}' :: rest) hdrop (by decide)]
          rw [show ('"' :: (t0 ++ '}' :: rest) : List Char) =
              renderMembers ((k, v) :: ms) ++ '}' :: rest from by
            rw [ht0]; simp]
          rw [rt_members k v ms f rest hrtf hfm]
          show some (jObj (objInsertAll [] ((k, v) :: ms)), rest) =
            some (jObj ((k, v) :: ms), rest)
          rw [objInsertAll_fresh ((k, v) :: ms) [] hnd (by simp [keysOf])]
          rw [List.nil_append]
  termination_by v _ _ _ _ _ => sizeOf v

theorem rt_elems : ∀ (x : JVal) (xs : List JVal) (fuel : Nat) (rest : List Char),
    jsonRTList (x :: xs) = true →
    (renderElems (x :: xs)).length + 1 < fuel →
    parseElems fuel (renderElems (x :: xs) ++ ']' :: rest) = some (x :: xs, rest)
  | x, [], fuel, rest, hrt, hf => by
      cases fuel with
      | zero => omega
      | succ f =>
          have hx := (jsonRTList_head hrt).1
          have hfe : (render x).length < f := by
            rw [show renderElems [x] = render x from by rw [renderElems]] at hf
            omega
          have hv := rt_val x f (']' :: rest) hx hfe rfl
          rw [show renderElems [x] = render x from by rw [renderElems]]
          rw [parseElems, hv]
          rfl
  | x, y :: ys, fuel, rest, hrt, hf => by
      cases fuel with
      | zero => omega
      | succ f =>
          have hx := (jsonRTList_head hrt).1
          have hys := (jsonRTList_head hrt).2
          rw [renderElems_cons_cons] at hf
          simp only [List.length_append, List.length_cons] at hf
          have hfe : (render x).length < f := by omega
          have hfy : (renderElems (y :: ys)).length + 1 < f := by omega
          have hv := rt_val x f (',' :: (renderElems (y :: ys) ++ ']' :: rest))
            hx hfe rfl
          have hkey := rt_elems y ys f rest hys hfy
          rw [renderElems_cons_cons,
            show (render x ++ ',' :: renderElems (y :: ys)) ++ ']' :: rest =
              render x ++ ',' :: (renderElems (y :: ys) ++ ']' :: rest) from by
            simp]
          rw [parseElems, hv]
          show (match dropWs (',' :: (renderElems (y :: ys) ++ ']' :: rest)) with
                | ',' :: r1 =>
                    match parseElems f (dropWs r1) with
                    | some (vs, r2) => some (x :: vs, r2)
                    | none => none
                | ']' :: r1 => some ([x], r1)
                | _ => none) = some (x :: y :: ys, rest)
          rw [dropWs_cons_of (by decide)]
          show (match parseElems f
                  (dropWs (renderElems (y :: ys) ++ ']' :: rest)) with
                | some (vs, r2) => some (x :: vs, r2)
                | none => none) = some (x :: y :: ys, rest)
          rw [dropWs_renderElems, hkey]
  termination_by x xs _ _ _ _ => sizeOf x + sizeOf xs

theorem rt_members : ∀ (k : String) (v : JVal) (ms : List (String × JVal))
    (fuel : Nat) (rest : List Char),
    jsonRTFields ((k, v) :: ms) = true →
    (renderMembers ((k, v) :: ms)).length + 1 < fuel →
    parseMembers fuel (renderMembers ((k, v) :: ms) ++ '}' :: rest) =
      some ((k, v) :: ms, rest)
  | k, v, [], fuel, rest, hrt, hf => by
      cases fuel with
      | zero => omega
      | succ f =>
          have hx := (jsonRTFields_head hrt).1
          have hv : v ≠ jUndef := jsonRT_ne_undef hx
          rw [renderMembers_cons k v [] hv] at hf ⊢
          rw [show hasMember ([] : List (String × JVal)) = false from rfl] at hf ⊢
          simp only [Bool.false_eq_true, if_false, List.append_nil] at hf ⊢
          simp only [renderString, List.length_cons, List.length_append] at hf
          have hfe : (render v).length < f := by omega
          have hveq := rt_val v f ('}' :: rest) hx hfe rfl
          rw [show (renderString k ++ ':' :: render v) ++ '}' :: rest =
              '"' :: (k.data.flatMap escapeChar ++
                '"' :: (':' :: (render v ++ '}' :: rest))) from by
            simp [renderString]]
          rw [parseMembers]
          rw [dropWs_cons_of (by decide)]
          show (match parseStringBody []
                  (k.data.flatMap escapeChar ++
                    '"' :: (':' :: (render v ++ '}' :: rest))) with
                | none => none
                | some (key, r1) =>
                    match dropWs r1 with
                    | ':' :: r2 =>
                        match parseVal f (dropWs r2) with
                        | none => none
                        | some (v1, r3) =>
                            match dropWs r3 with
                            | ',' :: r4 =>
                                match parseMembers f (dropWs r4) with
                                | some (ms1, r5) => some ((key, v1) :: ms1, r5)
                                | none => none
                            | '}' :: r4 => some ([(key, v1)], r4)
                            | _ => none
                    | _ => none) = some ([(k, v)], rest)
          rw [parseString_render]
          show (match dropWs (':' :: (render v ++ '}' :: rest)) with
                | ':' :: r2 =>
                    match parseVal f (dropWs r2) with
                    | none => none
                    | some (v1, r3) =>
                        match dropWs r3 with
                        | ',' :: r4 =>
                            match parseMembers f (dropWs r4) with
                            | some (ms1, r5) => some ((k, v1) :: ms1, r5)
                            | none => none
                        | '}' :: r4 => some ([(k, v1)], r4)
                        | _ => none
                | _ => none) = some ([(k, v)], rest)
          rw [dropWs_cons_of (by decide)]
          show (match parseVal f (dropWs (render v ++ '}' :: rest)) with
                | none => none
                | some (v1, r3) =>
                    match dropWs r3 with
                    | ',' :: r4 =>
                        match parseMembers f (dropWs r4) with
                        | some (ms1, r5) => some ((k, v1) :: ms1, r5)
                        | none => none
                    | '}' :: r4 => some ([(k, v1)], r4)
                    | _ => none) = some ([(k, v)], rest)
          rw [dropWs_render, hveq]
          rfl
  | k, v, (k2, v2) :: ms2, fuel, rest, hrt, hf => by
      cases fuel with
      | zero => omega
      | succ f =>
          have hx := (jsonRTFields_head hrt).1
          have hrest2 := (jsonRTFields_head hrt).2
          have hv : v ≠ jUndef := jsonRT_ne_undef hx
          have hv2 : v2 ≠ jUndef :=
            jsonRT_ne_undef (jsonRTFields_head hrest2).1
          have hmem : hasMember ((k2, v2) :: ms2) = true := by
            simp [hasMember, hv2]
          rw [renderMembers_cons k v _ hv, hmem, if_pos rfl] at hf ⊢
          simp only [renderString, List.length_cons, List.length_append] at hf
          have hfe : (render v).length < f := by omega
          have hfm : (renderMembers ((k2, v2) :: ms2)).length + 1 < f := by
            omega
          have hveq := rt_val v f
            (',' :: (renderMembers ((k2, v2) :: ms2) ++ '}' :: rest)) hx hfe
            rfl
          have hkey := rt_members k2 v2 ms2 f rest hrest2 hfm
          rw [show (renderString k ++
              ':' :: render v ++
                ',' :: renderMembers ((k2, v2) :: ms2)) ++ '}' :: rest =
              '"' :: (k.data.flatMap escapeChar ++
                '"' :: (':' :: (render v ++
                  ',' :: (renderMembers ((k2, v2) :: ms2) ++ '}' :: rest)))) from by
            simp [renderString]]
          rw [parseMembers]
          rw [dropWs_cons_of (by decide)]
          show (match parseStringBody []
                  (k.data.flatMap escapeChar ++
                    '"' :: (':' :: (render v ++
                      ',' :: (renderMembers ((k2, v2) :: ms2) ++
                        '}' :: rest)))) with
                | none => none
                | some (key, r1) =>
                    match dropWs r1 with
                    | ':' :: r2 =>
                        match parseVal f (dropWs r2) with
                        | none => none
                        | some (v1, r3) =>
                            match dropWs r3 with
                            | ',' :: r4 =>
                                match parseMembers f (dropWs r4) with
                                | some (ms1, r5) => some ((key, v1) :: ms1, r5)
                                | none => none
                            | '}' :: r4 => some ([(key, v1)], r4)
                            | _ => none
                    | _ => none) = some ((k, v) :: (k2, v2) :: ms2, rest)
          rw [parseString_render]
          show (match parseVal f (dropWs (render v ++
                  ',' :: (renderMembers ((k2, v2) :: ms2) ++ '}' :: rest))) with
                | none => none
                | some (v1, r3) =>
                    match dropWs r3 with
                    | ',' :: r4 =>
                        match parseMembers f (dropWs r4) with
                        | some (ms1, r5) => some ((k, v1) :: ms1, r5)
                        | none => none
                    | '}' :: r4 => some ([(k, v1)], r4)
                    | _ => none) = some ((k, v) :: (k2, v2) :: ms2, rest)
          rw [dropWs_render, hveq]
          show (match parseMembers f
                  (dropWs (renderMembers ((k2, v2) :: ms2) ++ '}' :: rest)) with
                | some (ms1, r5) => some ((k, v) :: ms1, r5)
                | none => none) = some ((k, v) :: (k2, v2) :: ms2, rest)
          rw [show dropWs (renderMembers ((k2, v2) :: ms2) ++ '}' :: rest) =
              renderMembers ((k2, v2) :: ms2) ++ '}' :: rest from by
            rw [renderMembers_cons k2 v2 ms2 hv2, renderString]
            exact dropWs_cons_of (by decide)]
          rw [hkey]
  termination_by _ v ms _ _ _ _ => sizeOf v + sizeOf ms
end

theorem jsonParse_render {v : JVal} (h : jsonRT v = true) :
    jsonParse (String.mk (render v)) = some v := by
  have hv := rt_val v ((render v).length + 1) [] h (by omega) rfl
  rw [List.append_nil] at hv
  simp only [jsonParse]
  rw [show (String.mk (render v)).length = (render v).length from rfl, hv]
  rfl

/-! ### Randomness source and the modelled cipher adapter -/

/-- The process randomness source (Math.random and the cipher IV source),
modelled as a tape of naturals with a read position; each draw stands for
one platform random sample, reduced modulo the needed range at use sites. -/
structure Rng where
  tape : Nat → Nat
  pos : Nat

/-- Take one random sample. -/
def draw (r : Rng) : Nat × Rng := (r.tape r.pos, { tape := r.tape, pos := r.pos + 1 })

/-- The 52-letter alias alphabet from generateRandomFieldName. -/
def aliasAlphabet : List Char :=
  "abcdefghijklmnopqrstuvwxyzABCDEFGHIJKLMNOPQRSTUVWXYZ".data

/-- The character-accumulating loop of generateRandomFieldName: each
iteration draws one sample and appends one alphabet character. -/
def genChars : Nat → Rng → List Char × Rng
  | 0, r => ([], r)
  | n + 1, r =>
      let (x, r1) := draw r
      let c := aliasAlphabet.getD (x % 52) 'a'
      let (cs, r2) := genChars n r1
      (c :: cs, r2)

/-- FieldEncryption.generateRandomFieldName: draw a length in [6, 13]
(Math.floor(Math.random() * 8) + 6), then that many alphabet characters. -/
def generateRandomFieldName (r : Rng) : String × Rng :=
  let (x, r1) := draw r
  let len := x % 8 + 6
  let (cs, r2) := genChars len r1
  (String.mk cs, r2)

/-- An opaque cipher token: the AES layer is out of scope per the spec, so a
token is modelled as an injective encoding of the fresh nonce (IV) and the
plaintext; its only observable properties are being a string, decoding back
to the plaintext, and varying with the nonce. -/
def tokenEncode (nonce : Nat) (plain : String) : String :=
  String.mk (List.replicate (nonce + 1) '!' ++ '#' :: plain.data)

/-- Recover the plaintext of a token body after the first mark. -/
def tokenDecodeAux : List Char → Option String
  | '!' :: rest => tokenDecodeAux rest
  | '#' :: rest => some (String.mk rest)
  | _ => none

/-- Recover the plaintext of a token; none models the DecryptionFailure
throw on a string that is not a well-formed token. -/
def tokenDecode (tok : String) : Option String :=
  match tok.data with
  | '!' :: rest => tokenDecodeAux rest
  | _ => none

/-- The plaintext the cipher adapter encrypts for a value: a string is used
as is, anything else goes through JSON.stringify (src/symmetric/aes.ts,
encryptSymmetric). -/
def plaintextOf (v : JVal) : Option String :=
  match v with
  | jStr s => some s
  | v => jsonStringify v

/-- SecureCapsule.encrypt (encryptSymmetricForTransmission): stringify
non-string data, draw a fresh IV, and produce an opaque token.  none models
the throw when JSON.stringify yields no string (undefined input). -/
def capsuleEncrypt (r : Rng) (v : JVal) : Option (String × Rng) :=
  match plaintextOf v with
  | none => none
  | some p =>
      let (nonce, r1) := draw r
      some (tokenEncode nonce p, r1)

/-- JSON.parse with fallback to the raw string, as in decryptSymmetric. -/
def decodePlain (s : String) : JVal :=
  match jsonParse s with
  | some v => v
  | none => jStr s

/-- SecureCapsule.decrypt (decryptSymmetricFromTransmission): recover the
plaintext from the token (none models the DecryptionFailure throw), then
try JSON.parse with fallback to the raw string. -/
def capsuleDecrypt (tok : String) : Option JVal :=
  match tokenDecode tok with
  | none => none
  | some p => some (decodePlain p)

theorem tokenDecodeAux_run (n : Nat) (p : String) :
    tokenDecodeAux (List.replicate n '!' ++ '#' :: p.data) = some p := by
  induction n with
  | zero => simp [tokenDecodeAux]
  | succ m ih => simpa [tokenDecodeAux, List.replicate_succ] using ih

theorem tokenDecode_encode (nonce : Nat) (p : String) :
    tokenDecode (tokenEncode nonce p) = some p := by
  rw [tokenEncode, tokenDecode]
  rw [show (String.mk (List.replicate (nonce + 1) '!' ++ '#' :: p.data)).data =
      List.replicate (nonce + 1) '!' ++ '#' :: p.data from rfl]
  rw [List.replicate_succ, List.cons_append]
  exact tokenDecodeAux_run nonce p

theorem capsuleDecrypt_encrypt {r r1 : Rng} {v : JVal} {tok : String}
    (h : capsuleEncrypt r v = some (tok, r1)) :
    ∃ p, plaintextOf v = some p ∧ capsuleDecrypt tok = some (decodePlain p) := by
  rw [capsuleEncrypt] at h
  cases hp : plaintextOf v with
  | none => rw [hp] at h; exact absurd h (by simp)
  | some p =>
      rw [hp] at h
      simp only [Option.some.injEq, Prod.mk.injEq] at h
      refine ⟨p, rfl, ?_⟩
      rw [capsuleDecrypt, ← h.1, tokenDecode_encode]

/-! ### The field-level encryption engine (src/core/FieldEncryption.ts) -/

/-- Encode-side error taxonomy: InvalidInputKind for a non-record top-level
input, EncryptionFailure for a cipher-layer throw. -/
inductive EncodeError where
  | invalidInputKind
  | encryptionFailure
deriving DecidableEq, Repr

/-- Decode-side error taxonomy: MalformedEnvelope for a missing encrypted
marker or mapping, DecryptionFailure for a cipher-layer throw. -/
inductive DecodeError where
  | malformedEnvelope
  | decryptionFailure
deriving DecidableEq, Repr

/-- Property read on a value (undefined-like results for non-objects). -/
def getProp (v : JVal) (k : String) : Option JVal :=
  match v with
  | jObj fields => lookupField fields k
  | _ => none

theorem lookupField_sizeOf {fields : List (String × JVal)} {k : String}
    {v : JVal} : lookupField fields k = some v → sizeOf v < sizeOf fields := by
  induction fields with
  | nil => intro h; exact absurd h (by simp [lookupField])
  | cons kv rest ih =>
      obtain ⟨k0, v0⟩ := kv
      intro h
      rw [lookupField] at h
      by_cases hk : k0 = k
      · rw [if_pos hk] at h
        injection h with h
        subst h
        simp
        omega
      · rw [if_neg hk] at h
        have := ih h
        simp
        omega

theorem entriesOf_sizeOf (v : JVal) : sizeOf (entriesOf v) ≤ sizeOf v := by
  cases v <;> simp [entriesOf] <;> omega

/-- The recursive encode pass (FieldEncryption.encryptNestedObject): walk
the entries in order, skip absent values, draw a fresh alias per field,
recurse into plain objects and encrypt every other value through the
cipher adapter; result and mapping accumulate the loop's object writes.
An error from the cipher adapter propagates. -/
def encryptNestedObject (r : Rng) (entries result mapping : List (String × JVal)) :
    Except EncodeError (List (String × JVal) × List (String × JVal) × Rng) :=
  match entries with
  | [] => .ok (result, mapping, r)
  | (k, v) :: rest =>
      if v = jUndef then encryptNestedObject r rest result mapping
      else
        let (a, r1) := generateRandomFieldName r
        if h : isPlainObject v then
          match encryptNestedObject r1 (entriesOf v) [] [] with
          | .error e => .error e
          | .ok (subResult, subMapping, r2) =>
              encryptNestedObject r2 rest
                (objInsert a (jObj subResult) result)
                (objInsert k
                  (jObj [("_field", jStr a), ("_nested", jObj subMapping)])
                  mapping)
        else
          match capsuleEncrypt r1 v with
          | none => .error .encryptionFailure
          | some (tok, r2) =>
              encryptNestedObject r2 rest
                (objInsert a (jStr tok) result)
                (objInsert k (jStr a) mapping)
termination_by sizeOf entries
decreasing_by
  all_goals simp
  all_goals try omega
  all_goals (refine lt_of_le_of_lt (entriesOf_sizeOf _) ?_; omega)

/-- The decode-side test for a nested mapping entry: typeof object with
both the _field and _nested properties present. -/
def isNestedMapEntry (mv : JVal) : Bool :=
  typeofIsObject mv && (getProp mv "_field").isSome && (getProp mv "_nested").isSome

/-- Object.entries of the recovered mapping value at a nested position. -/
def mappingEntries (mv : JVal) : List (String × JVal) := entriesOf mv

theorem nestedMapEntry_size {mv : JVal} (h : isNestedMapEntry mv = true) :
    sizeOf (mappingEntries ((getProp mv "_nested").getD jUndef)) ≤ sizeOf mv := by
  cases mv with
  | jObj mfs =>
      cases hn : lookupField mfs "_nested" with
      | none =>
          simp [isNestedMapEntry, getProp, hn] at h
      | some nv =>
          have h1 := lookupField_sizeOf hn
          have h2 : sizeOf (mappingEntries nv) ≤ sizeOf nv := by
            rw [mappingEntries]; exact entriesOf_sizeOf nv
          simp only [getProp, hn, Option.getD_some]
          simp
          omega
  | jNull => simp [isNestedMapEntry, getProp] at h
  | jBool b => simp [isNestedMapEntry, getProp] at h
  | jNum n => simp [isNestedMapEntry, getProp] at h
  | jStr s => simp [isNestedMapEntry, getProp] at h
  | jDate iso => simp [isNestedMapEntry, getProp] at h
  | jUndef => simp [isNestedMapEntry, getProp] at h
  | jArr xs => simp [isNestedMapEntry, getProp] at h

/-- The recursive decode pass (FieldEncryption.decryptNestedObject): walk
the mapping's entries, look each alias up in the obfuscated record, skip
absent or mis-shaped lookups, recurse into nested records and decrypt leaf
tokens through the cipher adapter (a cipher throw propagates); result
accumulates the loop's object writes. -/
def decryptNestedObject (encryptedData : List (String × JVal))
    (mapping result : List (String × JVal)) :
    Except DecodeError (List (String × JVal)) :=
  match mapping with
  | [] => .ok result
  | (origField, mv) :: rest =>
      if h : isNestedMapEntry mv then
        match hf : getProp mv "_field" with
        | some (jStr obf) =>
            match lookupField encryptedData obf with
            | some nested =>
                if isPlainObject nested then
                  match decryptNestedObject (entriesOf nested)
                      (mappingEntries ((getProp mv "_nested").getD jUndef)) [] with
                  | .error e => .error e
                  | .ok sub =>
                      decryptNestedObject encryptedData rest
                        (objInsert origField (jObj sub) result)
                else decryptNestedObject encryptedData rest result
            | none => decryptNestedObject encryptedData rest result
        | _ =>
            -- a non-string _field coerces to a key no alias ever equals;
            -- the lookup misses and the field is skipped
            decryptNestedObject encryptedData rest result
      else
        match mv with
        | jStr obf =>
            match lookupField encryptedData obf with
            | some (jStr tok) =>
                match capsuleDecrypt tok with
                | none => .error .decryptionFailure
                | some v =>
                    decryptNestedObject encryptedData rest
                      (objInsert origField v result)
            | _ => decryptNestedObject encryptedData rest result
        | _ => decryptNestedObject encryptedData rest result
termination_by sizeOf mapping
decreasing_by
  all_goals simp
  all_goals try omega
  all_goals (refine lt_of_le_of_lt (nestedMapEntry_size (by assumption)) ?_; omega)

/-- FieldEncryption.encryptFields: reject a non-record top level (typeof
not object, null, or an array — note a date-like object passes this test),
run the recursive encode on the input's entries, assemble the envelope
with the encrypted marker and timestamp first, the obfuscated entries
spread after them, and the encrypted mapping token written last. -/
def encryptFields (r : Rng) (timestamp : String) (data : JVal) :
    Except EncodeError (List (String × JVal) × Rng) :=
  if typeofIsObject data = false ∨ data = jNull ∨ isArrayVal data = true then
    .error .invalidInputKind
  else
    match encryptNestedObject r (entriesOf data) [] [] with
    | .error e => .error e
    | .ok (encryptedData, mapping, r1) =>
        let base := objInsertAll
          [("encrypted", jBool true), ("timestamp", jStr timestamp)]
          encryptedData
        match capsuleEncrypt r1 (jObj mapping) with
        | none => .error .encryptionFailure
        | some (mtok, r2) => .ok (objInsert "_mapping" (jStr mtok) base, r2)

/-- The rest-destructuring in decryptFields: drop exactly the encrypted,
timestamp and _mapping keys from the envelope body. -/
def stripMeta (env : List (String × JVal)) : List (String × JVal) :=
  env.filter fun kv =>
    kv.1 != "encrypted" && kv.1 != "timestamp" && kv.1 != "_mapping"

/-- FieldEncryption.decryptFields: fail with MalformedEnvelope when the
encrypted marker or the _mapping entry is falsy, decrypt the mapping
through the cipher adapter, strip the metadata keys, and run the recursive
resolver on the remaining body against the recovered mapping. -/
def decryptFields (env : List (String × JVal)) :
    Except DecodeError (List (String × JVal)) :=
  if truthy (lookupField env "encrypted") = false ∨
      truthy (lookupField env "_mapping") = false then
    .error .malformedEnvelope
  else
    match lookupField env "_mapping" with
    | some (jStr mtok) =>
        match capsuleDecrypt mtok with
        | none => .error .decryptionFailure
        | some mappingVal =>
            decryptNestedObject (stripMeta env) (mappingEntries mappingVal) []
    | _ =>
        -- a truthy non-string _mapping makes the cipher layer throw
        .error .decryptionFailure

/-- The decoy loop of encryptFieldsWithPadding: draw a fresh alias, build a
short random string (Math.random().toString(36) material, modelled from a
tape draw), encrypt it and assign it to the envelope. -/
def encryptFieldsPadLoop (r : Rng) (n : Nat) (env : List (String × JVal)) :
    List (String × JVal) × Rng :=
  match n with
  | 0 => (env, r)
  | n + 1 =>
      let (a, r1) := generateRandomFieldName r
      let (x, r2) := draw r1
      let randomData := String.mk (natDigits x)
      match capsuleEncrypt r2 (jStr randomData) with
      | none => (env, r2) -- unreachable: a string always has a plaintext
      | some (tok, r3) => encryptFieldsPadLoop r3 n (objInsert a (jStr tok) env)

/-- FieldEncryption.encryptFieldsWithPadding: ordinary encode, then the
requested number of decoy fields appended to the envelope. -/
def encryptFieldsWithPadding (r : Rng) (timestamp : String) (data : JVal)
    (paddingFields : Nat) : Except EncodeError (List (String × JVal) × Rng) :=
  match encryptFields r timestamp data with
  | .error e => .error e
  | .ok (env, r1) => .ok (encryptFieldsPadLoop r1 paddingFields env)

/-- FieldEncryption.decryptFieldsIgnorePadding: same as decryptFields (the
resolver iterates the mapping, so decoys are ignored by construction). -/
def decryptFieldsIgnorePadding (env : List (String × JVal)) :
    Except DecodeError (List (String × JVal)) :=
  decryptFields env

/-! ### The express middleware send path (src/middleware/express.ts) -/

/-- The middleware options the send path reads. -/
structure MiddlewareOptions where
  autoEncrypt : Bool := true
  fieldEncryption : Bool := false
  paddingFields : Nat := 0

/-- The encryption step of the res.json override: field-level encryption
when enabled and the body is a non-null non-array object, the whole-payload
capsule otherwise; none models a throw anywhere in the step. -/
def tryEncryptResponse (opts : MiddlewareOptions) (r : Rng) (timestamp : String)
    (obj : JVal) : Option JVal :=
  if opts.fieldEncryption = true ∧ typeofIsObject obj = true ∧
      obj ≠ jNull ∧ isArrayVal obj = false then
    if opts.paddingFields > 0 then
      match encryptFieldsWithPadding r timestamp obj opts.paddingFields with
      | .ok (env, _) => some (jObj env)
      | .error _ => none
    else
      match encryptFields r timestamp obj with
      | .ok (env, _) => some (jObj env)
      | .error _ => none
  else
    match capsuleEncrypt r obj with
    | some (tok, _) => some (jObj [("encrypted", jStr tok)])
    | none => none

/-- The res.json override of secureMiddleware: with autoEncrypt on, try to
encrypt and send the result with the X-Encrypted header; when the
encryption step throws, catch and send the original body (no header).
Returns the sent body and whether the header was set. -/
def middlewareJson (opts : MiddlewareOptions) (r : Rng) (timestamp : String)
    (obj : JVal) : JVal × Bool :=
  if opts.autoEncrypt = false then (obj, false)
  else
    match tryEncryptResponse opts r timestamp obj with
    | some result => (result, true)
    | none => (obj, false)

/-! ### The decoded image of an encode run -/

/-- What one leaf decodes back to: the cipher plaintext through JSON.parse
with string fallback (identity only for round-trip-safe leaves). -/
def leafImage (v : JVal) : JVal :=
  match plaintextOf v with
  | some p => decodePlain p
  | none => v

/-- The record a decode of an encode run reconstructs: absent fields are
dropped, nested records recurse, every other value becomes its leaf image. -/
def recImage (fields : List (String × JVal)) : List (String × JVal) :=
  match fields with
  | [] => []
  | (k, v) :: rest =>
      if v = jUndef then recImage rest
      else if isPlainObject v then
        (k, jObj (recImage (entriesOf v))) :: recImage rest
      else (k, leafImage v) :: recImage rest
termination_by sizeOf fields
decreasing_by
  all_goals simp
  all_goals try omega
  all_goals (refine lt_of_le_of_lt (entriesOf_sizeOf _) ?_; omega)

/-- The characters a JSON text can start with: every JSON value begins,
after whitespace, with one of these, so JSON.parse rejects any input whose
first non-whitespace character is different — and the modelled parser
agrees on exactly that test. -/
def jsonStartChar (c : Char) : Bool :=
  isDigitChar c || c = '-' || c = '"' || c = '{' || c = '[' ||
    c = 't' || c = 'f' || c = 'n'

/-- A leaf survives the cipher round trip: a string must not even begin
like a JSON text (its first non-whitespace character, if any, can start no
JSON value, so JSON.parse necessarily rejects it and the decrypt fallback
returns the raw string), everything else must be JSON-pure. -/
def leafRT (v : JVal) : Bool :=
  match v with
  | jStr s =>
      match dropWs s.data with
      | [] => true
      | c :: _ => !jsonStartChar c
  | v => jsonRT v

/-- The parser rejects any input whose first non-whitespace character can
start no JSON value. -/
theorem parseVal_none_of_start :
    ∀ (fuel : Nat) (cs : List Char),
      (∀ c rest, dropWs cs = c :: rest → jsonStartChar c = false) →
      parseVal fuel cs = none
  | 0, cs, _ => by rw [parseVal]
  | fuel + 1, cs, h => by
      rw [parseVal]
      cases hd : dropWs cs with
      | nil => rfl
      | cons c rest =>
          have hc := h c rest hd
          split
          · rename_i r heq
            injection heq with h1 _
            exact absurd (h1 ▸ hc) (by decide)
          · rename_i r heq
            injection heq with h1 _
            exact absurd (h1 ▸ hc) (by decide)
          · rename_i r heq
            injection heq with h1 _
            exact absurd (h1 ▸ hc) (by decide)
          · rename_i r heq
            injection heq with h1 _
            exact absurd (h1 ▸ hc) (by decide)
          · rename_i r heq
            injection heq with h1 _
            exact absurd (h1 ▸ hc) (by decide)
          · rename_i r heq
            injection heq with h1 _
            exact absurd (h1 ▸ hc) (by decide)
          · rename_i heq
            injection heq with h1 h2
            subst h1
            have hm : (c = '-' || isDigitChar c) = false := by
              cases hdig : isDigitChar c with
              | true => exact absurd hc (by rw [jsonStartChar, hdig]; simp)
              | false =>
                  by_cases hmi : c = '-'
                  · exact absurd hc (by rw [jsonStartChar]; simp [hmi])
                  · simp [hmi, hdig]
            rw [hm]
            rfl
          · rfl

/-- A round-trip-safe string leaf is one the parser rejects. -/
theorem jsonParse_none_of_leafRT {s : String} (h : leafRT (jStr s) = true) :
    jsonParse s = none := by
  have hcond : ∀ c rest, dropWs s.data = c :: rest →
      jsonStartChar c = false := by
    intro c rest hd
    have h2 : (match dropWs s.data with
        | [] => true
        | c :: _ => !jsonStartChar c) = true := h
    rw [hd] at h2
    have h3 : (!jsonStartChar c) = true := h2
    rw [Bool.not_eq_true'] at h3
    exact h3
  rw [jsonParse, parseVal_none_of_start (s.length + 1) s.data hcond]

/-- A record whose decode reconstructs it exactly: no absent fields, every
nested record recursively so, every leaf round-trip safe. -/
def roundTrippable (fields : List (String × JVal)) : Bool :=
  match fields with
  | [] => true
  | (_, v) :: rest =>
      (if isPlainObject v then roundTrippable (entriesOf v) else leafRT v) &&
        roundTrippable rest
termination_by sizeOf fields
decreasing_by
  all_goals simp
  all_goals try omega
  all_goals (refine lt_of_le_of_lt (entriesOf_sizeOf _) ?_; omega)

/-- Duplicate-free field names at this level and recursively below (always
true of actual JS objects, whose keys are unique). -/
def recNodupVals (fields : List (String × JVal)) : Bool :=
  match fields with
  | [] => true
  | (_, v) :: rest =>
      (if isPlainObject v then
        decide (keysOf (entriesOf v)).Nodup && recNodupVals (entriesOf v)
       else true) && recNodupVals rest
termination_by sizeOf fields
decreasing_by
  all_goals simp
  all_goals try omega
  all_goals (refine lt_of_le_of_lt (entriesOf_sizeOf _) ?_; omega)

/-- Duplicate-free keys for the whole record tree. -/
def recKeysOk (fields : List (String × JVal)) : Bool :=
  decide (keysOf fields).Nodup && recNodupVals fields

/-- Keys of the entries the encoder keeps (absent-valued fields dropped). -/
def keysOfU (fields : List (String × JVal)) : List String :=
  match fields with
  | [] => []
  | (k, v) :: rest => if v = jUndef then keysOfU rest else k :: keysOfU rest

/-- The aliases an encode run draws at this level, threading the
randomness source exactly as encryptNestedObject does. -/
def runAliases (r : Rng) (entries : List (String × JVal)) : List String :=
  match entries with
  | [] => []
  | (_, v) :: rest =>
      if v = jUndef then runAliases r rest
      else
        let (a, r1) := generateRandomFieldName r
        if isPlainObject v then
          match encryptNestedObject r1 (entriesOf v) [] [] with
          | .error _ => [a]
          | .ok (_, _, r2) => a :: runAliases r2 rest
        else
          match capsuleEncrypt r1 v with
          | none => [a]
          | some (_, r2) => a :: runAliases r2 rest
termination_by sizeOf entries
decreasing_by
  all_goals simp
  all_goals omega

/-- Every nested sub-run of the encode draws duplicate-free aliases. -/
def subOk (r : Rng) (entries : List (String × JVal)) : Bool :=
  match entries with
  | [] => true
  | (_, v) :: rest =>
      if v = jUndef then subOk r rest
      else
        let (_, r1) := generateRandomFieldName r
        if isPlainObject v then
          match encryptNestedObject r1 (entriesOf v) [] [] with
          | .error _ => false
          | .ok (_, _, r2) =>
              decide (runAliases r1 (entriesOf v)).Nodup &&
                subOk r1 (entriesOf v) && subOk r2 rest
        else
          match capsuleEncrypt r1 v with
          | none => false
          | some (_, r2) => subOk r2 rest
termination_by sizeOf entries
decreasing_by
  all_goals simp
  all_goals try omega
  all_goals (refine lt_of_le_of_lt (entriesOf_sizeOf _) ?_; omega)

/-- An encode run whose aliases are duplicate-free at every level (the
astronomically probable case the spec assumes). -/
def runOk (r : Rng) (entries : List (String × JVal)) : Bool :=
  decide (runAliases r entries).Nodup && subOk r entries

/-- The aliases the decoy loop draws, threading the source as it does. -/
def padAliases (r : Rng) (n : Nat) : List String :=
  match n with
  | 0 => []
  | n + 1 =>
      let (a, r1) := generateRandomFieldName r
      let (x, r2) := draw r1
      let randomData := String.mk (natDigits x)
      match capsuleEncrypt r2 (jStr randomData) with
      | none => [a]
      | some (_, r3) => a :: padAliases r3 n

/-! ### Structure of an encode run -/

theorem keysOf_append (a b : List (String × JVal)) :
    keysOf (a ++ b) = keysOf a ++ keysOf b := by
  simp [keysOf]

theorem lookupField_append_right {pre : List (String × JVal)} {k : String}
    (h : k ∉ keysOf pre) (rest : List (String × JVal)) :
    lookupField (pre ++ rest) k = lookupField rest k := by
  induction pre with
  | nil => rfl
  | cons kv t ih =>
      obtain ⟨k0, v0⟩ := kv
      have hk : k0 ≠ k := by
        intro hk0; exact h (by simp [keysOf, hk0])
      have ht : k ∉ keysOf t := fun hm => h (by simp [keysOf] at hm ⊢; tauto)
      simp [lookupField, hk, ih ht]

theorem lookupField_append_left {pre : List (String × JVal)} {k : String}
    {v : JVal} (h : lookupField pre k = some v) (rest : List (String × JVal)) :
    lookupField (pre ++ rest) k = some v := by
  induction pre with
  | nil => exact absurd h (by simp [lookupField])
  | cons kv t ih =>
      obtain ⟨k0, v0⟩ := kv
      rw [lookupField] at h
      by_cases hk : k0 = k
      · rw [if_pos hk] at h
        simp [lookupField, hk, h]
      · rw [if_neg hk] at h
        simp [lookupField, hk, ih h]

theorem lookupField_cons_self {k : String} {v : JVal}
    {rest : List (String × JVal)} :
    lookupField ((k, v) :: rest) k = some v := by
  simp [lookupField]

theorem encryptNestedObject_total :
    ∀ (entries : List (String × JVal)) (r : Rng)
      (result mapping : List (String × JVal)),
      ∃ out, encryptNestedObject r entries result mapping = .ok out
  | [], r, res, map => ⟨(res, map, r), by rw [encryptNestedObject]⟩
  | (k, v) :: rest, r, res, map => by
      rw [encryptNestedObject]
      by_cases hv : v = jUndef
      · rw [if_pos hv]
        exact encryptNestedObject_total rest r res map
      · rw [if_neg hv]
        by_cases hpo : isPlainObject v = true
        · obtain ⟨outn, hn⟩ := encryptNestedObject_total (entriesOf v)
            (generateRandomFieldName r).2 [] []
          obtain ⟨subR, subM, r2⟩ := outn
          simp only [dif_pos hpo, hn]
          exact encryptNestedObject_total rest r2 _ _
        · have hp : ∃ p, plaintextOf v = some p := by
            cases v <;> simp_all [plaintextOf, jsonStringify, isPlainObject]
          obtain ⟨p, hp⟩ := hp
          simp only [dif_neg hpo, capsuleEncrypt, hp]
          exact encryptNestedObject_total rest _ _ _
termination_by entries => sizeOf entries
decreasing_by
  all_goals simp
  all_goals try omega
  all_goals (refine lt_of_le_of_lt (entriesOf_sizeOf _) ?_; omega)

theorem encRun :
    ∀ (entries : List (String × JVal)) (r : Rng),
      (runAliases r entries).Nodup → (keysOfU entries).Nodup →
      ∃ B M r2,
        encryptNestedObject r entries [] [] = .ok (B, M, r2) ∧
        keysOf B = runAliases r entries ∧
        keysOf M = keysOfU entries ∧
        (∀ (res map : List (String × JVal)),
          (∀ a ∈ runAliases r entries, a ∉ keysOf res) →
          (∀ k ∈ keysOfU entries, k ∉ keysOf map) →
          encryptNestedObject r entries res map = .ok (res ++ B, map ++ M, r2))
  | [], r, _, _ => by
      refine ⟨[], [], r, by rw [encryptNestedObject],
        by simp [runAliases, keysOf], by simp [keysOfU, keysOf], ?_⟩
      intro res map _ _
      rw [encryptNestedObject]
      simp
  | (k, v) :: rest, r, hnd, hknd => by
      by_cases hv : v = jUndef
      · have hra : runAliases r ((k, v) :: rest) = runAliases r rest := by
          rw [runAliases, if_pos hv]
        have hku : keysOfU ((k, v) :: rest) = keysOfU rest := by
          rw [keysOfU, if_pos hv]
        rw [hra] at hnd
        rw [hku] at hknd
        obtain ⟨B, M, r2, h1, h2, h3, h4⟩ := encRun rest r hnd hknd
        refine ⟨B, M, r2, ?_, by rw [hra, h2], by rw [hku, h3], ?_⟩
        · rw [encryptNestedObject, if_pos hv]; exact h1
        · intro res map hfr hfm
          rw [encryptNestedObject, if_pos hv]
          exact h4 res map (by rw [hra] at hfr; exact hfr)
            (by rw [hku] at hfm; exact hfm)
      · rcases hgen : generateRandomFieldName r with ⟨a, r1⟩
        by_cases hpo : isPlainObject v = true
        · -- nested record entry
          obtain ⟨⟨subR, subM, r2⟩, hsub⟩ :=
            encryptNestedObject_total (entriesOf v) r1 [] []
          have hra : runAliases r ((k, v) :: rest) = a :: runAliases r2 rest := by
            rw [runAliases, if_neg hv, hgen]
            simp [hpo, hsub]
          have hku : keysOfU ((k, v) :: rest) = k :: keysOfU rest := by
            rw [keysOfU, if_neg hv]
          rw [hra, List.nodup_cons] at hnd
          rw [hku, List.nodup_cons] at hknd
          obtain ⟨haRA, hnd1⟩ := hnd
          obtain ⟨hkKU, hknd1⟩ := hknd
          obtain ⟨B1, M1, r3, h1, h2, h3, h4⟩ := encRun rest r2 hnd1 hknd1
          have me : JVal :=
            jObj [("_field", jStr a), ("_nested", jObj subM)]
          refine ⟨(a, jObj subR) :: B1,
            (k, jObj [("_field", jStr a), ("_nested", jObj subM)]) :: M1, r3,
            ?_, ?_, ?_, ?_⟩
          · rw [encryptNestedObject, if_neg hv, hgen]
            simp only [dif_pos hpo, hsub]
            have := h4 [(a, jObj subR)]
              [(k, jObj [("_field", jStr a), ("_nested", jObj subM)])]
              (fun x hx => by
                simp only [keysOf, List.map_cons, List.map_nil,
                  List.mem_singleton]
                intro hxa; exact haRA (hxa ▸ hx))
              (fun x hx => by
                simp only [keysOf, List.map_cons, List.map_nil,
                  List.mem_singleton]
                intro hxk; exact hkKU (hxk ▸ hx))
            simpa [objInsert] using this
          · rw [hra, keysOf_cons, h2]
          · rw [hku, keysOf_cons, h3]
          · intro res map hfr hfm
            rw [hra] at hfr
            rw [hku] at hfm
            have haRes : a ∉ keysOf res := hfr a (by simp)
            have hkMap : k ∉ keysOf map := hfm k (by simp)
            rw [encryptNestedObject, if_neg hv, hgen]
            simp only [dif_pos hpo, hsub]
            rw [objInsert_fresh haRes, objInsert_fresh hkMap]
            have := h4 (res ++ [(a, jObj subR)])
              (map ++ [(k, jObj [("_field", jStr a), ("_nested", jObj subM)])])
              (fun x hx => by
                rw [keysOf_append]
                simp only [List.mem_append, keysOf, List.map_cons,
                  List.map_nil, List.mem_singleton]
                rintro (hxr | hxa)
                · exact hfr x (by simp [hx]) hxr
                · exact haRA (hxa ▸ hx))
              (fun x hx => by
                rw [keysOf_append]
                simp only [List.mem_append, keysOf, List.map_cons,
                  List.map_nil, List.mem_singleton]
                rintro (hxm | hxk)
                · exact hfm x (by simp [hx]) hxm
                · exact hkKU (hxk ▸ hx))
            rw [this]
            simp
        · -- leaf entry
          have hp : ∃ p, plaintextOf v = some p := by
            cases v <;> simp_all [plaintextOf, jsonStringify, isPlainObject]
          obtain ⟨p, hp⟩ := hp
          rcases hdr : draw r1 with ⟨nonce, r2⟩
          have hce : capsuleEncrypt r1 v = some (tokenEncode nonce p, r2) := by
            rw [capsuleEncrypt, hp, hdr]
          have hra : runAliases r ((k, v) :: rest) = a :: runAliases r2 rest := by
            rw [runAliases, if_neg hv, hgen]
            simp [hpo, hce]
          have hku : keysOfU ((k, v) :: rest) = k :: keysOfU rest := by
            rw [keysOfU, if_neg hv]
          rw [hra, List.nodup_cons] at hnd
          rw [hku, List.nodup_cons] at hknd
          obtain ⟨haRA, hnd1⟩ := hnd
          obtain ⟨hkKU, hknd1⟩ := hknd
          obtain ⟨B1, M1, r3, h1, h2, h3, h4⟩ := encRun rest r2 hnd1 hknd1
          refine ⟨(a, jStr (tokenEncode nonce p)) :: B1,
            (k, jStr a) :: M1, r3, ?_, ?_, ?_, ?_⟩
          · rw [encryptNestedObject, if_neg hv, hgen]
            simp only [dif_neg hpo, hce]
            have := h4 [(a, jStr (tokenEncode nonce p))] [(k, jStr a)]
              (fun x hx => by
                simp only [keysOf, List.map_cons, List.map_nil,
                  List.mem_singleton]
                intro hxa; exact haRA (hxa ▸ hx))
              (fun x hx => by
                simp only [keysOf, List.map_cons, List.map_nil,
                  List.mem_singleton]
                intro hxk; exact hkKU (hxk ▸ hx))
            simpa [objInsert] using this
          · rw [hra, keysOf_cons, h2]
          · rw [hku, keysOf_cons, h3]
          · intro res map hfr hfm
            rw [hra] at hfr
            rw [hku] at hfm
            have haRes : a ∉ keysOf res := hfr a (by simp)
            have hkMap : k ∉ keysOf map := hfm k (by simp)
            rw [encryptNestedObject, if_neg hv, hgen]
            simp only [dif_neg hpo, hce]
            rw [objInsert_fresh haRes, objInsert_fresh hkMap]
            have := h4 (res ++ [(a, jStr (tokenEncode nonce p))])
              (map ++ [(k, jStr a)])
              (fun x hx => by
                rw [keysOf_append]
                simp only [List.mem_append, keysOf, List.map_cons,
                  List.map_nil, List.mem_singleton]
                rintro (hxr | hxa)
                · exact hfr x (by simp [hx]) hxr
                · exact haRA (hxa ▸ hx))
              (fun x hx => by
                rw [keysOf_append]
                simp only [List.mem_append, keysOf, List.map_cons,
                  List.map_nil, List.mem_singleton]
                rintro (hxm | hxk)
                · exact hfm x (by simp [hx]) hxm
                · exact hkKU (hxk ▸ hx))
            rw [this]
            simp

theorem keysOfU_sublist (entries : List (String × JVal)) :
    (keysOfU entries).Sublist (keysOf entries) := by
  induction entries with
  | nil => simp [keysOfU, keysOf]
  | cons kv rest ih =>
      obtain ⟨k, v⟩ := kv
      rw [keysOfU, keysOf_cons]
      by_cases hv : v = jUndef
      · rw [if_pos hv]
        exact ih.cons k
      · rw [if_neg hv]
        exact ih.cons₂ k

theorem isNestedMapEntry_str (s : String) :
    isNestedMapEntry (jStr s) = false := rfl

theorem isNestedMapEntry_me (a : String) (subM : List (String × JVal)) :
    isNestedMapEntry (jObj [("_field", jStr a), ("_nested", jObj subM)]) = true := by
  simp [isNestedMapEntry, typeofIsObject, getProp, lookupField]

theorem plaintextOf_exists {v : JVal} (hv : v ≠ jUndef) :
    ∃ p, plaintextOf v = some p := by
  cases v with
  | jUndef => exact absurd rfl hv
  | jStr s => exact ⟨s, rfl⟩
  | jNull => exact ⟨_, rfl⟩
  | jBool b => exact ⟨_, rfl⟩
  | jNum n => exact ⟨_, rfl⟩
  | jDate iso => exact ⟨_, rfl⟩
  | jArr xs => exact ⟨_, rfl⟩
  | jObj fs => exact ⟨_, rfl⟩

theorem decRun :
    ∀ (entries : List (String × JVal)) (r : Rng)
      (B M : List (String × JVal)) (r2 : Rng),
      encryptNestedObject r entries [] [] = .ok (B, M, r2) →
      runOk r entries = true →
      recKeysOk entries = true →
      ∀ (pre extra acc : List (String × JVal)),
        (∀ x ∈ keysOf pre, x ∉ runAliases r entries) →
        (∀ x ∈ keysOf extra, x ∉ runAliases r entries) →
        (∀ x ∈ keysOfU entries, x ∉ keysOf acc) →
        decryptNestedObject (pre ++ B ++ extra) M acc = .ok (acc ++ recImage entries)
  | [], r, B, M, r2, hrun, _, _, pre, extra, acc, _, _, _ => by
      rw [encryptNestedObject] at hrun
      simp only [Except.ok.injEq, Prod.mk.injEq] at hrun
      obtain ⟨hB, hM, -⟩ := hrun
      subst hB; subst hM
      rw [decryptNestedObject]
      simp [recImage]
  | (k, v) :: rest, r, B, M, r2, hrun, hok, hkeys, pre, extra, acc,
      hpre, hextra, hacc => by
      by_cases hv : v = jUndef
      · -- absent value: the encoder, the alias list and the image all skip it
        have hrun1 : encryptNestedObject r rest [] [] = .ok (B, M, r2) := by
          rw [encryptNestedObject, if_pos hv] at hrun
          exact hrun
        have hok1 : runOk r rest = true := by
          rw [runOk] at hok ⊢
          rw [show runAliases r ((k, v) :: rest) = runAliases r rest from by
            rw [runAliases, if_pos hv]] at hok
          rw [show subOk r ((k, v) :: rest) = subOk r rest from by
            rw [subOk, if_pos hv]] at hok
          exact hok
        have hkeys1 : recKeysOk rest = true := by
          rw [recKeysOk, Bool.and_eq_true_iff] at hkeys ⊢
          refine ⟨?_, ?_⟩
          · have hkc := of_decide_eq_true hkeys.1
            rw [keysOf_cons, List.nodup_cons] at hkc
            exact decide_eq_true hkc.2
          · have hnv := hkeys.2
            rw [recNodupVals, Bool.and_eq_true_iff] at hnv
            exact hnv.2
        have hpre1 : ∀ x ∈ keysOf pre, x ∉ runAliases r rest := by
          intro x hx
          have hx2 := hpre x hx
          rw [runAliases, if_pos hv] at hx2
          exact hx2
        have hextra1 : ∀ x ∈ keysOf extra, x ∉ runAliases r rest := by
          intro x hx
          have hx2 := hextra x hx
          rw [runAliases, if_pos hv] at hx2
          exact hx2
        have hacc1 : ∀ x ∈ keysOfU rest, x ∉ keysOf acc := by
          intro x hx
          exact hacc x (by rw [keysOfU, if_pos hv]; exact hx)
        rw [decRun rest r B M r2 hrun1 hok1 hkeys1 pre extra acc hpre1
          hextra1 hacc1]
        rw [show recImage ((k, v) :: rest) = recImage rest from by
          rw [recImage, if_pos hv]]
      · rcases hgen : generateRandomFieldName r with ⟨a, r1⟩
        by_cases hpo : isPlainObject v = true
        · -- nested record entry: recurse on the sub-record
          obtain ⟨⟨subR, subM, r2a⟩, hsub⟩ :=
            encryptNestedObject_total (entriesOf v) r1 [] []
          have hra : runAliases r ((k, v) :: rest) = a :: runAliases r2a rest := by
            rw [runAliases, if_neg hv, hgen]
            simp [hpo, hsub]
          rw [runOk, Bool.and_eq_true_iff] at hok
          have hndTop := of_decide_eq_true hok.1
          rw [hra, List.nodup_cons] at hndTop
          obtain ⟨haRA, hnd1⟩ := hndTop
          have hs := hok.2
          rw [subOk, if_neg hv, hgen] at hs
          simp only [hpo, if_true, hsub] at hs
          rw [Bool.and_eq_true_iff, Bool.and_eq_true_iff] at hs
          obtain ⟨⟨hsubNd, hsubOk⟩, hsubRest⟩ := hs
          have hok1 : runOk r2a rest = true := by
            rw [runOk, Bool.and_eq_true_iff]
            exact ⟨decide_eq_true hnd1, hsubRest⟩
          have hokSub : runOk r1 (entriesOf v) = true := by
            rw [runOk, Bool.and_eq_true_iff]
            exact ⟨hsubNd, hsubOk⟩
          rw [recKeysOk, Bool.and_eq_true_iff] at hkeys
          have hknd := of_decide_eq_true hkeys.1
          have hkU : (keysOfU ((k, v) :: rest)).Nodup :=
            (keysOfU_sublist _).nodup hknd
          rw [keysOfU, if_neg hv, List.nodup_cons] at hkU
          obtain ⟨hkKU, hkU1⟩ := hkU
          have hkeys1 : recKeysOk rest = true := by
            rw [recKeysOk, Bool.and_eq_true_iff]
            constructor
            · have hkc := hknd
              rw [keysOf_cons, List.nodup_cons] at hkc
              exact decide_eq_true hkc.2
            · have hnv := hkeys.2
              rw [recNodupVals, Bool.and_eq_true_iff] at hnv
              exact hnv.2
          have hkeysSub : recKeysOk (entriesOf v) = true := by
            have hnv := hkeys.2
            rw [recNodupVals, Bool.and_eq_true_iff] at hnv
            have hn1 := hnv.1
            simp only [hpo, if_true] at hn1
            rw [recKeysOk]
            exact hn1
          obtain ⟨B1, M1, r3, h1, h2, h3, h4⟩ := encRun rest r2a hnd1 hkU1
          have hrunEq : encryptNestedObject r ((k, v) :: rest) [] [] =
              .ok ((a, jObj subR) :: B1,
                (k, jObj [("_field", jStr a), ("_nested", jObj subM)]) :: M1,
                r3) := by
            rw [encryptNestedObject, if_neg hv, hgen]
            simp only [dif_pos hpo, hsub]
            have happ := h4 [(a, jObj subR)]
              [(k, jObj [("_field", jStr a), ("_nested", jObj subM)])]
              (fun x hx => by
                simp only [keysOf, List.map_cons, List.map_nil,
                  List.mem_singleton]
                intro hxa; exact haRA (hxa ▸ hx))
              (fun x hx => by
                simp only [keysOf, List.map_cons, List.map_nil,
                  List.mem_singleton]
                intro hxk; exact hkKU (hxk ▸ hx))
            simpa [objInsert] using happ
          rw [hrunEq] at hrun
          simp only [Except.ok.injEq, Prod.mk.injEq] at hrun
          obtain ⟨hB, hM, -⟩ := hrun
          subst hB; subst hM
          have hnp : a ∉ keysOf pre := fun hm =>
            (hpre a hm) (by rw [hra]; exact List.mem_cons_self a _)
          have hlook : lookupField ((pre ++ (a, jObj subR) :: B1) ++ extra) a =
              some (jObj subR) := by
            rw [List.append_assoc, lookupField_append_right hnp]
            exact lookupField_cons_self
          have hsubDec : decryptNestedObject subR subM [] =
              .ok (recImage (entriesOf v)) := by
            have hd := decRun (entriesOf v) r1 subR subM r2a hsub hokSub
              hkeysSub [] [] [] (by simp [keysOf]) (by simp [keysOf])
              (by simp [keysOf])
            simpa using hd
          have hkAcc : k ∉ keysOf acc := by
            refine hacc k ?_
            rw [keysOfU, if_neg hv]
            exact List.mem_cons_self k _
          have hmemU : ∀ x ∈ keysOfU rest, x ∈ keysOfU ((k, v) :: rest) := by
            intro x hx
            rw [keysOfU, if_neg hv]
            exact List.mem_cons_of_mem k hx
          have hpre1 : ∀ x ∈ keysOf (pre ++ [(a, jObj subR)]),
              x ∉ runAliases r2a rest := by
            intro x hx
            rw [keysOf_append] at hx
            rcases List.mem_append.mp hx with hxp | hxa
            · intro hmem
              exact (hpre x hxp) (by rw [hra]; exact List.mem_cons_of_mem a hmem)
            · have hxa2 : x = a := by simpa [keysOf] using hxa
              subst hxa2
              exact haRA
          have hextra1 : ∀ x ∈ keysOf extra, x ∉ runAliases r2a rest := by
            intro x hx hmem
            exact (hextra x hx) (by rw [hra]; exact List.mem_cons_of_mem a hmem)
          have hacc1 : ∀ x ∈ keysOfU rest,
              x ∉ keysOf (acc ++ [(k, jObj (recImage (entriesOf v)))]) := by
            intro x hx
            rw [keysOf_append]
            intro hmem
            rcases List.mem_append.mp hmem with hxa | hxk
            · exact hacc x (hmemU x hx) hxa
            · have hxk2 : x = k := by simpa [keysOf] using hxk
              subst hxk2
              exact hkKU hx
          rw [decryptNestedObject]
          rw [dif_pos (isNestedMapEntry_me a subM)]
          show (match lookupField ((pre ++ (a, jObj subR) :: B1) ++ extra) a with
                | some nested =>
                    if isPlainObject nested then
                      match decryptNestedObject (entriesOf nested)
                          (mappingEntries
                            ((getProp
                              (jObj [("_field", jStr a), ("_nested", jObj subM)])
                              "_nested").getD jUndef)) [] with
                      | .error e => .error e
                      | .ok sub =>
                          decryptNestedObject
                            ((pre ++ (a, jObj subR) :: B1) ++ extra) M1
                            (objInsert k (jObj sub) acc)
                    else
                      decryptNestedObject ((pre ++ (a, jObj subR) :: B1) ++ extra)
                        M1 acc
                | none =>
                    decryptNestedObject ((pre ++ (a, jObj subR) :: B1) ++ extra)
                      M1 acc) =
              Except.ok (acc ++ recImage ((k, v) :: rest))
          rw [hlook]
          show (match decryptNestedObject subR subM [] with
                | .error e => .error e
                | .ok sub =>
                    decryptNestedObject ((pre ++ (a, jObj subR) :: B1) ++ extra)
                      M1 (objInsert k (jObj sub) acc)) =
              Except.ok (acc ++ recImage ((k, v) :: rest))
          rw [hsubDec]
          show decryptNestedObject ((pre ++ (a, jObj subR) :: B1) ++ extra) M1
                (objInsert k (jObj (recImage (entriesOf v))) acc) =
              Except.ok (acc ++ recImage ((k, v) :: rest))
          rw [objInsert_fresh hkAcc]
          rw [show (pre ++ (a, jObj subR) :: B1) ++ extra =
              ((pre ++ [(a, jObj subR)]) ++ B1) ++ extra from by simp]
          rw [decRun rest r2a B1 M1 r3 h1 hok1 hkeys1
            (pre ++ [(a, jObj subR)]) extra
            (acc ++ [(k, jObj (recImage (entriesOf v)))]) hpre1 hextra1 hacc1]
          rw [show recImage ((k, v) :: rest) =
              (k, jObj (recImage (entriesOf v))) :: recImage rest from by
            rw [recImage, if_neg hv, if_pos hpo]]
          simp
        · -- leaf entry: alias drawn, token written, decoder decrypts it back
          obtain ⟨p, hp⟩ := plaintextOf_exists hv
          rcases hdr : draw r1 with ⟨nonce, r2a⟩
          have hce : capsuleEncrypt r1 v = some (tokenEncode nonce p, r2a) := by
            rw [capsuleEncrypt, hp, hdr]
          have hra : runAliases r ((k, v) :: rest) = a :: runAliases r2a rest := by
            rw [runAliases, if_neg hv, hgen]
            simp [hpo, hce]
          rw [runOk, Bool.and_eq_true_iff] at hok
          have hndTop := of_decide_eq_true hok.1
          rw [hra, List.nodup_cons] at hndTop
          obtain ⟨haRA, hnd1⟩ := hndTop
          have hsub1 : subOk r2a rest = true := by
            have hs := hok.2
            rw [subOk, if_neg hv, hgen] at hs
            simpa [hpo, hce] using hs
          have hok1 : runOk r2a rest = true := by
            rw [runOk, Bool.and_eq_true_iff]
            exact ⟨decide_eq_true hnd1, hsub1⟩
          rw [recKeysOk, Bool.and_eq_true_iff] at hkeys
          have hknd := of_decide_eq_true hkeys.1
          have hkU : (keysOfU ((k, v) :: rest)).Nodup :=
            (keysOfU_sublist _).nodup hknd
          rw [keysOfU, if_neg hv, List.nodup_cons] at hkU
          obtain ⟨hkKU, hkU1⟩ := hkU
          have hkeys1 : recKeysOk rest = true := by
            rw [recKeysOk, Bool.and_eq_true_iff]
            constructor
            · have hkc := hknd
              rw [keysOf_cons, List.nodup_cons] at hkc
              exact decide_eq_true hkc.2
            · have hnv := hkeys.2
              rw [recNodupVals, Bool.and_eq_true_iff] at hnv
              exact hnv.2
          obtain ⟨B1, M1, r3, h1, h2, h3, h4⟩ := encRun rest r2a hnd1 hkU1
          have hrunEq : encryptNestedObject r ((k, v) :: rest) [] [] =
              .ok ((a, jStr (tokenEncode nonce p)) :: B1, (k, jStr a) :: M1, r3) := by
            rw [encryptNestedObject, if_neg hv, hgen]
            simp only [dif_neg hpo, hce]
            have happ := h4 [(a, jStr (tokenEncode nonce p))] [(k, jStr a)]
              (fun x hx => by
                simp only [keysOf, List.map_cons, List.map_nil,
                  List.mem_singleton]
                intro hxa; exact haRA (hxa ▸ hx))
              (fun x hx => by
                simp only [keysOf, List.map_cons, List.map_nil,
                  List.mem_singleton]
                intro hxk; exact hkKU (hxk ▸ hx))
            simpa [objInsert] using happ
          rw [hrunEq] at hrun
          simp only [Except.ok.injEq, Prod.mk.injEq] at hrun
          obtain ⟨hB, hM, -⟩ := hrun
          subst hB; subst hM
          have hnp : a ∉ keysOf pre := fun hm =>
            (hpre a hm) (by rw [hra]; exact List.mem_cons_self a _)
          have hlook : lookupField
              ((pre ++ (a, jStr (tokenEncode nonce p)) :: B1) ++ extra) a =
              some (jStr (tokenEncode nonce p)) := by
            rw [List.append_assoc, lookupField_append_right hnp]
            exact lookupField_cons_self
          obtain ⟨p2, hp2, hcd⟩ := capsuleDecrypt_encrypt hce
          rw [hp] at hp2
          injection hp2 with hp2
          subst hp2
          have hli : leafImage v = decodePlain p := by rw [leafImage, hp]
          have hkAcc : k ∉ keysOf acc := by
            refine hacc k ?_
            rw [keysOfU, if_neg hv]
            exact List.mem_cons_self k _
          have hmemU : ∀ x ∈ keysOfU rest, x ∈ keysOfU ((k, v) :: rest) := by
            intro x hx
            rw [keysOfU, if_neg hv]
            exact List.mem_cons_of_mem k hx
          have hpre1 : ∀ x ∈ keysOf (pre ++ [(a, jStr (tokenEncode nonce p))]),
              x ∉ runAliases r2a rest := by
            intro x hx
            rw [keysOf_append] at hx
            rcases List.mem_append.mp hx with hxp | hxa
            · intro hmem
              exact (hpre x hxp) (by rw [hra]; exact List.mem_cons_of_mem a hmem)
            · have hxa2 : x = a := by simpa [keysOf] using hxa
              subst hxa2
              exact haRA
          have hextra1 : ∀ x ∈ keysOf extra, x ∉ runAliases r2a rest := by
            intro x hx hmem
            exact (hextra x hx) (by rw [hra]; exact List.mem_cons_of_mem a hmem)
          have hacc1 : ∀ x ∈ keysOfU rest,
              x ∉ keysOf (acc ++ [(k, leafImage v)]) := by
            intro x hx
            rw [keysOf_append]
            intro hmem
            rcases List.mem_append.mp hmem with hxa | hxk
            · exact hacc x (hmemU x hx) hxa
            · have hxk2 : x = k := by simpa [keysOf] using hxk
              subst hxk2
              exact hkKU hx
          rw [decryptNestedObject]
          rw [dif_neg (by rw [isNestedMapEntry_str]; simp)]
          split
          · rename_i mv2 hmv obf heq
            injection heq with hobf
            subst hobf
            rw [hlook]
            show (match capsuleDecrypt (tokenEncode nonce p) with
                  | none => Except.error DecodeError.decryptionFailure
                  | some v1 =>
                      decryptNestedObject
                        ((pre ++ (a, jStr (tokenEncode nonce p)) :: B1) ++ extra)
                        M1 (objInsert k v1 acc)) =
                Except.ok (acc ++ recImage ((k, v) :: rest))
            rw [hcd]
            show decryptNestedObject
                  ((pre ++ (a, jStr (tokenEncode nonce p)) :: B1) ++ extra)
                  M1 (objInsert k (decodePlain p) acc) =
                Except.ok (acc ++ recImage ((k, v) :: rest))
            rw [← hli, objInsert_fresh hkAcc]
            rw [show (pre ++ (a, jStr (tokenEncode nonce p)) :: B1) ++ extra =
                ((pre ++ [(a, jStr (tokenEncode nonce p))]) ++ B1) ++ extra from by
              simp]
            rw [decRun rest r2a B1 M1 r3 h1 hok1 hkeys1
              (pre ++ [(a, jStr (tokenEncode nonce p))]) extra
              (acc ++ [(k, leafImage v)]) hpre1 hextra1 hacc1]
            rw [show recImage ((k, v) :: rest) =
                (k, leafImage v) :: recImage rest from by
              rw [recImage, if_neg hv, if_neg hpo]]
            simp
          · rename_i hno
            exact (hno a (by rw [isNestedMapEntry_str]; simp) rfl HEq.rfl).elim
termination_by entries => sizeOf entries
decreasing_by
  all_goals simp
  all_goals try omega
  all_goals (refine lt_of_le_of_lt (entriesOf_sizeOf _) ?_; omega)

theorem mappingRT :
    ∀ (entries : List (String × JVal)) (r : Rng)
      (B M : List (String × JVal)) (r2 : Rng),
      encryptNestedObject r entries [] [] = .ok (B, M, r2) →
      runOk r entries = true →
      recKeysOk entries = true →
      jsonRT (jObj M) = true
  | [], r, B, M, r2, hrun, _, _ => by
      rw [encryptNestedObject] at hrun
      simp only [Except.ok.injEq, Prod.mk.injEq] at hrun
      obtain ⟨-, hM, -⟩ := hrun
      subst hM
      rw [jsonRT]
      simp [keysOf, jsonRTFields]
  | (k, v) :: rest, r, B, M, r2, hrun, hok, hkeys => by
      by_cases hv : v = jUndef
      · have hrun1 : encryptNestedObject r rest [] [] = .ok (B, M, r2) := by
          rw [encryptNestedObject, if_pos hv] at hrun
          exact hrun
        have hok1 : runOk r rest = true := by
          rw [runOk] at hok ⊢
          rw [show runAliases r ((k, v) :: rest) = runAliases r rest from by
            rw [runAliases, if_pos hv]] at hok
          rw [show subOk r ((k, v) :: rest) = subOk r rest from by
            rw [subOk, if_pos hv]] at hok
          exact hok
        have hkeys1 : recKeysOk rest = true := by
          rw [recKeysOk, Bool.and_eq_true_iff] at hkeys ⊢
          refine ⟨?_, ?_⟩
          · have hkc := of_decide_eq_true hkeys.1
            rw [keysOf_cons, List.nodup_cons] at hkc
            exact decide_eq_true hkc.2
          · have hnv := hkeys.2
            rw [recNodupVals, Bool.and_eq_true_iff] at hnv
            exact hnv.2
        exact mappingRT rest r B M r2 hrun1 hok1 hkeys1
      · rcases hgen : generateRandomFieldName r with ⟨a, r1⟩
        rw [runOk, Bool.and_eq_true_iff] at hok
        have hndTop := of_decide_eq_true hok.1
        rw [recKeysOk, Bool.and_eq_true_iff] at hkeys
        have hknd := of_decide_eq_true hkeys.1
        have hkU : (keysOfU ((k, v) :: rest)).Nodup :=
          (keysOfU_sublist _).nodup hknd
        rw [keysOfU, if_neg hv, List.nodup_cons] at hkU
        obtain ⟨hkKU, hkU1⟩ := hkU
        have hkeys1 : recKeysOk rest = true := by
          rw [recKeysOk, Bool.and_eq_true_iff]
          constructor
          · have hkc := hknd
            rw [keysOf_cons, List.nodup_cons] at hkc
            exact decide_eq_true hkc.2
          · have hnv := hkeys.2
            rw [recNodupVals, Bool.and_eq_true_iff] at hnv
            exact hnv.2
        by_cases hpo : isPlainObject v = true
        · obtain ⟨⟨subR, subM, r2a⟩, hsub⟩ :=
            encryptNestedObject_total (entriesOf v) r1 [] []
          have hra : runAliases r ((k, v) :: rest) = a :: runAliases r2a rest := by
            rw [runAliases, if_neg hv, hgen]
            simp [hpo, hsub]
          rw [hra, List.nodup_cons] at hndTop
          obtain ⟨haRA, hnd1⟩ := hndTop
          have hs := hok.2
          rw [subOk, if_neg hv, hgen] at hs
          simp only [hpo, if_true, hsub] at hs
          rw [Bool.and_eq_true_iff, Bool.and_eq_true_iff] at hs
          obtain ⟨⟨hsubNd, hsubOk⟩, hsubRest⟩ := hs
          have hok1 : runOk r2a rest = true := by
            rw [runOk, Bool.and_eq_true_iff]
            exact ⟨decide_eq_true hnd1, hsubRest⟩
          have hokSub : runOk r1 (entriesOf v) = true := by
            rw [runOk, Bool.and_eq_true_iff]
            exact ⟨hsubNd, hsubOk⟩
          have hkeysSub : recKeysOk (entriesOf v) = true := by
            have hnv := hkeys.2
            rw [recNodupVals, Bool.and_eq_true_iff] at hnv
            have hn1 := hnv.1
            simp only [hpo, if_true] at hn1
            rw [recKeysOk]
            exact hn1
          obtain ⟨B1, M1, r3, h1, h2, h3, h4⟩ := encRun rest r2a hnd1 hkU1
          have hrunEq : encryptNestedObject r ((k, v) :: rest) [] [] =
              .ok ((a, jObj subR) :: B1,
                (k, jObj [("_field", jStr a), ("_nested", jObj subM)]) :: M1,
                r3) := by
            rw [encryptNestedObject, if_neg hv, hgen]
            simp only [dif_pos hpo, hsub]
            have happ := h4 [(a, jObj subR)]
              [(k, jObj [("_field", jStr a), ("_nested", jObj subM)])]
              (fun x hx => by
                simp only [keysOf, List.map_cons, List.map_nil,
                  List.mem_singleton]
                intro hxa; exact haRA (hxa ▸ hx))
              (fun x hx => by
                simp only [keysOf, List.map_cons, List.map_nil,
                  List.mem_singleton]
                intro hxk; exact hkKU (hxk ▸ hx))
            simpa [objInsert] using happ
          rw [hrunEq] at hrun
          simp only [Except.ok.injEq, Prod.mk.injEq] at hrun
          obtain ⟨-, hM, -⟩ := hrun
          subst hM
          have hsubRT := mappingRT (entriesOf v) r1 subR subM r2a hsub hokSub
            hkeysSub
          have hrestRT := mappingRT rest r2a B1 M1 r3 h1 hok1 hkeys1
          rw [jsonRT, Bool.and_eq_true_iff] at hrestRT ⊢
          constructor
          · rw [keysOf_cons]
            refine decide_eq_true (List.nodup_cons.mpr ⟨?_, ?_⟩)
            · rw [h3]; exact hkKU
            · exact of_decide_eq_true hrestRT.1
          · rw [jsonRTFields, Bool.and_eq_true_iff]
            refine ⟨?_, hrestRT.2⟩
            rw [jsonRT, Bool.and_eq_true_iff]
            refine ⟨by simp [keysOf], ?_⟩
            rw [jsonRT, Bool.and_eq_true_iff] at hsubRT
            simp [jsonRTFields, jsonRT, hsubRT.2, of_decide_eq_true hsubRT.1]
        · obtain ⟨p, hp⟩ := plaintextOf_exists hv
          rcases hdr : draw r1 with ⟨nonce, r2a⟩
          have hce : capsuleEncrypt r1 v = some (tokenEncode nonce p, r2a) := by
            rw [capsuleEncrypt, hp, hdr]
          have hra : runAliases r ((k, v) :: rest) = a :: runAliases r2a rest := by
            rw [runAliases, if_neg hv, hgen]
            simp [hpo, hce]
          rw [hra, List.nodup_cons] at hndTop
          obtain ⟨haRA, hnd1⟩ := hndTop
          have hs := hok.2
          rw [subOk, if_neg hv, hgen] at hs
          have hsub1 : subOk r2a rest = true := by
            simpa [hpo, hce] using hs
          have hok1 : runOk r2a rest = true := by
            rw [runOk, Bool.and_eq_true_iff]
            exact ⟨decide_eq_true hnd1, hsub1⟩
          obtain ⟨B1, M1, r3, h1, h2, h3, h4⟩ := encRun rest r2a hnd1 hkU1
          have hrunEq : encryptNestedObject r ((k, v) :: rest) [] [] =
              .ok ((a, jStr (tokenEncode nonce p)) :: B1, (k, jStr a) :: M1, r3) := by
            rw [encryptNestedObject, if_neg hv, hgen]
            simp only [dif_neg hpo, hce]
            have happ := h4 [(a, jStr (tokenEncode nonce p))] [(k, jStr a)]
              (fun x hx => by
                simp only [keysOf, List.map_cons, List.map_nil,
                  List.mem_singleton]
                intro hxa; exact haRA (hxa ▸ hx))
              (fun x hx => by
                simp only [keysOf, List.map_cons, List.map_nil,
                  List.mem_singleton]
                intro hxk; exact hkKU (hxk ▸ hx))
            simpa [objInsert] using happ
          rw [hrunEq] at hrun
          simp only [Except.ok.injEq, Prod.mk.injEq] at hrun
          obtain ⟨-, hM, -⟩ := hrun
          subst hM
          have hrestRT := mappingRT rest r2a B1 M1 r3 h1 hok1 hkeys1
          rw [jsonRT, Bool.and_eq_true_iff] at hrestRT ⊢
          constructor
          · rw [keysOf_cons]
            refine decide_eq_true (List.nodup_cons.mpr ⟨?_, ?_⟩)
            · rw [h3]; exact hkKU
            · exact of_decide_eq_true hrestRT.1
          · rw [jsonRTFields, Bool.and_eq_true_iff]
            exact ⟨rfl, hrestRT.2⟩
termination_by entries => sizeOf entries
decreasing_by
  all_goals simp
  all_goals try omega
  all_goals (refine lt_of_le_of_lt (entriesOf_sizeOf _) ?_; omega)

theorem tokenEncode_ne_empty (nonce : Nat) (p : String) :
    tokenEncode nonce p ≠ "" := by
  intro h
  have hd := congrArg String.data h
  rw [show (tokenEncode nonce p).data =
      List.replicate (nonce + 1) '!' ++ '#' :: p.data from rfl] at hd
  rw [List.replicate_succ, List.cons_append] at hd
  exact List.noConfusion hd

theorem leafImage_of_rt {v : JVal} (hpo : isPlainObject v = false)
    (h : leafRT v = true) : leafImage v = v := by
  cases v with
  | jStr s =>
      have hp : jsonParse s = none := jsonParse_none_of_leafRT h
      simp [leafImage, plaintextOf, decodePlain, hp]
  | jUndef => simp [leafRT, jsonRT] at h
  | jDate iso => simp [leafRT, jsonRT] at h
  | jObj fs => simp [isPlainObject] at hpo
  | jNull =>
      have hrt : jsonRT jNull = true := by simpa [leafRT] using h
      simp [leafImage, plaintextOf, jsonStringify, decodePlain,
        jsonParse_render hrt]
  | jBool b =>
      have hrt : jsonRT (jBool b) = true := by simpa [leafRT] using h
      simp [leafImage, plaintextOf, jsonStringify, decodePlain,
        jsonParse_render hrt]
  | jNum n =>
      have hrt : jsonRT (jNum n) = true := by simpa [leafRT] using h
      simp [leafImage, plaintextOf, jsonStringify, decodePlain,
        jsonParse_render hrt]
  | jArr xs =>
      have hrt : jsonRT (jArr xs) = true := by simpa [leafRT] using h
      simp [leafImage, plaintextOf, jsonStringify, decodePlain,
        jsonParse_render hrt]

theorem recImage_of_rt :
    ∀ (fields : List (String × JVal)), roundTrippable fields = true →
      recImage fields = fields
  | [], _ => by rw [recImage]
  | (k, v) :: rest, h => by
      rw [roundTrippable, Bool.and_eq_true_iff] at h
      obtain ⟨hval, hrest⟩ := h
      by_cases hpo : isPlainObject v = true
      · have hv : v ≠ jUndef := by
          intro hu; rw [hu] at hpo; exact absurd hpo (by decide)
        rw [if_pos hpo] at hval
        rw [recImage, if_neg hv, if_pos hpo,
          recImage_of_rt (entriesOf v) hval, recImage_of_rt rest hrest]
        cases v with
        | jObj fs => rw [entriesOf]
        | jNull => simp [isPlainObject] at hpo
        | jBool b => simp [isPlainObject] at hpo
        | jNum n => simp [isPlainObject] at hpo
        | jStr s => simp [isPlainObject] at hpo
        | jDate iso => simp [isPlainObject] at hpo
        | jUndef => simp [isPlainObject] at hpo
        | jArr xs => simp [isPlainObject] at hpo
      · rw [if_neg hpo] at hval
        have hv : v ≠ jUndef := by
          intro hu; rw [hu] at hval; simp [leafRT, jsonRT] at hval
        have hpo2 : isPlainObject v = false := by simpa using hpo
        rw [recImage, if_neg hv, if_neg hpo,
          leafImage_of_rt hpo2 hval, recImage_of_rt rest hrest]
termination_by fields => sizeOf fields
decreasing_by
  all_goals simp
  all_goals try omega
  all_goals (refine lt_of_le_of_lt (entriesOf_sizeOf _) ?_; omega)

theorem stripMeta_assembled (e t m : JVal) (B : List (String × JVal))
    (hB : ∀ x ∈ keysOf B, x ≠ "encrypted" ∧ x ≠ "timestamp" ∧ x ≠ "_mapping") :
    stripMeta ([("encrypted", e), ("timestamp", t)] ++ B ++ [("_mapping", m)]) =
      B := by
  rw [stripMeta, List.filter_append, List.filter_append]
  rw [show List.filter
      (fun kv => kv.1 != "encrypted" && kv.1 != "timestamp" &&
        kv.1 != "_mapping")
      [(("encrypted" : String), e), (("timestamp" : String), t)] = [] from by
    simp]
  rw [show List.filter
      (fun kv => kv.1 != "encrypted" && kv.1 != "timestamp" &&
        kv.1 != "_mapping") [(("_mapping" : String), m)] = [] from by simp]
  rw [List.filter_eq_self.mpr]
  · simp
  · intro kv hkv
    obtain ⟨hk1, hk2, hk3⟩ := hB kv.1 (List.mem_map_of_mem Prod.fst hkv)
    simp [hk1, hk2, hk3]

theorem stripMeta_sublist (env : List (String × JVal)) :
    (stripMeta env).Sublist env := by
  rw [stripMeta]
  exact List.filter_sublist env

theorem encryptFields_decrypt_ext (r : Rng) (ts : String)
    (fields : List (String × JVal))
    (hok : runOk r fields = true) (hkeys : recKeysOk fields = true)
    (hmeta : ∀ a ∈ runAliases r fields,
      a ≠ "encrypted" ∧ a ≠ "timestamp" ∧ a ≠ "_mapping")
    {env : List (String × JVal)} {r2 : Rng}
    (henc : encryptFields r ts (jObj fields) = .ok (env, r2))
    (extra : List (String × JVal))
    (hext : ∀ x ∈ keysOf extra, x ∉ runAliases r fields) :
    decryptFields (env ++ extra) = .ok (recImage fields) := by
  have hok0 := hok
  rw [runOk, Bool.and_eq_true_iff] at hok0
  have hnd := of_decide_eq_true hok0.1
  have hknd := of_decide_eq_true ((Bool.and_eq_true_iff.mp
    (by rw [← recKeysOk]; exact hkeys)).1)
  have hkU : (keysOfU fields).Nodup := (keysOfU_sublist _).nodup hknd
  obtain ⟨B, M, r3, h1, h2, h3, h4⟩ := encRun fields r hnd hkU
  rw [encryptFields] at henc
  rw [if_neg (by simp [typeofIsObject, isArrayVal])] at henc
  rw [show entriesOf (jObj fields) = fields from rfl, h1] at henc
  rcases hdr : draw r3 with ⟨nonce, r4⟩
  have hcm : capsuleEncrypt r3 (jObj M) =
      some (tokenEncode nonce (String.mk (render (jObj M))), r4) := by
    rw [capsuleEncrypt, show plaintextOf (jObj M) =
      some (String.mk (render (jObj M))) from rfl, hdr]
  have henc2 : (match capsuleEncrypt r3 (jObj M) with
      | none => Except.error EncodeError.encryptionFailure
      | some (mtok, r5) =>
          Except.ok (objInsert "_mapping" (jStr mtok)
            (objInsertAll [("encrypted", jBool true), ("timestamp", jStr ts)] B),
            r5)) = Except.ok (env, r2) := henc
  rw [hcm] at henc2
  simp only [Except.ok.injEq, Prod.mk.injEq] at henc2
  obtain ⟨henv, -⟩ := henc2
  have hBmeta : ∀ x ∈ keysOf B,
      x ≠ "encrypted" ∧ x ≠ "timestamp" ∧ x ≠ "_mapping" := by
    intro x hx
    exact hmeta x (h2 ▸ hx)
  have hbase : objInsertAll
      [("encrypted", jBool true), ("timestamp", jStr ts)] B =
      [("encrypted", jBool true), ("timestamp", jStr ts)] ++ B := by
    refine objInsertAll_fresh B _ (h2 ▸ hnd) ?_
    intro x hx
    obtain ⟨he, ht, -⟩ := hBmeta x hx
    simp [keysOf, he, ht]
  have hmapNotMem : "_mapping" ∉
      keysOf ([("encrypted", jBool true), ("timestamp", jStr ts)] ++ B) := by
    rw [keysOf_append]
    intro hmem
    rcases List.mem_append.mp hmem with hm | hm
    · simp [keysOf] at hm
    · exact (hBmeta _ hm).2.2 rfl
  rw [hbase, objInsert_fresh hmapNotMem] at henv
  subst henv
  set tokM := tokenEncode nonce (String.mk (render (jObj M))) with htokM
  have hBnotM : "_mapping" ∉ keysOf B := by
    intro hm
    exact (hBmeta _ hm).2.2 rfl
  have hshape : (([("encrypted", jBool true), ("timestamp", jStr ts)] ++ B) ++
      [("_mapping", jStr tokM)]) ++ extra =
      ("encrypted", jBool true) :: ("timestamp", jStr ts) ::
        (B ++ ([("_mapping", jStr tokM)] ++ extra)) := by
    simp
  have hlookE : lookupField
      ((([("encrypted", jBool true), ("timestamp", jStr ts)] ++ B) ++
        [("_mapping", jStr tokM)]) ++ extra) "encrypted" = some (jBool true) := by
    rw [hshape]
    exact lookupField_cons_self
  have hlookM : lookupField
      ((([("encrypted", jBool true), ("timestamp", jStr ts)] ++ B) ++
        [("_mapping", jStr tokM)]) ++ extra) "_mapping" = some (jStr tokM) := by
    rw [hshape]
    rw [show ("encrypted", jBool true) :: ("timestamp", jStr ts) ::
        (B ++ ([("_mapping", jStr tokM)] ++ extra)) =
        [("encrypted", jBool true), ("timestamp", jStr ts)] ++
          (B ++ ([("_mapping", jStr tokM)] ++ extra)) from rfl]
    rw [lookupField_append_right (by simp [keysOf]),
      lookupField_append_right hBnotM]
    exact lookupField_cons_self
  have hrt : jsonRT (jObj M) = true :=
    mappingRT fields r B M r3 h1 hok hkeys
  have hcdM : capsuleDecrypt tokM = some (jObj M) := by
    simp [capsuleDecrypt, htokM, tokenDecode_encode, decodePlain,
      jsonParse_render hrt]
  rw [decryptFields]
  rw [hlookE, hlookM]
  rw [if_neg (by simp [truthy, tokenEncode_ne_empty nonce])]
  show (match capsuleDecrypt tokM with
        | none => Except.error DecodeError.decryptionFailure
        | some mappingVal =>
            decryptNestedObject
              (stripMeta
                ((([("encrypted", jBool true), ("timestamp", jStr ts)] ++ B) ++
                  [("_mapping", jStr tokM)]) ++ extra))
              (mappingEntries mappingVal) []) =
      Except.ok (recImage fields)
  rw [hcdM]
  show decryptNestedObject
        (stripMeta
          ((([("encrypted", jBool true), ("timestamp", jStr ts)] ++ B) ++
            [("_mapping", jStr tokM)]) ++ extra))
        (mappingEntries (jObj M)) [] = Except.ok (recImage fields)
  have hstrip : stripMeta
      ((([("encrypted", jBool true), ("timestamp", jStr ts)] ++ B) ++
        [("_mapping", jStr tokM)]) ++ extra) = B ++ stripMeta extra := by
    rw [show (([("encrypted", jBool true), ("timestamp", jStr ts)] ++ B) ++
        [("_mapping", jStr tokM)]) ++ extra =
        ([("encrypted", jBool true), ("timestamp", jStr ts)] ++ B ++
          [("_mapping", jStr tokM)]) ++ extra from by simp]
    rw [stripMeta, List.filter_append, ← stripMeta, ← stripMeta,
      stripMeta_assembled _ _ _ B hBmeta]
  rw [hstrip]
  rw [show mappingEntries (jObj M) = M from rfl]
  have hextS : ∀ x ∈ keysOf (stripMeta extra), x ∉ runAliases r fields := by
    intro x hx
    have hsub : x ∈ keysOf extra := by
      rw [keysOf] at hx ⊢
      exact ((stripMeta_sublist extra).map Prod.fst).mem hx
    exact hext x hsub
  have hd := decRun fields r B M r3 h1 hok hkeys [] (stripMeta extra) []
    (by simp [keysOf]) hextS (by simp [keysOf])
  simpa using hd

theorem encryptFields_decrypt (r : Rng) (ts : String)
    (fields : List (String × JVal))
    (hok : runOk r fields = true) (hkeys : recKeysOk fields = true)
    (hmeta : ∀ a ∈ runAliases r fields,
      a ≠ "encrypted" ∧ a ≠ "timestamp" ∧ a ≠ "_mapping")
    {env : List (String × JVal)} {r2 : Rng}
    (henc : encryptFields r ts (jObj fields) = .ok (env, r2)) :
    decryptFields env = .ok (recImage fields) := by
  have hd := encryptFields_decrypt_ext r ts fields hok hkeys hmeta henc []
    (by simp [keysOf])
  simpa using hd

theorem padLoop_append :
    ∀ (n : Nat) (r : Rng) (env : List (String × JVal)),
      (padAliases r n).Nodup →
      (∀ a ∈ padAliases r n, a ∉ keysOf env) →
      ∃ P r2, encryptFieldsPadLoop r n env = (env ++ P, r2) ∧
        keysOf P = padAliases r n := by
  intro n
  induction n with
  | zero =>
      intro r env _ _
      refine ⟨[], r, ?_, by rw [padAliases, keysOf]; rfl⟩
      rw [encryptFieldsPadLoop]
      simp
  | succ m ih =>
      intro r env hnd hfresh
      rcases hgen : generateRandomFieldName r with ⟨a, r1⟩
      rcases hdr : draw r1 with ⟨x, r2⟩
      have hce : capsuleEncrypt r2 (jStr (String.mk (natDigits x))) =
          some (tokenEncode (draw r2).1 (String.mk (natDigits x)),
            (draw r2).2) := by
        rw [capsuleEncrypt]
        rfl
      have hpa : padAliases r (m + 1) =
          a :: padAliases (draw r2).2 m := by
        rw [padAliases]
        simp only [hgen, hdr, hce]
      rw [hpa, List.nodup_cons] at hnd
      obtain ⟨haP, hnd1⟩ := hnd
      have haEnv : a ∉ keysOf env := by
        refine hfresh a ?_
        rw [hpa]
        exact List.mem_cons_self a _
      have hfresh1 : ∀ b ∈ padAliases (draw r2).2 m,
          b ∉ keysOf (env ++ [(a, jStr (tokenEncode (draw r2).1
            (String.mk (natDigits x))))]) := by
        intro b hb
        rw [keysOf_append]
        intro hmem
        rcases List.mem_append.mp hmem with hm | hm
        · exact hfresh b (by rw [hpa]; exact List.mem_cons_of_mem a hb) hm
        · have hba : b = a := by simpa [keysOf] using hm
          exact haP (hba ▸ hb)
      obtain ⟨P1, r3, hP1, hkP1⟩ := ih (draw r2).2
        (env ++ [(a, jStr (tokenEncode (draw r2).1 (String.mk (natDigits x))))])
        hnd1 hfresh1
      refine ⟨(a, jStr (tokenEncode (draw r2).1 (String.mk (natDigits x)))) :: P1,
        r3, ?_, ?_⟩
      · rw [encryptFieldsPadLoop]
        simp only [hgen, hdr, hce]
        rw [objInsert_fresh haEnv, hP1]
        simp
      · rw [hpa, keysOf_cons, hkP1]

/-! ### One iteration of the decode loop -/

/-- One iteration of decryptNestedObject's for-in loop over the mapping
entries, returning the accumulator it hands the next iteration (ok) or the
error it raises; translated branch for branch from the loop body in
src/core/FieldEncryption.ts (decryptNestedObject). -/
def decStep (encryptedData : List (String × JVal)) (origField : String)
    (mv : JVal) (result : List (String × JVal)) :
    Except DecodeError (List (String × JVal)) :=
  if isNestedMapEntry mv then
    match getProp mv "_field" with
    | some (jStr obf) =>
        match lookupField encryptedData obf with
        | some nested =>
            if isPlainObject nested then
              match decryptNestedObject (entriesOf nested)
                  (mappingEntries ((getProp mv "_nested").getD jUndef)) [] with
              | .error e => .error e
              | .ok sub => .ok (objInsert origField (jObj sub) result)
            else .ok result
        | none => .ok result
    | _ => .ok result
  else
    match mv with
    | jStr obf =>
        match lookupField encryptedData obf with
        | some (jStr tok) =>
            match capsuleDecrypt tok with
            | none => .error .decryptionFailure
            | some v => .ok (objInsert origField v result)
        | _ => .ok result
    | _ => .ok result

theorem decryptNestedObject_cons (body : List (String × JVal))
    (k : String) (mv : JVal) (rest acc : List (String × JVal)) :
    decryptNestedObject body ((k, mv) :: rest) acc =
      (match decStep body k mv acc with
       | .error e => .error e
       | .ok acc1 => decryptNestedObject body rest acc1) := by
  rw [decryptNestedObject]
  show _ = (match (if isNestedMapEntry mv then
        match getProp mv "_field" with
        | some (jStr obf) =>
            match lookupField body obf with
            | some nested =>
                if isPlainObject nested then
                  match decryptNestedObject (entriesOf nested)
                      (mappingEntries ((getProp mv "_nested").getD jUndef)) [] with
                  | .error e => .error e
                  | .ok sub => .ok (objInsert k (jObj sub) acc)
                else .ok acc
            | none => .ok acc
        | _ => .ok acc
      else
        match mv with
        | jStr obf =>
            match lookupField body obf with
            | some (jStr tok) =>
                match capsuleDecrypt tok with
                | none => .error .decryptionFailure
                | some v => .ok (objInsert k v acc)
            | _ => .ok acc
        | _ => .ok acc) with
    | Except.error e => Except.error e
    | Except.ok acc1 => decryptNestedObject body rest acc1)
  by_cases hn : isNestedMapEntry mv = true
  · rw [dif_pos hn, if_pos hn]
    split
    · rename_i obf heq
      rw [heq]
      show _ = (match (match lookupField body obf with
          | some nested =>
              if isPlainObject nested = true then
                match decryptNestedObject (entriesOf nested)
                    (mappingEntries ((getProp mv "_nested").getD jUndef)) [] with
                | .error e => .error e
                | .ok sub => .ok (objInsert k (jObj sub) acc)
              else .ok acc
          | none => .ok acc) with
        | Except.error e => Except.error e
        | Except.ok acc1 => decryptNestedObject body rest acc1)
      cases hl : lookupField body obf with
      | some nested =>
          show (if isPlainObject nested = true then
              match decryptNestedObject (entriesOf nested)
                  (mappingEntries ((getProp mv "_nested").getD jUndef)) [] with
              | .error e => .error e
              | .ok sub => decryptNestedObject body rest (objInsert k (jObj sub) acc)
            else decryptNestedObject body rest acc) =
            (match (if isPlainObject nested = true then
                match decryptNestedObject (entriesOf nested)
                    (mappingEntries ((getProp mv "_nested").getD jUndef)) [] with
                | .error e => .error e
                | .ok sub => .ok (objInsert k (jObj sub) acc)
              else .ok acc) with
             | Except.error e => Except.error e
             | Except.ok acc1 => decryptNestedObject body rest acc1)
          cases hpo : isPlainObject nested with
          | true =>
              cases hsub : decryptNestedObject (entriesOf nested)
                  (mappingEntries ((getProp mv "_nested").getD jUndef)) [] with
              | error e => rfl
              | ok sub => rfl
          | false => rfl
      | none => rfl
    · rename_i hno
      cases hf : getProp mv "_field" with
      | none => rfl
      | some fv =>
          cases fv with
          | jStr obf => exact (hno obf hf).elim
          | jNull => rfl
          | jBool b => rfl
          | jNum n => rfl
          | jDate iso => rfl
          | jUndef => rfl
          | jArr xs => rfl
          | jObj fs => rfl
  · rw [dif_neg hn, if_neg hn]
    cases mv with
    | jStr obf =>
        show (match lookupField body obf with
            | some (jStr tok) =>
                match capsuleDecrypt tok with
                | none => Except.error DecodeError.decryptionFailure
                | some v => decryptNestedObject body rest (objInsert k v acc)
            | _ => decryptNestedObject body rest acc) =
          (match (match lookupField body obf with
              | some (jStr tok) =>
                  match capsuleDecrypt tok with
                  | none => Except.error DecodeError.decryptionFailure
                  | some v => Except.ok (objInsert k v acc)
              | _ => Except.ok acc) with
           | Except.error e => Except.error e
           | Except.ok acc1 => decryptNestedObject body rest acc1)
        cases hl : lookupField body obf with
        | some w =>
            cases w with
            | jStr tok =>
                show (match capsuleDecrypt tok with
                    | none => Except.error DecodeError.decryptionFailure
                    | some v => decryptNestedObject body rest (objInsert k v acc)) =
                  (match (match capsuleDecrypt tok with
                      | none => Except.error DecodeError.decryptionFailure
                      | some v => Except.ok (objInsert k v acc)) with
                   | Except.error e => Except.error e
                   | Except.ok acc1 => decryptNestedObject body rest acc1)
                cases hcd : capsuleDecrypt tok with
                | none => rfl
                | some v => rfl
            | jNull => rfl
            | jBool b => rfl
            | jNum n => rfl
            | jDate iso => rfl
            | jUndef => rfl
            | jArr xs => rfl
            | jObj fs => rfl
        | none => rfl
    | jNull => rfl
    | jBool b => rfl
    | jNum n => rfl
    | jDate iso => rfl
    | jUndef => rfl
    | jArr xs => rfl
    | jObj fs => rfl

theorem decryptNestedObject_nil (body acc : List (String × JVal)) :
    decryptNestedObject body [] acc = .ok acc := by
  rw [decryptNestedObject]

/-- Decode processes its mapping sequentially: the first segment's
accumulator (or error) feeds the rest of the run. -/
theorem decryptNestedObject_append :
    ∀ (m1 body m2 acc : List (String × JVal)),
      decryptNestedObject body (m1 ++ m2) acc =
        (match decryptNestedObject body m1 acc with
         | .error e => .error e
         | .ok acc1 => decryptNestedObject body m2 acc1)
  | [], body, m2, acc => by
      rw [List.nil_append, decryptNestedObject_nil]
  | (k, mv) :: m1, body, m2, acc => by
      rw [List.cons_append, decryptNestedObject_cons, decryptNestedObject_cons]
      cases hs : decStep body k mv acc with
      | error e => rfl
      | ok acc1 => exact decryptNestedObject_append m1 body m2 acc1

/-- The decode-side skip condition, read off decryptNestedObject's branches:
the alias is absent from the obfuscated record, or the looked-up value has
the wrong shape (not a plain object for a nested mapping entry, not a
string for a leaf entry), or the mapping entry itself fits no branch. -/
def skipEntry (body : List (String × JVal)) (mv : JVal) : Bool :=
  if isNestedMapEntry mv then
    match getProp mv "_field" with
    | some (jStr obf) =>
        match lookupField body obf with
        | some nested => !isPlainObject nested
        | none => true
    | _ => true
  else
    match mv with
    | jStr obf =>
        match lookupField body obf with
        | some (jStr _) => false
        | _ => true
    | _ => true

theorem decStep_skip {body : List (String × JVal)} {mv : JVal}
    (h : skipEntry body mv = true) (k : String) (acc : List (String × JVal)) :
    decStep body k mv acc = .ok acc := by
  delta skipEntry at h
  delta decStep
  by_cases hn : isNestedMapEntry mv = true
  · rw [if_pos hn] at h
    rw [if_pos hn]
    cases hf : getProp mv "_field" with
    | none => rfl
    | some fv =>
        cases fv with
        | jStr obf =>
            rw [hf] at h
            have h2 : (match lookupField body obf with
                | some nested => !isPlainObject nested
                | none => true) = true := h
            show (match lookupField body obf with
                | some nested =>
                    if isPlainObject nested = true then
                      match decryptNestedObject (entriesOf nested)
                          (mappingEntries
                            ((getProp mv "_nested").getD jUndef)) [] with
                      | .error e => Except.error e
                      | .ok sub => Except.ok (objInsert k (jObj sub) acc)
                    else Except.ok acc
                | none => Except.ok acc) = Except.ok acc
            cases hl : lookupField body obf with
            | none => rfl
            | some nested =>
                rw [hl] at h2
                have h3 : (!isPlainObject nested) = true := h2
                rw [Bool.not_eq_true'] at h3
                show (if isPlainObject nested = true then
                    match decryptNestedObject (entriesOf nested)
                        (mappingEntries
                          ((getProp mv "_nested").getD jUndef)) [] with
                    | .error e => Except.error e
                    | .ok sub => Except.ok (objInsert k (jObj sub) acc)
                  else Except.ok acc) = Except.ok acc
                rw [h3]
                rfl
        | jNull => rfl
        | jBool b => rfl
        | jNum n => rfl
        | jDate iso => rfl
        | jUndef => rfl
        | jArr xs => rfl
        | jObj fs => rfl
  · rw [if_neg hn] at h
    rw [if_neg hn]
    cases mv with
    | jStr obf =>
        have h2 : (match lookupField body obf with
            | some (jStr _) => false
            | _ => true) = true := h
        show (match lookupField body obf with
            | some (jStr tok) =>
                match capsuleDecrypt tok with
                | none => Except.error DecodeError.decryptionFailure
                | some v => Except.ok (objInsert k v acc)
            | _ => Except.ok acc) = Except.ok acc
        cases hl : lookupField body obf with
        | none => rfl
        | some w =>
            cases w with
            | jStr tok =>
                rw [hl] at h2
                exact Bool.noConfusion (show false = true from h2)
            | jNull => rfl
            | jBool b => rfl
            | jNum n => rfl
            | jDate iso => rfl
            | jUndef => rfl
            | jArr xs => rfl
            | jObj fs => rfl
    | jNull => rfl
    | jBool b => rfl
    | jNum n => rfl
    | jDate iso => rfl
    | jUndef => rfl
    | jArr xs => rfl
    | jObj fs => rfl

/-- C3: a mapping entry whose alias is absent from the obfuscated record or
whose looked-up value has the wrong shape (not a plain object for a nested
entry, not a string for a leaf entry) is silently skipped: the decode of a
mapping containing such an entry equals the decode of the mapping without
it, so the mismatch raises no error and every other field is still decoded
exactly as before. -/
theorem C3_skipped_entry_inert (body : List (String × JVal)) (k : String)
    (mv : JVal) (pre post acc : List (String × JVal))
    (hskip : skipEntry body mv = true) :
    decryptNestedObject body (pre ++ (k, mv) :: post) acc =
      decryptNestedObject body (pre ++ post) acc := by
  rw [decryptNestedObject_append pre body ((k, mv) :: post) acc,
    decryptNestedObject_append pre body post acc]
  cases hp : decryptNestedObject body pre acc with
  | error e => rfl
  | ok acc1 =>
      show decryptNestedObject body ((k, mv) :: post) acc1 =
        decryptNestedObject body post acc1
      rw [decryptNestedObject_cons, decStep_skip hskip]

/-- C3 witness: a mapping entry whose alias "zz" is missing from the
obfuscated record is skipped, and the remaining leaf still decodes. -/
theorem C3_skipped_entry_inert_witness :
    skipEntry [("x", jStr "!#5")] (jStr "zz") = true ∧
    decryptNestedObject [("x", jStr "!#5")]
        ([("k", jStr "x")] ++ ("gone", jStr "zz") :: []) [] =
      decryptNestedObject [("x", jStr "!#5")] ([("k", jStr "x")] ++ []) [] :=
  ⟨by decide,
   C3_skipped_entry_inert [("x", jStr "!#5")] "gone" (jStr "zz")
     [("k", jStr "x")] [] [] (by decide)⟩

/-- The encoder processes its entries sequentially: the first segment's
accumulators and randomness state feed the rest of the run. -/
theorem encryptNestedObject_append :
    ∀ (e1 : List (String × JVal)) (r : Rng) (e2 res map : List (String × JVal)),
      encryptNestedObject r (e1 ++ e2) res map =
        (match encryptNestedObject r e1 res map with
         | .error e => .error e
         | .ok (res1, map1, r1) => encryptNestedObject r1 e2 res1 map1)
  | [], r, e2, res, map => by
      rw [List.nil_append,
        show encryptNestedObject r [] res map = .ok (res, map, r) from by
          rw [encryptNestedObject]]
  | (k, v) :: e1, r, e2, res, map => by
      rw [List.cons_append, encryptNestedObject, encryptNestedObject]
      by_cases hv : v = jUndef
      · simp only [if_pos hv]
        exact encryptNestedObject_append e1 r e2 res map
      · simp only [if_neg hv]
        rcases hgen : generateRandomFieldName r with ⟨a, r1⟩
        simp only [hgen]
        by_cases hpo : isPlainObject v = true
        · rw [dif_pos hpo, dif_pos hpo]
          cases hsub : encryptNestedObject r1 (entriesOf v) [] [] with
          | error e => rfl
          | ok out =>
              obtain ⟨subR, subM, r2⟩ := out
              exact encryptNestedObject_append e1 r2 e2 _ _
        · rw [dif_neg hpo, dif_neg hpo]
          cases hce : capsuleEncrypt r1 v with
          | none => rfl
          | some out =>
              obtain ⟨tok, r2⟩ := out
              exact encryptNestedObject_append e1 r2 e2 _ _

/-- An absent-valued entry anywhere in the list leaves the whole encode run
unchanged: no alias is drawn, nothing is written. -/
theorem encryptNestedObject_undef (r : Rng) (k : String)
    (pre post res map : List (String × JVal)) :
    encryptNestedObject r (pre ++ (k, jUndef) :: post) res map =
      encryptNestedObject r (pre ++ post) res map := by
  rw [encryptNestedObject_append pre r ((k, jUndef) :: post) res map,
    encryptNestedObject_append pre r post res map]
  cases hp : encryptNestedObject r pre res map with
  | error e => rfl
  | ok out =>
      obtain ⟨res1, map1, r1⟩ := out
      show encryptNestedObject r1 ((k, jUndef) :: post) res1 map1 =
        encryptNestedObject r1 post res1 map1
      rw [encryptNestedObject, if_pos rfl]

/-- The decoded image likewise drops an absent-valued entry. -/
theorem recImage_undef :
    ∀ (pre : List (String × JVal)) (k : String) (post : List (String × JVal)),
      recImage (pre ++ (k, jUndef) :: post) = recImage (pre ++ post)
  | [], k, post => by
      rw [List.nil_append, List.nil_append, recImage, if_pos rfl]
  | (k0, v0) :: pre, k, post => by
      rw [List.cons_append, List.cons_append, recImage, recImage]
      by_cases hv : v0 = jUndef
      · rw [if_pos hv, if_pos hv, recImage_undef pre k post]
      · by_cases hpo : isPlainObject v0 = true
        · rw [if_neg hv, if_neg hv, if_pos hpo, if_pos hpo,
            recImage_undef pre k post]
        · rw [if_neg hv, if_neg hv, if_neg hpo, if_neg hpo,
            recImage_undef pre k post]

/-- The decoded image's keys are exactly the keys the encoder keeps. -/
theorem keysOf_recImage :
    ∀ (fields : List (String × JVal)),
      keysOf (recImage fields) = keysOfU fields
  | [] => by rw [recImage, keysOfU]; rfl
  | (k, v) :: rest => by
      rw [recImage, keysOfU]
      by_cases hv : v = jUndef
      · rw [if_pos hv, if_pos hv, keysOf_recImage rest]
      · by_cases hpo : isPlainObject v = true
        · rw [if_neg hv, if_neg hv, if_pos hpo, keysOf_cons,
            keysOf_recImage rest]
        · rw [if_neg hv, if_neg hv, if_neg hpo, keysOf_cons,
            keysOf_recImage rest]

/-- A concrete deterministic randomness tape for the witnesses. -/
def rngSeq : Rng := { tape := fun i => i, pos := 0 }

/-- C4: a field whose value is absent (undefined, as distinct from null) is
skipped entirely by encode — the whole encode run on a record containing
(k, undefined) equals the run on the record without that field, so neither
the obfuscated record nor the mapping gains an entry for it — and the
record a decode of that envelope reconstructs (its recImage) likewise drops
the field: it carries no k key at all when k names no other field. -/
theorem C4_absent_field_skipped (r : Rng) (ts k : String)
    (pre post : List (String × JVal))
    (hk1 : k ∉ keysOf pre) (hk2 : k ∉ keysOf post) :
    encryptFields r ts (jObj (pre ++ (k, jUndef) :: post)) =
      encryptFields r ts (jObj (pre ++ post)) ∧
    recImage (pre ++ (k, jUndef) :: post) = recImage (pre ++ post) ∧
    k ∉ keysOf (recImage (pre ++ (k, jUndef) :: post)) := by
  refine ⟨?_, recImage_undef pre k post, ?_⟩
  · rw [encryptFields, encryptFields]
    rw [if_neg (by simp [typeofIsObject, isArrayVal])]
    rw [if_neg (by simp [typeofIsObject, isArrayVal])]
    rw [show entriesOf (jObj (pre ++ (k, jUndef) :: post)) =
      pre ++ (k, jUndef) :: post from rfl]
    rw [show entriesOf (jObj (pre ++ post)) = pre ++ post from rfl]
    rw [encryptNestedObject_undef]
  · rw [recImage_undef pre k post, keysOf_recImage]
    intro hmem
    have hsub := (keysOfU_sublist (pre ++ post)).mem hmem
    rw [keysOf_append] at hsub
    rcases List.mem_append.mp hsub with h | h
    · exact hk1 h
    · exact hk2 h

/-- C4 witness: encode of the record with a at 1 and b absent equals encode
of the record with a alone, and the decoded image has no b key. -/
theorem C4_absent_field_skipped_witness :
    encryptFields rngSeq "ts" (jObj [("a", jNum 1), ("b", jUndef)]) =
      encryptFields rngSeq "ts" (jObj [("a", jNum 1)]) ∧
    recImage [("a", jNum 1), ("b", jUndef)] = recImage [("a", jNum 1)] ∧
    "b" ∉ keysOf (recImage [("a", jNum 1), ("b", jUndef)]) :=
  C4_absent_field_skipped rngSeq "ts" "b" [("a", jNum 1)] []
    (by decide) (by decide)

/-- Any input that passes the typeof guard encodes to an envelope: the
recursive encode is total and the mapping always has a plaintext. -/
theorem encryptFields_ok_of_guard (r : Rng) (ts : String) (data : JVal)
    (hg : ¬(typeofIsObject data = false ∨ data = jNull ∨
      isArrayVal data = true)) :
    ∃ env r2, encryptFields r ts data = .ok (env, r2) := by
  rw [encryptFields, if_neg hg]
  obtain ⟨out, hsub⟩ := encryptNestedObject_total (entriesOf data) r [] []
  obtain ⟨B, M, r1⟩ := out
  rw [hsub]
  have hce : capsuleEncrypt r1 (jObj M) =
      some (tokenEncode (draw r1).1 (String.mk (render (jObj M))),
        (draw r1).2) := by
    rw [capsuleEncrypt]; rfl
  refine ⟨objInsert "_mapping"
      (jStr (tokenEncode (draw r1).1 (String.mk (render (jObj M)))))
      (objInsertAll [("encrypted", jBool true), ("timestamp", jStr ts)] B),
    (draw r1).2, ?_⟩
  show (match capsuleEncrypt r1 (jObj M) with
      | none => Except.error EncodeError.encryptionFailure
      | some (mtok, r2) =>
          Except.ok (objInsert "_mapping" (jStr mtok)
            (objInsertAll [("encrypted", jBool true), ("timestamp", jStr ts)]
              B), r2)) =
    Except.ok (objInsert "_mapping"
      (jStr (tokenEncode (draw r1).1 (String.mk (render (jObj M)))))
      (objInsertAll [("encrypted", jBool true), ("timestamp", jStr ts)] B),
      (draw r1).2)
  rw [hce]

/-- C5 (amended): encryptFields fails with InvalidInputKind exactly when
the typeof-based guard trips — the input's typeof is not object, the input
is null, or it is an array. Any other input yields an envelope; in
particular a date-like value, a Leaf by the spec's own definition of nested
record, passes the guard and is encoded rather than rejected. -/
theorem C5_invalid_input_guard (r : Rng) (ts : String) (data : JVal) :
    (encryptFields r ts data = .error .invalidInputKind ↔
      typeofIsObject data = false ∨ data = jNull ∨ isArrayVal data = true) ∧
    (¬(typeofIsObject data = false ∨ data = jNull ∨ isArrayVal data = true) →
      (encryptFields r ts data).isOk = true) := by
  by_cases hg : typeofIsObject data = false ∨ data = jNull ∨
      isArrayVal data = true
  · exact ⟨⟨fun _ => hg, fun _ => by rw [encryptFields, if_pos hg]⟩,
      fun hng => absurd hg hng⟩
  · obtain ⟨env, r2, hok⟩ := encryptFields_ok_of_guard r ts data hg
    refine ⟨⟨fun he => ?_, fun h => absurd h hg⟩, fun _ => by rw [hok]; rfl⟩
    rw [hok] at he
    exact absurd he (by simp)

/-- C5 counterexample: a date-like value is not a nested record (the spec
counts it a Leaf), yet field-level encode produces an envelope for it
instead of failing with InvalidInputKind. -/
theorem C5_counterexample :
    (encryptFields rngSeq "ts" (jDate "2024-01-01")).isOk = true ∧
    isPlainObject (jDate "2024-01-01") = false := by
  refine ⟨?_, rfl⟩
  obtain ⟨env, r2, hok⟩ := encryptFields_ok_of_guard rngSeq "ts"
    (jDate "2024-01-01") (by decide)
  rw [hok]; rfl

/-- C5 witness: an array input is rejected with InvalidInputKind. -/
theorem C5_invalid_input_guard_witness :
    encryptFields rngSeq "ts" (jArr []) = .error .invalidInputKind :=
  ((C5_invalid_input_guard rngSeq "ts" (jArr [])).1).mpr (by decide)

/-- The recursive resolver never raises MalformedEnvelope: its only errors
are decryption failures (possibly from a nested sub-decode). -/
theorem decNested_no_malformed :
    ∀ (mapping body acc : List (String × JVal)),
      decryptNestedObject body mapping acc ≠ .error .malformedEnvelope
  | [], body, acc => by
      rw [decryptNestedObject_nil]; simp
  | (k, mv) :: rest, body, acc => by
      rw [decryptNestedObject_cons]
      cases hs : decStep body k mv acc with
      | ok acc1 => exact decNested_no_malformed rest body acc1
      | error e =>
          have he : e ≠ .malformedEnvelope := by
            delta decStep at hs
            by_cases hn : isNestedMapEntry mv = true
            · rw [if_pos hn] at hs
              cases hf : getProp mv "_field" with
              | none =>
                  rw [hf] at hs
                  exact Except.noConfusion hs
              | some fv =>
                  cases fv with
                  | jStr obf =>
                      rw [hf] at hs
                      have hs2 : (match lookupField body obf with
                          | some nested =>
                              if isPlainObject nested = true then
                                match decryptNestedObject (entriesOf nested)
                                    (mappingEntries
                                      ((getProp mv "_nested").getD jUndef))
                                    [] with
                                | .error e => Except.error e
                                | .ok sub =>
                                    Except.ok (objInsert k (jObj sub) acc)
                              else Except.ok acc
                          | none => Except.ok acc) = Except.error e := hs
                      cases hl : lookupField body obf with
                      | none =>
                          rw [hl] at hs2
                          exact Except.noConfusion hs2
                      | some nested =>
                          rw [hl] at hs2
                          have hs3 : (if isPlainObject nested = true then
                              match decryptNestedObject (entriesOf nested)
                                  (mappingEntries
                                    ((getProp mv "_nested").getD jUndef))
                                  [] with
                              | .error e => Except.error e
                              | .ok sub =>
                                  Except.ok (objInsert k (jObj sub) acc)
                            else Except.ok acc) = Except.error e := hs2
                          by_cases hpo : isPlainObject nested = true
                          · rw [if_pos hpo] at hs3
                            cases hsub : decryptNestedObject (entriesOf nested)
                                (mappingEntries
                                  ((getProp mv "_nested").getD jUndef)) [] with
                            | ok sub =>
                                rw [hsub] at hs3
                                exact Except.noConfusion hs3
                            | error e1 =>
                                rw [hsub] at hs3
                                have he1 : e1 = e := by
                                  have hs4 : (Except.error e1 :
                                      Except DecodeError
                                        (List (String × JVal))) =
                                      Except.error e := hs3
                                  injection hs4
                                intro hcontra
                                exact decNested_no_malformed
                                  (mappingEntries
                                    ((getProp mv "_nested").getD jUndef))
                                  (entriesOf nested) []
                                  (by rw [hsub, he1, hcontra])
                          · rw [if_neg hpo] at hs3
                            exact Except.noConfusion hs3
                  | jNull => rw [hf] at hs; exact Except.noConfusion hs
                  | jBool b => rw [hf] at hs; exact Except.noConfusion hs
                  | jNum n => rw [hf] at hs; exact Except.noConfusion hs
                  | jDate iso => rw [hf] at hs; exact Except.noConfusion hs
                  | jUndef => rw [hf] at hs; exact Except.noConfusion hs
                  | jArr xs => rw [hf] at hs; exact Except.noConfusion hs
                  | jObj fs => rw [hf] at hs; exact Except.noConfusion hs
            · rw [if_neg hn] at hs
              cases mv with
              | jStr obf =>
                  have hs2 : (match lookupField body obf with
                      | some (jStr tok) =>
                          match capsuleDecrypt tok with
                          | none => Except.error DecodeError.decryptionFailure
                          | some v => Except.ok (objInsert k v acc)
                      | _ => Except.ok acc) = Except.error e := hs
                  cases hl : lookupField body obf with
                  | none => rw [hl] at hs2; exact Except.noConfusion hs2
                  | some w =>
                      cases w with
                      | jStr tok =>
                          rw [hl] at hs2
                          have hs3 : (match capsuleDecrypt tok with
                              | none =>
                                  Except.error DecodeError.decryptionFailure
                              | some v => Except.ok (objInsert k v acc)) =
                              Except.error e := hs2
                          cases hcd : capsuleDecrypt tok with
                          | none =>
                              rw [hcd] at hs3
                              have he2 : DecodeError.decryptionFailure = e := by
                                injection hs3
                              rw [← he2]
                              simp
                          | some v =>
                              rw [hcd] at hs3
                              exact Except.noConfusion hs3
                      | jNull => rw [hl] at hs2; exact Except.noConfusion hs2
                      | jBool b => rw [hl] at hs2; exact Except.noConfusion hs2
                      | jNum n => rw [hl] at hs2; exact Except.noConfusion hs2
                      | jDate iso =>
                          rw [hl] at hs2; exact Except.noConfusion hs2
                      | jUndef => rw [hl] at hs2; exact Except.noConfusion hs2
                      | jArr xs => rw [hl] at hs2; exact Except.noConfusion hs2
                      | jObj fs => rw [hl] at hs2; exact Except.noConfusion hs2
              | jNull => exact Except.noConfusion hs
              | jBool b => exact Except.noConfusion hs
              | jNum n => exact Except.noConfusion hs
              | jDate iso => exact Except.noConfusion hs
              | jUndef => exact Except.noConfusion hs
              | jArr xs => exact Except.noConfusion hs
              | jObj fs => exact Except.noConfusion hs
          simp [he]
termination_by mapping => sizeOf mapping
decreasing_by
  all_goals simp
  all_goals try omega
  all_goals (refine lt_of_le_of_lt (nestedMapEntry_size (by assumption)) ?_; omega)

/-- C6 (amended): decryptFields raises MalformedEnvelope exactly when the
envelope's encrypted property is falsy or its _mapping property is falsy —
JS truthiness, not presence: a present-but-empty _mapping string still
raises, and any truthy non-true encrypted marker passes. When both checks
pass the result comes from the recursive resolver on the envelope body with
the metadata keys stripped (stripMeta), which never raises
MalformedEnvelope. -/
theorem C6_malformed_iff (env : List (String × JVal)) :
    decryptFields env = .error .malformedEnvelope ↔
      truthy (lookupField env "encrypted") = false ∨
        truthy (lookupField env "_mapping") = false := by
  rw [decryptFields]
  by_cases hg : truthy (lookupField env "encrypted") = false ∨
      truthy (lookupField env "_mapping") = false
  · rw [if_pos hg]
    exact ⟨fun _ => hg, fun _ => rfl⟩
  · rw [if_neg hg]
    refine ⟨fun hcontra => ?_, fun h => absurd h hg⟩
    cases hm : lookupField env "_mapping" with
    | none =>
        rw [hm] at hcontra
        have h2 : (Except.error DecodeError.decryptionFailure :
            Except DecodeError (List (String × JVal))) =
            Except.error DecodeError.malformedEnvelope := hcontra
        injection h2 with h3
        exact DecodeError.noConfusion h3
    | some mval =>
        cases mval with
        | jStr mtok =>
            rw [hm] at hcontra
            have h2 : (match capsuleDecrypt mtok with
                | none => Except.error DecodeError.decryptionFailure
                | some mappingVal =>
                    decryptNestedObject (stripMeta env)
                      (mappingEntries mappingVal) []) =
                Except.error DecodeError.malformedEnvelope := hcontra
            cases hcd : capsuleDecrypt mtok with
            | none =>
                rw [hcd] at h2
                injection h2 with h3
                exact DecodeError.noConfusion h3
            | some mappingVal =>
                rw [hcd] at h2
                exact (decNested_no_malformed (mappingEntries mappingVal)
                  (stripMeta env) [] h2).elim
        | jNull =>
            rw [hm] at hcontra
            exact DecodeError.noConfusion
              (Except.error.inj (show (Except.error
                DecodeError.decryptionFailure : Except DecodeError
                (List (String × JVal))) =
                Except.error DecodeError.malformedEnvelope from hcontra))
        | jBool b =>
            rw [hm] at hcontra
            exact DecodeError.noConfusion
              (Except.error.inj (show (Except.error
                DecodeError.decryptionFailure : Except DecodeError
                (List (String × JVal))) =
                Except.error DecodeError.malformedEnvelope from hcontra))
        | jNum n =>
            rw [hm] at hcontra
            exact DecodeError.noConfusion
              (Except.error.inj (show (Except.error
                DecodeError.decryptionFailure : Except DecodeError
                (List (String × JVal))) =
                Except.error DecodeError.malformedEnvelope from hcontra))
        | jDate iso =>
            rw [hm] at hcontra
            exact DecodeError.noConfusion
              (Except.error.inj (show (Except.error
                DecodeError.decryptionFailure : Except DecodeError
                (List (String × JVal))) =
                Except.error DecodeError.malformedEnvelope from hcontra))
        | jUndef =>
            rw [hm] at hcontra
            exact DecodeError.noConfusion
              (Except.error.inj (show (Except.error
                DecodeError.decryptionFailure : Except DecodeError
                (List (String × JVal))) =
                Except.error DecodeError.malformedEnvelope from hcontra))
        | jArr xs =>
            rw [hm] at hcontra
            exact DecodeError.noConfusion
              (Except.error.inj (show (Except.error
                DecodeError.decryptionFailure : Except DecodeError
                (List (String × JVal))) =
                Except.error DecodeError.malformedEnvelope from hcontra))
        | jObj fs =>
            rw [hm] at hcontra
            exact DecodeError.noConfusion
              (Except.error.inj (show (Except.error
                DecodeError.decryptionFailure : Except DecodeError
                (List (String × JVal))) =
                Except.error DecodeError.malformedEnvelope from hcontra))

/-- C6 counterexample: an envelope whose _mapping entry is present but the
empty string still raises MalformedEnvelope (the check is falsiness, not
presence), refuting the only-if-absent reading. -/
theorem C6_counterexample :
    decryptFields [("encrypted", jBool true), ("_mapping", jStr "")] =
      .error .malformedEnvelope ∧
    lookupField [("encrypted", jBool true), ("_mapping", jStr "")]
      "_mapping" = some (jStr "") :=
  ⟨rfl, rfl⟩

/-- C6 witness: an envelope with no _mapping at all raises
MalformedEnvelope through the amended characterisation. -/
theorem C6_malformed_iff_witness :
    decryptFields [("encrypted", jBool true)] =
      .error .malformedEnvelope :=
  (C6_malformed_iff [("encrypted", jBool true)]).mpr (by decide)

/-- The observable shape of a generated alias: length in [6, 13], every
character from the 52-letter alphabet. -/
def aliasShaped (a : String) : Bool :=
  decide (6 ≤ a.length) && decide (a.length ≤ 13) &&
    a.data.all fun c => decide (c ∈ aliasAlphabet)

theorem aliasAlphabet_getD_mem (i : Nat) :
    aliasAlphabet.getD i 'a' ∈ aliasAlphabet := by
  by_cases h : i < aliasAlphabet.length
  · rw [List.getD_eq_getElem aliasAlphabet 'a' h]
    exact List.getElem_mem h
  · rw [List.getD_eq_default aliasAlphabet 'a' (le_of_not_lt h)]
    decide

theorem genChars_shape :
    ∀ (n : Nat) (r : Rng),
      (genChars n r).1.length = n ∧
        ∀ c ∈ (genChars n r).1, c ∈ aliasAlphabet
  | 0, r => by
      rw [genChars]
      exact ⟨rfl, by intro c hc; simp at hc⟩
  | n + 1, r => by
      rcases hg : genChars n (draw r).2 with ⟨cs, r2⟩
      have hstep : genChars (n + 1) r =
          (aliasAlphabet.getD ((draw r).1 % 52) 'a' :: cs, r2) := by
        rw [genChars]
        show (match genChars n (draw r).2 with
            | (cs1, r21) =>
                (aliasAlphabet.getD ((draw r).1 % 52) 'a' :: cs1, r21)) = _
        rw [hg]
      have ih := genChars_shape n (draw r).2
      rw [hg] at ih
      rw [hstep]
      refine ⟨?_, ?_⟩
      · show (aliasAlphabet.getD ((draw r).1 % 52) 'a' :: cs).length = n + 1
        rw [List.length_cons, ih.1]
      · intro c hc
        rcases List.mem_cons.mp hc with h | h
        · rw [h]; exact aliasAlphabet_getD_mem _
        · exact ih.2 c h

theorem generateRandomFieldName_shaped (r : Rng) :
    aliasShaped (generateRandomFieldName r).1 = true := by
  rcases hg : genChars ((draw r).1 % 8 + 6) (draw r).2 with ⟨cs, r2⟩
  have hstep : (generateRandomFieldName r).1 = String.mk cs := by
    rw [generateRandomFieldName]
    show (match genChars ((draw r).1 % 8 + 6) (draw r).2 with
        | (cs1, r21) => (String.mk cs1, r21)).1 = _
    rw [hg]
  have hsh := genChars_shape ((draw r).1 % 8 + 6) (draw r).2
  rw [hg] at hsh
  rw [hstep, aliasShaped]
  have hlen : (String.mk cs).length = (draw r).1 % 8 + 6 := by
    rw [show (String.mk cs).length = cs.length from rfl, hsh.1]
  refine (Bool.and_eq_true_iff).mpr ⟨(Bool.and_eq_true_iff).mpr ⟨?_, ?_⟩, ?_⟩
  · exact decide_eq_true (by rw [hlen]; omega)
  · exact decide_eq_true (by
      rw [hlen]
      have : (draw r).1 % 8 < 8 := Nat.mod_lt _ (by omega)
      omega)
  · rw [show (String.mk cs).data = cs from rfl, List.all_eq_true]
    intro c hc
    exact decide_eq_true (hsh.2 c hc)

theorem keysOf_objInsert_mem :
    ∀ (fs : List (String × JVal)) (a : String) (v : JVal) (x : String),
      x ∈ keysOf (objInsert a v fs) → x = a ∨ x ∈ keysOf fs
  | [], a, v, x => by
      rw [objInsert]
      intro h
      simp [keysOf] at h
      exact Or.inl h
  | (k0, v0) :: rest, a, v, x => by
      rw [objInsert]
      by_cases hk : k0 = a
      · rw [if_pos hk]
        intro h
        rw [keysOf_cons, List.mem_cons] at h
        rcases h with h | h
        · exact Or.inr (by rw [keysOf_cons, List.mem_cons]; exact Or.inl h)
        · exact Or.inr (by rw [keysOf_cons, List.mem_cons]; exact Or.inr h)
      · rw [if_neg hk]
        intro h
        rw [keysOf_cons, List.mem_cons] at h
        rcases h with h | h
        · exact Or.inr (by rw [keysOf_cons, List.mem_cons]; exact Or.inl h)
        · rcases keysOf_objInsert_mem rest a v x h with h2 | h2
          · exact Or.inl h2
          · exact Or.inr (by rw [keysOf_cons, List.mem_cons]; exact Or.inr h2)

theorem keysOf_objInsertAll_mem :
    ∀ (updates base : List (String × JVal)) (x : String),
      x ∈ keysOf (objInsertAll base updates) →
        x ∈ keysOf base ∨ x ∈ keysOf updates
  | [], base, x => by
      rw [objInsertAll]
      exact fun h => Or.inl h
  | (k0, v0) :: rest, base, x => by
      rw [objInsertAll]
      intro h
      rcases keysOf_objInsertAll_mem rest (objInsert k0 v0 base) x h with
        h2 | h2
      · rcases keysOf_objInsert_mem base k0 v0 x h2 with h3 | h3
        · exact Or.inr (by rw [keysOf_cons, List.mem_cons]; exact Or.inl h3)
        · exact Or.inl h3
      · exact Or.inr (by rw [keysOf_cons, List.mem_cons]; exact Or.inr h2)

/-- Every key the recursive encoder writes into its result accumulator is a
freshly generated alias (hence alias-shaped) unless it was already there. -/
theorem encB_keys_shaped :
    ∀ (entries : List (String × JVal)) (r : Rng)
      (res map B M : List (String × JVal)) (r2 : Rng),
      encryptNestedObject r entries res map = .ok (B, M, r2) →
      ∀ x ∈ keysOf B, x ∈ keysOf res ∨ aliasShaped x = true
  | [], r, res, map, B, M, r2 => by
      rw [encryptNestedObject]
      intro h
      simp only [Except.ok.injEq, Prod.mk.injEq] at h
      obtain ⟨hB, -, -⟩ := h
      subst hB
      exact fun x hx => Or.inl hx
  | (k, v) :: rest, r, res, map, B, M, r2 => by
      rw [encryptNestedObject]
      by_cases hv : v = jUndef
      · rw [if_pos hv]
        exact encB_keys_shaped rest r res map B M r2
      · rw [if_neg hv]
        rcases hgen : generateRandomFieldName r with ⟨a, r1⟩
        intro henc
        simp only [hgen] at henc
        have hashape : aliasShaped a = true := by
          have h := generateRandomFieldName_shaped r
          rw [hgen] at h
          exact h
        by_cases hpo : isPlainObject v = true
        · rw [dif_pos hpo] at henc
          cases hsub : encryptNestedObject r1 (entriesOf v) [] [] with
          | error e => rw [hsub] at henc; exact Except.noConfusion henc
          | ok out =>
              obtain ⟨sR, sM, r2a⟩ := out
              rw [hsub] at henc
              have henc2 : encryptNestedObject r2a rest
                  (objInsert a (jObj sR) res)
                  (objInsert k
                    (jObj [("_field", jStr a), ("_nested", jObj sM)]) map) =
                  .ok (B, M, r2) := henc
              intro x hx
              rcases encB_keys_shaped rest r2a _ _ B M r2 henc2 x hx with
                h | h
              · rcases keysOf_objInsert_mem res a (jObj sR) x h with h2 | h2
                · exact Or.inr (h2 ▸ hashape)
                · exact Or.inl h2
              · exact Or.inr h
        · rw [dif_neg hpo] at henc
          cases hce : capsuleEncrypt r1 v with
          | none => rw [hce] at henc; exact Except.noConfusion henc
          | some out =>
              obtain ⟨tok, r2a⟩ := out
              rw [hce] at henc
              have henc2 : encryptNestedObject r2a rest
                  (objInsert a (jStr tok) res) (objInsert k (jStr a) map) =
                  .ok (B, M, r2) := henc
              intro x hx
              rcases encB_keys_shaped rest r2a _ _ B M r2 henc2 x hx with
                h | h
              · rcases keysOf_objInsert_mem res a (jStr tok) x h with h2 | h2
                · exact Or.inr (h2 ▸ hashape)
                · exact Or.inl h2
              · exact Or.inr h

/-- C7: every alias the name generator produces is a string of length 6 to
13 whose characters come from the 52-letter alphabet, and consequently
every key of an encoded envelope other than the metadata keys encrypted,
timestamp and _mapping has that alias shape. -/
theorem C7_alias_shape (r0 r : Rng) (ts : String) (data : JVal)
    {env : List (String × JVal)} {r2 : Rng}
    (henc : encryptFields r ts data = .ok (env, r2)) :
    aliasShaped (generateRandomFieldName r0).1 = true ∧
    ∀ x ∈ keysOf env, x = "encrypted" ∨ x = "timestamp" ∨ x = "_mapping" ∨
      aliasShaped x = true := by
  refine ⟨generateRandomFieldName_shaped r0, ?_⟩
  rw [encryptFields] at henc
  by_cases hg : typeofIsObject data = false ∨ data = jNull ∨
      isArrayVal data = true
  · rw [if_pos hg] at henc
    exact Except.noConfusion henc
  · rw [if_neg hg] at henc
    cases hsub : encryptNestedObject r (entriesOf data) [] [] with
    | error e => rw [hsub] at henc; exact Except.noConfusion henc
    | ok out =>
        obtain ⟨B, M, r1⟩ := out
        rw [hsub] at henc
        have hce : capsuleEncrypt r1 (jObj M) =
            some (tokenEncode (draw r1).1 (String.mk (render (jObj M))),
              (draw r1).2) := by
          rw [capsuleEncrypt]; rfl
        have henc2 : (match capsuleEncrypt r1 (jObj M) with
            | none => Except.error EncodeError.encryptionFailure
            | some (mtok, r3) =>
                Except.ok (objInsert "_mapping" (jStr mtok)
                  (objInsertAll
                    [("encrypted", jBool true), ("timestamp", jStr ts)] B),
                  r3)) = Except.ok (env, r2) := henc
        rw [hce] at henc2
        simp only [Except.ok.injEq, Prod.mk.injEq] at henc2
        obtain ⟨henv, -⟩ := henc2
        subst henv
        intro x hx
        rcases keysOf_objInsert_mem _ _ _ x hx with h | h
        · exact Or.inr (Or.inr (Or.inl h))
        · rcases keysOf_objInsertAll_mem B _ x h with h2 | h2
          · simp [keysOf] at h2
            rcases h2 with h2 | h2
            · exact Or.inl h2
            · exact Or.inr (Or.inl h2)
          · rcases encB_keys_shaped (entriesOf data) r [] [] B M r1 hsub
              x h2 with h3 | h3
            · simp [keysOf] at h3
            · exact Or.inr (Or.inr (Or.inr h3))

/-- C9: with automatic encryption enabled, when the encryption step of the
res.json override throws, the middleware catches the error and sends the
original body unencrypted (and without the X-Encrypted header) instead of
propagating the failure to the caller. -/
theorem C9_middleware_fallback (opts : MiddlewareOptions) (r : Rng)
    (ts : String) (obj : JVal)
    (hauto : opts.autoEncrypt = true)
    (hthrow : tryEncryptResponse opts r ts obj = none) :
    middlewareJson opts r ts obj = (obj, false) := by
  rw [middlewareJson, if_neg (by rw [hauto]; simp), hthrow]

/-- C9 witness: an undefined response body makes the whole-payload cipher
throw (JSON.stringify yields no plaintext), and the middleware sends the
original body through unencrypted. -/
theorem C9_middleware_fallback_witness :
    middlewareJson ⟨true, false, 0⟩ rngSeq "ts" jUndef = (jUndef, false) :=
  C9_middleware_fallback ⟨true, false, 0⟩ rngSeq "ts" jUndef rfl rfl

/-- C10: the cipher decrypt path JSON-parses the recovered plaintext and
falls back to the raw string only on parse failure, so a string leaf whose
content is itself a valid JSON text round-trips to the parsed value — not
to the original string. -/
theorem C10_json_string_leaf (r : Rng) (s : String) {v : JVal}
    (hparse : jsonParse s = some v) (hne : v ≠ jStr s)
    {tok : String} {r1 : Rng}
    (henc : capsuleEncrypt r (jStr s) = some (tok, r1)) :
    capsuleDecrypt tok = some v ∧ capsuleDecrypt tok ≠ some (jStr s) := by
  obtain ⟨p, hp, hcd⟩ := capsuleDecrypt_encrypt henc
  have hp2 : some s = some p := hp
  injection hp2 with hps
  subst hps
  rw [decodePlain, hparse] at hcd
  have hcd2 : capsuleDecrypt tok = some v := hcd
  refine ⟨hcd2, ?_⟩
  rw [hcd2]
  intro hcontra
  injection hcontra with h2
  exact hne h2

/-- C10 witness: the leaf "123" (a string) encrypts to a token whose
decryption yields the number 123 rather than the original string. -/
theorem C10_json_string_leaf_witness :
    capsuleDecrypt "!#123" = some (jNum 123) ∧
    capsuleDecrypt "!#123" ≠ some (jStr "123") :=
  C10_json_string_leaf rngSeq "123" (by decide) (by decide) rfl

/-- The assembled envelope's exact shape under duplicate-free aliases:
metadata first, the obfuscated entries between, the mapping token last, so
its keys are the metadata keys plus exactly this run's aliases. -/
theorem encryptFields_shape (r : Rng) (ts : String)
    (fields : List (String × JVal))
    (hnd : (runAliases r fields).Nodup) (hkU : (keysOfU fields).Nodup)
    (hmeta : ∀ a ∈ runAliases r fields,
      a ≠ "encrypted" ∧ a ≠ "timestamp" ∧ a ≠ "_mapping")
    {env : List (String × JVal)} {r2 : Rng}
    (henc : encryptFields r ts (jObj fields) = .ok (env, r2)) :
    ∃ B M r3 nonce,
      encryptNestedObject r fields [] [] = .ok (B, M, r3) ∧
      keysOf B = runAliases r fields ∧
      env = [("encrypted", jBool true), ("timestamp", jStr ts)] ++ B ++
        [("_mapping",
          jStr (tokenEncode nonce (String.mk (render (jObj M)))))] ∧
      keysOf env = "encrypted" :: "timestamp" ::
        (runAliases r fields ++ ["_mapping"]) := by
  obtain ⟨B, M, r3, h1, h2, h3, h4⟩ := encRun fields r hnd hkU
  rw [encryptFields] at henc
  rw [if_neg (by simp [typeofIsObject, isArrayVal])] at henc
  rw [show entriesOf (jObj fields) = fields from rfl, h1] at henc
  rcases hdr : draw r3 with ⟨nonce, r4⟩
  have hcm : capsuleEncrypt r3 (jObj M) =
      some (tokenEncode nonce (String.mk (render (jObj M))), r4) := by
    rw [capsuleEncrypt, show plaintextOf (jObj M) =
      some (String.mk (render (jObj M))) from rfl, hdr]
  have henc2 : (match capsuleEncrypt r3 (jObj M) with
      | none => Except.error EncodeError.encryptionFailure
      | some (mtok, r5) =>
          Except.ok (objInsert "_mapping" (jStr mtok)
            (objInsertAll [("encrypted", jBool true), ("timestamp", jStr ts)]
              B), r5)) = Except.ok (env, r2) := henc
  rw [hcm] at henc2
  simp only [Except.ok.injEq, Prod.mk.injEq] at henc2
  obtain ⟨henv, -⟩ := henc2
  have hBmeta : ∀ x ∈ keysOf B,
      x ≠ "encrypted" ∧ x ≠ "timestamp" ∧ x ≠ "_mapping" := by
    intro x hx
    exact hmeta x (h2 ▸ hx)
  have hbase : objInsertAll
      [("encrypted", jBool true), ("timestamp", jStr ts)] B =
      [("encrypted", jBool true), ("timestamp", jStr ts)] ++ B := by
    refine objInsertAll_fresh B _ (h2 ▸ hnd) ?_
    intro x hx
    obtain ⟨he, ht, -⟩ := hBmeta x hx
    simp [keysOf, he, ht]
  have hmapNotMem : "_mapping" ∉
      keysOf ([("encrypted", jBool true), ("timestamp", jStr ts)] ++ B) := by
    rw [keysOf_append]
    intro hmem
    rcases List.mem_append.mp hmem with hm | hm
    · simp [keysOf] at hm
    · exact (hBmeta _ hm).2.2 rfl
  rw [hbase, objInsert_fresh hmapNotMem] at henv
  refine ⟨B, M, r3, nonce, h1, h2, ?_, ?_⟩
  · rw [← henv]
  · rw [← henv, keysOf_append, keysOf_append, h2]
    simp [keysOf]

/-- C1 (amended): for a round-trip-safe record — no absent-valued fields,
every leaf JSON-pure, every string leaf one that cannot even begin a JSON
text (its first non-whitespace character starts no JSON value, so
JSON.parse necessarily rejects it), and no date-like leaves — with
duplicate-free keys, a collision-free alias draw and aliases avoiding the
metadata names, decode inverts encode exactly: decryptFields of the
envelope returns the original record. -/
theorem C1_round_trip (r : Rng) (ts : String)
    (fields : List (String × JVal))
    (hrt : roundTrippable fields = true)
    (hok : runOk r fields = true) (hkeys : recKeysOk fields = true)
    (hmeta : ∀ a ∈ runAliases r fields,
      a ≠ "encrypted" ∧ a ≠ "timestamp" ∧ a ≠ "_mapping")
    {env : List (String × JVal)} {r2 : Rng}
    (henc : encryptFields r ts (jObj fields) = .ok (env, r2)) :
    decryptFields env = .ok fields := by
  have h := encryptFields_decrypt r ts fields hok hkeys hmeta henc
  rw [recImage_of_rt fields hrt] at h
  exact h

/-- C2: decoys are inert — an envelope encoded with n decoy fields decodes,
through the ordinary decode path, to exactly what the undecorated envelope
decodes to, because the decoys join the envelope body but never the
mapping, and the decoder iterates the mapping. -/
theorem C2_decoy_inert (r : Rng) (ts : String)
    (fields : List (String × JVal)) (n : Nat)
    (hok : runOk r fields = true) (hkeys : recKeysOk fields = true)
    (hmeta : ∀ a ∈ runAliases r fields,
      a ≠ "encrypted" ∧ a ≠ "timestamp" ∧ a ≠ "_mapping")
    {env : List (String × JVal)} {r2 : Rng}
    (henc : encryptFields r ts (jObj fields) = .ok (env, r2))
    (hpnd : (padAliases r2 n).Nodup)
    (hpfresh : ∀ a ∈ padAliases r2 n, a ∉ keysOf env)
    {env2 : List (String × JVal)} {r3 : Rng}
    (hpad : encryptFieldsWithPadding r ts (jObj fields) n = .ok (env2, r3)) :
    decryptFieldsIgnorePadding env2 = decryptFields env := by
  have hok0 := hok
  rw [runOk, Bool.and_eq_true_iff] at hok0
  have hnd := of_decide_eq_true hok0.1
  have hknd := of_decide_eq_true ((Bool.and_eq_true_iff.mp
    (by rw [← recKeysOk]; exact hkeys)).1)
  have hkU : (keysOfU fields).Nodup := (keysOfU_sublist _).nodup hknd
  obtain ⟨B, M, r4, nonce, hB1, hB2, henvShape, hkeysEnv⟩ :=
    encryptFields_shape r ts fields hnd hkU hmeta henc
  rw [encryptFieldsWithPadding, henc] at hpad
  have hpad2 : (Except.ok (encryptFieldsPadLoop r2 n env) :
      Except EncodeError (List (String × JVal) × Rng)) =
      .ok (env2, r3) := hpad
  obtain ⟨P, r5, hP, hkP⟩ := padLoop_append n r2 env hpnd hpfresh
  rw [hP] at hpad2
  simp only [Except.ok.injEq, Prod.mk.injEq] at hpad2
  obtain ⟨henv2, -⟩ := hpad2
  subst henv2
  rw [decryptFieldsIgnorePadding]
  have hext : ∀ x ∈ keysOf P, x ∉ runAliases r fields := by
    intro x hx hmem
    have hxenv : x ∉ keysOf env := hpfresh x (by rw [← hkP]; exact hx)
    apply hxenv
    rw [hkeysEnv]
    exact List.mem_cons_of_mem _ (List.mem_cons_of_mem _
      (List.mem_append.mpr (Or.inl hmem)))
  rw [encryptFields_decrypt_ext r ts fields hok hkeys hmeta henc P hext]
  rw [encryptFields_decrypt r ts fields hok hkeys hmeta henc]

/-- The obfuscated-record body an encode run writes, threading the
randomness source exactly as encryptNestedObject does: one freshly aliased
entry per kept field — a token for a leaf, a sub-record for a nested one. -/
def runBody (r : Rng) (entries : List (String × JVal)) :
    List (String × JVal) :=
  match entries with
  | [] => []
  | (_, v) :: rest =>
      if v = jUndef then runBody r rest
      else
        let (a, r1) := generateRandomFieldName r
        if isPlainObject v then
          match encryptNestedObject r1 (entriesOf v) [] [] with
          | .error _ => []
          | .ok (subR, _, r2) => (a, jObj subR) :: runBody r2 rest
        else
          match capsuleEncrypt r1 v with
          | none => []
          | some (tok, r2) => (a, jStr tok) :: runBody r2 rest
termination_by sizeOf entries
decreasing_by
  all_goals simp
  all_goals omega

/-- The leaf tokens of an envelope body, in order: the string-valued
entries (nested entries hold sub-records, not strings). -/
def tokensOf (body : List (String × JVal)) : List String :=
  body.filterMap fun kv =>
    match kv.2 with
    | jStr t => some t
    | _ => none

/-- Under a duplicate-free draw, the encoder's result accumulator starting
from empty is exactly runBody. -/
theorem encBody :
    ∀ (entries : List (String × JVal)) (r : Rng),
      (runAliases r entries).Nodup → (keysOfU entries).Nodup →
      ∀ (B M : List (String × JVal)) (r2 : Rng),
      encryptNestedObject r entries [] [] = .ok (B, M, r2) →
      B = runBody r entries
  | [], r, _, _, B, M, r2 => by
      rw [encryptNestedObject, runBody]
      intro henc
      simp only [Except.ok.injEq, Prod.mk.injEq] at henc
      exact henc.1.symm
  | (k, v) :: rest, r, hnd, hknd, B, M, r2 => by
      by_cases hv : v = jUndef
      · rw [encryptNestedObject, if_pos hv, runBody, if_pos hv]
        rw [show runAliases r ((k, v) :: rest) = runAliases r rest from by
          rw [runAliases, if_pos hv]] at hnd
        rw [show keysOfU ((k, v) :: rest) = keysOfU rest from by
          rw [keysOfU, if_pos hv]] at hknd
        exact encBody rest r hnd hknd B M r2
      · rcases hgen : generateRandomFieldName r with ⟨a, r1⟩
        rw [keysOfU, if_neg hv, List.nodup_cons] at hknd
        obtain ⟨hkKU, hknd1⟩ := hknd
        by_cases hpo : isPlainObject v = true
        · obtain ⟨⟨subR, subM, r2a⟩, hsub⟩ :=
            encryptNestedObject_total (entriesOf v) r1 [] []
          have hra : runAliases r ((k, v) :: rest) =
              a :: runAliases r2a rest := by
            rw [runAliases, if_neg hv, hgen]
            simp [hpo, hsub]
          rw [hra, List.nodup_cons] at hnd
          obtain ⟨haRA, hnd1⟩ := hnd
          obtain ⟨B1, M1, r3, h1, h2, h3, h4⟩ := encRun rest r2a hnd1 hknd1
          have hrunEq : encryptNestedObject r ((k, v) :: rest) [] [] =
              .ok ((a, jObj subR) :: B1,
                (k, jObj [("_field", jStr a), ("_nested", jObj subM)]) :: M1,
                r3) := by
            rw [encryptNestedObject, if_neg hv, hgen]
            simp only [dif_pos hpo, hsub]
            have happ := h4 [(a, jObj subR)]
              [(k, jObj [("_field", jStr a), ("_nested", jObj subM)])]
              (fun x hx => by
                simp only [keysOf, List.map_cons, List.map_nil,
                  List.mem_singleton]
                intro hxa; exact haRA (hxa ▸ hx))
              (fun x hx => by
                simp only [keysOf, List.map_cons, List.map_nil,
                  List.mem_singleton]
                intro hxk; exact hkKU (hxk ▸ hx))
            simpa [objInsert] using happ
          intro henc
          rw [hrunEq] at henc
          simp only [Except.ok.injEq, Prod.mk.injEq] at henc
          obtain ⟨hB, -, -⟩ := henc
          rw [← hB]
          have hB1 : B1 = runBody r2a rest :=
            encBody rest r2a hnd1 hknd1 B1 M1 r3 h1
          rw [runBody, if_neg hv]
          simp only [hgen]
          rw [if_pos hpo]
          simp only [hsub]
          rw [hB1]
        · obtain ⟨p, hp⟩ := plaintextOf_exists hv
          rcases hdr : draw r1 with ⟨nonce, r2a⟩
          have hce : capsuleEncrypt r1 v =
              some (tokenEncode nonce p, r2a) := by
            rw [capsuleEncrypt, hp, hdr]
          have hra : runAliases r ((k, v) :: rest) =
              a :: runAliases r2a rest := by
            rw [runAliases, if_neg hv, hgen]
            simp [hpo, hce]
          rw [hra, List.nodup_cons] at hnd
          obtain ⟨haRA, hnd1⟩ := hnd
          obtain ⟨B1, M1, r3, h1, h2, h3, h4⟩ := encRun rest r2a hnd1 hknd1
          have hrunEq : encryptNestedObject r ((k, v) :: rest) [] [] =
              .ok ((a, jStr (tokenEncode nonce p)) :: B1,
                (k, jStr a) :: M1, r3) := by
            rw [encryptNestedObject, if_neg hv, hgen]
            simp only [dif_neg hpo, hce]
            have happ := h4 [(a, jStr (tokenEncode nonce p))] [(k, jStr a)]
              (fun x hx => by
                simp only [keysOf, List.map_cons, List.map_nil,
                  List.mem_singleton]
                intro hxa; exact haRA (hxa ▸ hx))
              (fun x hx => by
                simp only [keysOf, List.map_cons, List.map_nil,
                  List.mem_singleton]
                intro hxk; exact hkKU (hxk ▸ hx))
            simpa [objInsert] using happ
          intro henc
          rw [hrunEq] at henc
          simp only [Except.ok.injEq, Prod.mk.injEq] at henc
          obtain ⟨hB, -, -⟩ := henc
          rw [← hB]
          have hB1 : B1 = runBody r2a rest :=
            encBody rest r2a hnd1 hknd1 B1 M1 r3 h1
          rw [runBody, if_neg hv]
          simp only [hgen]
          rw [if_neg hpo]
          simp only [hce]
          rw [hB1]
termination_by entries => sizeOf entries
decreasing_by
  all_goals simp
  all_goals omega

/-- C8 (amended): two encode runs on the same round-trip-safe record, with
the randomness source made explicit, that draw different alias lists and
different leaf-token lists produce two envelopes whose non-metadata key
lists differ and whose leaf token lists differ, yet both envelopes decode
to exactly the original record.  The round-trip-safety hypothesis is
forced: outside it the two runs still agree with each other but decode to
the record's image, not the record (see the counterexample). -/
theorem C8_independent_runs (ra rb : Rng) (tsa tsb : String)
    (fields : List (String × JVal))
    (hrt : roundTrippable fields = true)
    (hoka : runOk ra fields = true) (hokb : runOk rb fields = true)
    (hkeys : recKeysOk fields = true)
    (hmetaa : ∀ a ∈ runAliases ra fields,
      a ≠ "encrypted" ∧ a ≠ "timestamp" ∧ a ≠ "_mapping")
    (hmetab : ∀ a ∈ runAliases rb fields,
      a ≠ "encrypted" ∧ a ≠ "timestamp" ∧ a ≠ "_mapping")
    {enva : List (String × JVal)} {r2a : Rng}
    (henca : encryptFields ra tsa (jObj fields) = .ok (enva, r2a))
    {envb : List (String × JVal)} {r2b : Rng}
    (hencb : encryptFields rb tsb (jObj fields) = .ok (envb, r2b))
    (hdiffA : runAliases ra fields ≠ runAliases rb fields)
    (hdiffT : tokensOf (runBody ra fields) ≠ tokensOf (runBody rb fields)) :
    decryptFields enva = .ok fields ∧ decryptFields envb = .ok fields ∧
    keysOf (stripMeta enva) ≠ keysOf (stripMeta envb) ∧
    tokensOf (stripMeta enva) ≠ tokensOf (stripMeta envb) := by
  have hknd := of_decide_eq_true ((Bool.and_eq_true_iff.mp
    (by rw [← recKeysOk]; exact hkeys)).1)
  have hkU : (keysOfU fields).Nodup := (keysOfU_sublist _).nodup hknd
  have hnda : (runAliases ra fields).Nodup := by
    have h := hoka
    rw [runOk, Bool.and_eq_true_iff] at h
    exact of_decide_eq_true h.1
  have hndb : (runAliases rb fields).Nodup := by
    have h := hokb
    rw [runOk, Bool.and_eq_true_iff] at h
    exact of_decide_eq_true h.1
  obtain ⟨Ba, Ma, r3a, noncea, h1a, h2a, henvSa, -⟩ :=
    encryptFields_shape ra tsa fields hnda hkU hmetaa henca
  obtain ⟨Bb, Mb, r3b, nonceb, h1b, h2b, henvSb, -⟩ :=
    encryptFields_shape rb tsb fields hndb hkU hmetab hencb
  have hBmetaa : ∀ x ∈ keysOf Ba,
      x ≠ "encrypted" ∧ x ≠ "timestamp" ∧ x ≠ "_mapping" :=
    fun x hx => hmetaa x (h2a ▸ hx)
  have hBmetab : ∀ x ∈ keysOf Bb,
      x ≠ "encrypted" ∧ x ≠ "timestamp" ∧ x ≠ "_mapping" :=
    fun x hx => hmetab x (h2b ▸ hx)
  have hsa : stripMeta enva = Ba := by
    rw [henvSa, stripMeta_assembled _ _ _ Ba hBmetaa]
  have hsb : stripMeta envb = Bb := by
    rw [henvSb, stripMeta_assembled _ _ _ Bb hBmetab]
  have hBa : Ba = runBody ra fields :=
    encBody fields ra hnda hkU Ba Ma r3a h1a
  have hBb : Bb = runBody rb fields :=
    encBody fields rb hndb hkU Bb Mb r3b h1b
  refine ⟨?_, ?_, ?_, ?_⟩
  · have h := encryptFields_decrypt ra tsa fields hoka hkeys hmetaa henca
    rw [recImage_of_rt fields hrt] at h
    exact h
  · have h := encryptFields_decrypt rb tsb fields hokb hkeys hmetab hencb
    rw [recImage_of_rt fields hrt] at h
    exact h
  · rw [hsa, hsb, h2a, h2b]
    exact hdiffA
  · rw [hsa, hsb, hBa, hBb]
    exact hdiffT

/-! ### Concrete witness material -/

/-- A second deterministic tape, for the two-run witness. -/
def rngSeq2 : Rng := { tape := fun i => 2 * i + 1, pos := 0 }

/-- The sequential tape at a given position. -/
def rngAt (n : Nat) : Rng := { tape := fun i => i, pos := n }

/-- A one-field record used by several witnesses. -/
def fieldsW : List (String × JVal) := [("a", jNum 5)]

/-- The envelope the tape rngSeq produces for fieldsW. -/
def envA : List (String × JVal) :=
  [("encrypted", jBool true), ("timestamp", jStr "ts"),
   ("bcdefg", jStr "!!!!!!!!#5"),
   ("_mapping", jStr "!!!!!!!!!#\x7b\"a\":\"bcdefg\"\x7d")]

/-- The same envelope with one decoy field appended. -/
def envApad : List (String × JVal) :=
  envA ++ [("klmnopq", jStr "!!!!!!!!!!!!!!!!!!!#17")]

/-- The envelope the tape rngSeq2 produces for fieldsW. -/
def envB : List (String × JVal) :=
  [("encrypted", jBool true), ("timestamp", jStr "ts"),
   ("dfhjlnp", jStr "!!!!!!!!!!!!!!!!!!#5"),
   ("_mapping", jStr "!!!!!!!!!!!!!!!!!!!!#\x7b\"a\":\"dfhjlnp\"\x7d")]

/-- The envelope rngSeq produces for a record with a JSON-text string leaf
and a date leaf. -/
def envX : List (String × JVal) :=
  [("encrypted", jBool true), ("timestamp", jStr "ts"),
   ("bcdefg", jStr "!!!!!!!!#123"),
   ("jklmno", jStr "!!!!!!!!!!!!!!!!#\"D\""),
   ("_mapping", jStr "!!!!!!!!!!!!!!!!!#\x7b\"a\":\"bcdefg\",\"d\":\"jklmno\"\x7d")]

set_option maxHeartbeats 4000000 in
theorem wEncA : encryptFields rngSeq "ts" (jObj fieldsW) =
    .ok (envA, rngAt 9) := by
  simp [encryptFields, encryptNestedObject, generateRandomFieldName,
    genChars, draw, rngSeq, rngAt, fieldsW, envA, capsuleEncrypt, plaintextOf,
    jsonStringify, render, intChars, natDigits, natDigitsAux, digitChar,
    tokenEncode, aliasAlphabet, objInsert, isPlainObject, typeofIsObject,
    isArrayVal, entriesOf, renderMembers, renderString, escapeChar,
    objInsertAll, List.replicate, renderElems, hasMember]

set_option maxHeartbeats 4000000 in
theorem wRunAliasesA : runAliases rngSeq fieldsW = ["bcdefg"] := by
  simp [runAliases, generateRandomFieldName, genChars, draw, rngSeq,
    fieldsW, capsuleEncrypt, plaintextOf, jsonStringify, render, intChars,
    natDigits, natDigitsAux, digitChar, tokenEncode, aliasAlphabet,
    isPlainObject, entriesOf, renderElems, renderMembers, renderString,
    escapeChar, hasMember, List.replicate]

set_option maxHeartbeats 4000000 in
theorem wOkA : runOk rngSeq fieldsW = true := by
  rw [runOk, wRunAliasesA]
  simp [subOk, generateRandomFieldName, genChars, draw,
    rngSeq, fieldsW, capsuleEncrypt, plaintextOf, jsonStringify, render,
    intChars, natDigits, natDigitsAux, digitChar, tokenEncode, aliasAlphabet,
    isPlainObject, entriesOf, List.replicate]

theorem wKeys : recKeysOk fieldsW = true := by
  simp [recKeysOk, recNodupVals, fieldsW, keysOf, isPlainObject]

theorem wRT : roundTrippable fieldsW = true := by
  simp [roundTrippable, fieldsW, isPlainObject, leafRT, jsonRT]

theorem wMetaA : ∀ a ∈ runAliases rngSeq fieldsW,
    a ≠ "encrypted" ∧ a ≠ "timestamp" ∧ a ≠ "_mapping" := by
  rw [wRunAliasesA]; decide

set_option maxHeartbeats 4000000 in
theorem wPadAliases : padAliases (rngAt 9) 1 = ["klmnopq"] := by
  simp [padAliases, generateRandomFieldName, genChars, draw, rngAt,
    capsuleEncrypt, plaintextOf, jsonStringify, render, intChars, natDigits,
    natDigitsAux, digitChar, tokenEncode, aliasAlphabet, List.replicate]

set_option maxHeartbeats 8000000 in
theorem wEncApad : encryptFieldsWithPadding rngSeq "ts" (jObj fieldsW) 1 =
    .ok (envApad, rngAt 19) := by
  rw [encryptFieldsWithPadding, wEncA]
  show Except.ok (encryptFieldsPadLoop (rngAt 9) 1 envA) = _
  simp [encryptFieldsPadLoop, generateRandomFieldName, genChars, draw, rngAt,
    capsuleEncrypt, plaintextOf, jsonStringify, render, intChars, natDigits,
    natDigitsAux, digitChar, tokenEncode, aliasAlphabet, List.replicate,
    objInsert, envA, envApad]

set_option maxHeartbeats 4000000 in
theorem wEncB : encryptFields rngSeq2 "ts" (jObj fieldsW) =
    .ok (envB, { tape := fun i => 2 * i + 1, pos := 10 }) := by
  simp [encryptFields, encryptNestedObject, generateRandomFieldName,
    genChars, draw, rngSeq2, fieldsW, envB, capsuleEncrypt, plaintextOf,
    jsonStringify, render, intChars, natDigits, natDigitsAux, digitChar,
    tokenEncode, aliasAlphabet, objInsert, isPlainObject, typeofIsObject,
    isArrayVal, entriesOf, renderMembers, renderString, escapeChar,
    objInsertAll, List.replicate, renderElems, hasMember]

set_option maxHeartbeats 4000000 in
theorem wRunAliasesB : runAliases rngSeq2 fieldsW = ["dfhjlnp"] := by
  simp [runAliases, generateRandomFieldName, genChars, draw, rngSeq2,
    fieldsW, capsuleEncrypt, plaintextOf, jsonStringify, render, intChars,
    natDigits, natDigitsAux, digitChar, tokenEncode, aliasAlphabet,
    isPlainObject, entriesOf, List.replicate]

set_option maxHeartbeats 4000000 in
theorem wOkB : runOk rngSeq2 fieldsW = true := by
  rw [runOk, wRunAliasesB]
  simp [subOk, generateRandomFieldName, genChars, draw,
    rngSeq2, fieldsW, capsuleEncrypt, plaintextOf, jsonStringify, render,
    intChars, natDigits, natDigitsAux, digitChar, tokenEncode, aliasAlphabet,
    isPlainObject, entriesOf, List.replicate]

theorem wMetaB : ∀ a ∈ runAliases rngSeq2 fieldsW,
    a ≠ "encrypted" ∧ a ≠ "timestamp" ∧ a ≠ "_mapping" := by
  rw [wRunAliasesB]; decide

set_option maxHeartbeats 4000000 in
theorem wRunBodyA : runBody rngSeq fieldsW =
    [("bcdefg", jStr "!!!!!!!!#5")] := by
  simp [runBody, generateRandomFieldName, genChars, draw, rngSeq, fieldsW,
    capsuleEncrypt, plaintextOf, jsonStringify, render, intChars, natDigits,
    natDigitsAux, digitChar, tokenEncode, aliasAlphabet, isPlainObject,
    entriesOf, List.replicate]

set_option maxHeartbeats 4000000 in
theorem wRunBodyB : runBody rngSeq2 fieldsW =
    [("dfhjlnp", jStr "!!!!!!!!!!!!!!!!!!#5")] := by
  simp [runBody, generateRandomFieldName, genChars, draw, rngSeq2, fieldsW,
    capsuleEncrypt, plaintextOf, jsonStringify, render, intChars, natDigits,
    natDigitsAux, digitChar, tokenEncode, aliasAlphabet, isPlainObject,
    entriesOf, List.replicate]

set_option maxHeartbeats 8000000 in
theorem wEncX : encryptFields rngSeq "ts"
    (jObj [("a", jStr "123"), ("d", jDate "D")]) = .ok (envX, rngAt 17) := by
  simp [encryptFields, encryptNestedObject, generateRandomFieldName,
    genChars, draw, rngSeq, rngAt, envX, capsuleEncrypt, plaintextOf,
    jsonStringify, render, intChars, natDigits, natDigitsAux, digitChar,
    tokenEncode, aliasAlphabet, objInsert, isPlainObject, typeofIsObject,
    isArrayVal, entriesOf, renderMembers, renderString, escapeChar,
    objInsertAll, List.replicate, renderElems, hasMember]

set_option maxHeartbeats 8000000 in
theorem wDecX : decryptFields envX =
    .ok [("a", jNum 123), ("d", jStr "D")] := by
  simp [decryptFields, decryptNestedObject, envX, capsuleDecrypt, decodePlain,
    tokenDecode, tokenDecodeAux, jsonParse, parseVal, parseElems, parseMembers,
    dropWs, isWsChar, isDigitChar, spanDigits, digitsVal, unescapeChar,
    parseStringBody, parseNumber, getProp, lookupField, truthy,
    isNestedMapEntry, mappingEntries, stripMeta, objInsert, objInsertAll,
    entriesOf, isPlainObject]

/-- C1 counterexample: a record holding the string leaf "123" and a
date-like leaf encodes successfully, but its envelope decodes to the
number 123 and the date's ISO string — not the original record — because
the cipher layer JSON-parses recovered plaintexts and stringifies dates. -/
theorem C1_counterexample :
    encryptFields rngSeq "ts" (jObj [("a", jStr "123"), ("d", jDate "D")]) =
      .ok (envX, rngAt 17) ∧
    decryptFields envX = .ok [("a", jNum 123), ("d", jStr "D")] ∧
    ([("a", jNum 123), ("d", jStr "D")] : List (String × JVal)) ≠
      [("a", jStr "123"), ("d", jDate "D")] :=
  ⟨wEncX, wDecX, by decide⟩

/-- C1 witness: integer leaves round-trip exactly on a concrete tape. -/
theorem C1_round_trip_witness : decryptFields envA = .ok fieldsW :=
  C1_round_trip rngSeq "ts" fieldsW wRT wOkA wKeys wMetaA wEncA

/-- C2 witness: the envelope padded with one decoy decodes to the same
result as the undecorated envelope on a concrete tape. -/
theorem C2_decoy_inert_witness :
    decryptFieldsIgnorePadding envApad = decryptFields envA :=
  C2_decoy_inert rngSeq "ts" fieldsW 1 wOkA wKeys wMetaA wEncA
    (by rw [wPadAliases]; decide) (by rw [wPadAliases]; decide) wEncApad

/-- C7 witness: the name generator's output on a concrete tape is
alias-shaped, as is the non-metadata key of a concrete envelope. -/
theorem C7_alias_shape_witness :
    aliasShaped (generateRandomFieldName rngSeq).1 = true ∧
    aliasShaped "bcdefg" = true :=
  ⟨(C7_alias_shape rngSeq rngSeq "ts" (jObj fieldsW) wEncA).1,
   ((((C7_alias_shape rngSeq rngSeq "ts" (jObj fieldsW) wEncA).2 "bcdefg"
      (by decide)).resolve_left (by decide)).resolve_left
      (by decide)).resolve_left (by decide)⟩

/-- C8 witness: two concrete tapes produce envelopes with different alias
and token material that both decode to the same one-field record. -/
theorem C8_independent_runs_witness :
    decryptFields envA = .ok fieldsW ∧ decryptFields envB = .ok fieldsW ∧
    keysOf (stripMeta envA) ≠ keysOf (stripMeta envB) ∧
    tokensOf (stripMeta envA) ≠ tokensOf (stripMeta envB) :=
  C8_independent_runs rngSeq rngSeq2 "ts" "ts" fieldsW wRT wOkA wOkB wKeys
    wMetaA wMetaB wEncA wEncB
    (by rw [wRunAliasesA, wRunAliasesB]; decide)
    (by rw [wRunBodyA, wRunBodyB]; decide)

/-- The envelope rngSeq produces for the record holding the JSON-text
string leaf "123". -/
def envYa : List (String × JVal) :=
  [("encrypted", jBool true), ("timestamp", jStr "ts"),
   ("bcdefg", jStr "!!!!!!!!#123"),
   ("_mapping", jStr "!!!!!!!!!#\x7b\"a\":\"bcdefg\"\x7d")]

/-- The envelope rngSeq2 produces for the same record. -/
def envYb : List (String × JVal) :=
  [("encrypted", jBool true), ("timestamp", jStr "ts"),
   ("dfhjlnp", jStr "!!!!!!!!!!!!!!!!!!#123"),
   ("_mapping", jStr "!!!!!!!!!!!!!!!!!!!!#\x7b\"a\":\"dfhjlnp\"\x7d")]

set_option maxHeartbeats 8000000 in
theorem wEncYa : encryptFields rngSeq "ts" (jObj [("a", jStr "123")]) =
    .ok (envYa, rngAt 9) := by
  simp [encryptFields, encryptNestedObject, generateRandomFieldName,
    genChars, draw, rngSeq, rngAt, envYa, capsuleEncrypt, plaintextOf,
    jsonStringify, render, intChars, natDigits, natDigitsAux, digitChar,
    tokenEncode, aliasAlphabet, objInsert, isPlainObject, typeofIsObject,
    isArrayVal, entriesOf, renderMembers, renderString, escapeChar,
    objInsertAll, List.replicate, renderElems, hasMember]

set_option maxHeartbeats 8000000 in
theorem wEncYb : encryptFields rngSeq2 "ts" (jObj [("a", jStr "123")]) =
    .ok (envYb, { tape := fun i => 2 * i + 1, pos := 10 }) := by
  simp [encryptFields, encryptNestedObject, generateRandomFieldName,
    genChars, draw, rngSeq2, envYb, capsuleEncrypt, plaintextOf,
    jsonStringify, render, intChars, natDigits, natDigitsAux, digitChar,
    tokenEncode, aliasAlphabet, objInsert, isPlainObject, typeofIsObject,
    isArrayVal, entriesOf, renderMembers, renderString, escapeChar,
    objInsertAll, List.replicate, renderElems, hasMember]

set_option maxHeartbeats 8000000 in
theorem wDecYa : decryptFields envYa = .ok [("a", jNum 123)] := by
  simp [decryptFields, decryptNestedObject, envYa, capsuleDecrypt,
    decodePlain, tokenDecode, tokenDecodeAux, jsonParse, parseVal,
    parseElems, parseMembers, dropWs, isWsChar, isDigitChar, spanDigits,
    digitsVal, unescapeChar, parseStringBody, parseNumber, getProp,
    lookupField, truthy, isNestedMapEntry, mappingEntries, stripMeta,
    objInsert, objInsertAll, entriesOf, isPlainObject]

set_option maxHeartbeats 8000000 in
theorem wDecYb : decryptFields envYb = .ok [("a", jNum 123)] := by
  simp [decryptFields, decryptNestedObject, envYb, capsuleDecrypt,
    decodePlain, tokenDecode, tokenDecodeAux, jsonParse, parseVal,
    parseElems, parseMembers, dropWs, isWsChar, isDigitChar, spanDigits,
    digitsVal, unescapeChar, parseStringBody, parseNumber, getProp,
    lookupField, truthy, isNestedMapEntry, mappingEntries, stripMeta,
    objInsert, objInsertAll, entriesOf, isPlainObject]

/-- C8 counterexample: on the record holding the string leaf "123", two
independent encode runs produce envelopes with different aliases and
tokens and both decode to the same record — but that record holds the
number 123: neither run decodes to the original record, refuting the
for-every-record reading. -/
theorem C8_counterexample :
    encryptFields rngSeq "ts" (jObj [("a", jStr "123")]) =
      .ok (envYa, rngAt 9) ∧
    encryptFields rngSeq2 "ts" (jObj [("a", jStr "123")]) =
      .ok (envYb, { tape := fun i => 2 * i + 1, pos := 10 }) ∧
    keysOf (stripMeta envYa) ≠ keysOf (stripMeta envYb) ∧
    decryptFields envYa = .ok [("a", jNum 123)] ∧
    decryptFields envYb = .ok [("a", jNum 123)] ∧
    ([("a", jNum 123)] : List (String × JVal)) ≠ [("a", jStr "123")] :=
  ⟨wEncYa, wEncYb, by decide, wDecYa, wDecYb, by decide⟩
